import Mathlib

/-! # Provideo: booking router and video generation service

A shallow embedding of `src/routes/bookings.js` (the availability, book and
list handlers over the in-memory `bookings` array) and of
`src/services/videoGenerator.js` (`VideoGenerationService.generateVideo` and
its adapters), followed by the theorems about them.

Conventions of the embedding:

* a JavaScript value that may be `undefined` is an `Option`;
* a handler is a function from the module state (the `bookings` array) and
  the request to the reply and the new module state;
* an exception that escapes a handler is the `Except.error` case: the handler
  itself sent no reply (Express answers with its default error page);
* the parts of the JavaScript runtime that ECMAScript leaves to the
  implementation (how `new Date(string)` reads a string that is not in the
  ISO format, the local time zone) are fields of `Runtime`, and the general
  theorems hold for every runtime;
* `Array.prototype.sort`, whose result ECMAScript leaves to the implementation
  when the comparator is not a consistent order, is the sort of V8, the
  engine of Node.js.
-/

namespace Provideo

/-! ## Exceptions -/

/-- An exception raised by the JavaScript runtime, by the code, or by the
HTTP client. -/
inductive JsError where
  | rangeError (message : String)
  | typeError (message : String)
  | error (message : String)
  | requestFailed (cause : String)
  deriving DecidableEq, Repr

deriving instance DecidableEq for Except

/-! ## The `Date` object -/

/-- The implementation-defined parts of the JavaScript runtime. -/
structure Runtime where
  /-- Time value of `new Date(s)` for a string `s`, in milliseconds since the
  epoch; `none` is the time value `NaN` (an Invalid Date). -/
  parseDate : String → Option Int
  /-- Offset of local time from UTC at a time value, in milliseconds. -/
  localTZA : Int → Int

/-- Milliseconds in a day. -/
def msPerDay : Int := 86400000

/-- Day number of a time value (ECMAScript `Day(t)`). -/
def day (t : Int) : Int := t / msPerDay

/-- Day of the week of a time value, 0 for Sunday (ECMAScript `WeekDay(t)`). -/
def weekDay (t : Int) : Int := (day t + 4) % 7

/-- Days since the epoch of a proleptic Gregorian calendar date. -/
def daysFromCivil (y m d : Int) : Int :=
  let y1 := if m ≤ 2 then y - 1 else y
  let era := y1 / 400
  let yoe := y1 - era * 400
  let mp := if m > 2 then m - 3 else m + 9
  let doy := (153 * mp + 2) / 5 + d - 1
  let doe := yoe * 365 + yoe / 4 - yoe / 100 + doy
  era * 146097 + doe - 719468

/-- Proleptic Gregorian calendar date (year, month, day of month) of a day
number. -/
def civilFromDays (z0 : Int) : Int × Int × Int :=
  let z := z0 + 719468
  let era := z / 146097
  let doe := z - era * 146097
  let yoe := (doe - doe / 1460 + doe / 36524 - doe / 146096) / 365
  let doy := doe - (365 * yoe + yoe / 4 - yoe / 100)
  let mp := (5 * doy + 2) / 153
  let d := doy - (153 * mp + 2) / 5 + 1
  let m := if mp < 10 then mp + 3 else mp - 9
  let y := yoe + era * 400
  (if m ≤ 2 then y + 1 else y, m, d)

/-- Decimal digits of a natural number, at least `width` of them (zero
padded on the left). -/
def padLeft (width : Nat) (n : Nat) : String :=
  let s := (Nat.toDigits 10 n)
  String.mk (List.replicate (width - s.length) '0' ++ s)

/-- Year field of `toISOString`: four digits for years 0 to 9999, otherwise a
sign and six digits. -/
def isoYear (y : Int) : String :=
  if 0 ≤ y ∧ y ≤ 9999 then padLeft 4 y.toNat
  else if y < 0 then "-" ++ padLeft 6 (-y).toNat
  else "+" ++ padLeft 6 y.toNat

/-- The method `Date.prototype.toISOString`: `YYYY-MM-DDTHH:mm:ss.sssZ` in
UTC; it throws a RangeError on an Invalid Date. -/
def toISOString (tv : Option Int) : Except JsError String :=
  match tv with
  | none => .error (.rangeError "Invalid time value")
  | some t =>
    let (y, m, d) := civilFromDays (day t)
    let ms := (t % msPerDay).toNat
    .ok (isoYear y ++ "-" ++ padLeft 2 m.toNat ++ "-" ++ padLeft 2 d.toNat ++ "T"
      ++ padLeft 2 (ms / 3600000) ++ ":" ++ padLeft 2 (ms / 60000 % 60) ++ ":"
      ++ padLeft 2 (ms / 1000 % 60) ++ "." ++ padLeft 3 (ms % 1000) ++ "Z")

/-- The expression `s.split('T')[0]`: the part of `s` before its first `T`. -/
def splitT0 (s : String) : String :=
  String.mk (s.data.takeWhile (fun c => c != 'T'))

/-- English weekday names, indexed by `weekDay`. -/
def weekdayLong : List String :=
  ["Sunday", "Monday", "Tuesday", "Wednesday", "Thursday", "Friday", "Saturday"]

/-- Abbreviated English weekday names. -/
def weekdayShort : List String := ["Sun", "Mon", "Tue", "Wed", "Thu", "Fri", "Sat"]

/-- One-letter English weekday names. -/
def weekdayNarrow : List String := ["S", "M", "T", "W", "T", "F", "S"]

/-- The call `d.toLocaleDateString('en-US', { weekday: style })` of ECMA-402.
An Invalid Date gives the string "Invalid Date" before the options are read
(step 2 of `Date.prototype.toLocaleDateString`). Otherwise the date-time
format is created, which reads the option by
`GetOption(options, "weekday", string, « "narrow", "short", "long" », undefined)`:
a value outside the list throws a RangeError (in V8 with the message below).
With a valid style the result is the weekday of the date in local time. -/
def toLocaleDateString (rt : Runtime) (tv : Option Int) (style : String) :
    Except JsError String :=
  match tv with
  | none => .ok "Invalid Date"
  | some t =>
    let wd := (weekDay (t + rt.localTZA t)).toNat
    if style = "long" then .ok (weekdayLong.getD wd "")
    else if style = "short" then .ok (weekdayShort.getD wd "")
    else if style = "narrow" then .ok (weekdayNarrow.getD wd "")
    else .error (.rangeError
      ("Value " ++ style ++ " out of range for Intl.DateTimeFormat options property weekday"))

/-! ## The booking router: data -/

/-- A record of the `bookings` array, as built by the book handler. A field
the request did not carry is `undefined` (`none`). -/
structure Booking where
  id : String
  name : Option String
  email : Option String
  phone : Option String
  company : Option String
  date : Option String
  time : Option String
  projectType : Option String
  budget : Option String
  message : Option String
  status : String
  createdAt : Nat
  deriving DecidableEq, Repr

/-- The module variable `bookings`, in array order. -/
abbrev Ledger := List Booking

/-- The constant `defaultAvailability`: the slots of each weekday, by
lower-case weekday name; `none` when the object has no such key. -/
def defaultAvailability (dayName : String) : Option (List String) :=
  if dayName = "monday" then some ["09:00", "10:00", "11:00", "14:00", "15:00", "16:00"]
  else if dayName = "tuesday" then some ["09:00", "10:00", "11:00", "14:00", "15:00", "16:00"]
  else if dayName = "wednesday" then some ["09:00", "10:00", "11:00", "14:00", "15:00", "16:00"]
  else if dayName = "thursday" then some ["09:00", "10:00", "11:00", "14:00", "15:00", "16:00"]
  else if dayName = "friday" then some ["09:00", "10:00", "11:00", "14:00", "15:00"]
  else if dayName = "saturday" then some []
  else if dayName = "sunday" then some []
  else none

/-- The test `!v` on a value that is a string or `undefined`: true for
`undefined` and for the empty string. -/
def falsy (v : Option String) : Bool :=
  match v with
  | none => true
  | some s => s == ""

/-- Body and status of a reply of the availability handler. -/
structure AvailabilityReply where
  status : Nat
  success : Bool
  message : Option String
  date : Option String
  availableSlots : Option (List String)
  deriving DecidableEq, Repr

/-- The handler `router.get('/availability')`. `date` is `req.query.date`. -/
def availability (rt : Runtime) (bookings : Ledger) (date : Option String) :
    Except JsError AvailabilityReply × Ledger :=
  if falsy date then
    (.ok { status := 400, success := false, message := some "Date parameter required",
           date := none, availableSlots := none }, bookings)
  else
    let requestedDate := rt.parseDate (date.getD "")
    match toLocaleDateString rt requestedDate "lowercase" with
    | .error e => (.error e, bookings)
    | .ok dayName =>
      match toISOString requestedDate with
      | .error e => (.error e, bookings)
      | .ok iso =>
        let dateString := splitT0 iso
        let daySlots := (defaultAvailability dayName).getD []
        let bookedSlots :=
          (bookings.filter
            (fun booking => booking.date == some dateString && booking.status != "cancelled")).map
            (fun booking => booking.time)
        let availableSlots := daySlots.filter (fun slot => !bookedSlots.contains (some slot))
        (.ok { status := 200, success := true, message := none,
               date := some dateString, availableSlots := some availableSlots }, bookings)

/-- Body of a request to the book handler (`req.body`) whose fields are
strings; a field the request does not carry is `undefined`. A body with other
JSON values is a `JsonBookingRequest`. -/
structure BookingRequest where
  name : Option String
  email : Option String
  phone : Option String
  company : Option String
  date : Option String
  time : Option String
  projectType : Option String
  budget : Option String
  message : Option String
  deriving DecidableEq, Repr

/-- Body and status of a reply of the book handler. -/
structure BookReply where
  status : Nat
  success : Bool
  message : String
  booking : Option Booking
  deriving DecidableEq, Repr

/-- The handler `router.post('/book')` on a body whose fields are strings or
absent (on an arbitrary JSON body it is `createBookingJson`). `now` is the
reading of `Date.now()` and `created` the reading of the clock by
`new Date()`, both in milliseconds since the epoch. -/
def createBooking (now created : Nat) (bookings : Ledger) (body : BookingRequest) :
    BookReply × Ledger :=
  if falsy body.name || falsy body.email || falsy body.date || falsy body.time then
    ({ status := 400, success := false,
       message := "Name, email, date, and time are required", booking := none }, bookings)
  else
    let booking : Booking :=
      { id := toString now
        name := body.name
        email := body.email
        phone := body.phone
        company := body.company
        date := body.date
        time := body.time
        projectType := body.projectType
        budget := body.budget
        message := body.message
        status := "confirmed"
        createdAt := created }
    ({ status := 200, success := true, message := "Booking confirmed!",
       booking := some booking }, bookings ++ [booking])

/-- String of a value that is a string or `undefined`, as string
concatenation converts it. -/
def jsString (v : Option String) : String :=
  match v with
  | none => "undefined"
  | some s => s

/-- Time value of `new Date(a.date + ' ' + a.time)`, the sort key of the list
handler; `none` is an Invalid Date. -/
def bookingTime (rt : Runtime) (a : Booking) : Option Int :=
  rt.parseDate (jsString a.date ++ " " ++ jsString a.time)

/-- The comparator of the list handler,
`new Date(a.date + ' ' + a.time) - new Date(b.date + ' ' + b.time)`; `none`
is `NaN`, the difference when either date is invalid. -/
def compareBookings (rt : Runtime) (a b : Booking) : Option Int :=
  match bookingTime rt a, bookingTime rt b with
  | some x, some y => some (x - y)
  | _, _ => none

/-- The number `Array.prototype.sort` takes from a comparator result: `NaN`
counts as `+0`. -/
def sortOrder (v : Option Int) : Int := v.getD 0

/-! ## The sort of the runtime

`Array.prototype.sort` of V8, the engine of Node.js, is TimSort
(`third_party/v8/builtins/array-sort.tq`). The comparator result `v` is read
only through the tests `v < 0` and `v >= 0`, after `NaN` has been replaced by
0; `lt x y` below is the test `comparefn(x, y) < 0`. Runs are lists; a loop of
the source is a recursion on a number of steps that bounds its iterations. -/

section TimSort

variable {α : Type}

/-- The binary search loops of `BinaryInsertionSort` and `GallopRight`:
`while (lo < hi)`, go left of `a[m]` when `key < a[m]`, otherwise right of
it. The result is the final `hi`. -/
def searchRight (lt : α → α → Bool) (key : α) (a : List α) : Nat → Nat → Nat → Nat
  | 0, _, hi => hi
  | steps + 1, lo, hi =>
    if lo < hi then
      let m := lo + (hi - lo) / 2
      if lt key (a.getD m key) then searchRight lt key a steps lo m
      else searchRight lt key a steps (m + 1) hi
    else hi

/-- The binary search loop of `GallopLeft`: go right of `a[m]` when
`a[m] < key`, otherwise left of it. -/
def searchLeft (lt : α → α → Bool) (key : α) (a : List α) : Nat → Nat → Nat → Nat
  | 0, _, hi => hi
  | steps + 1, lo, hi =>
    if lo < hi then
      let m := lo + (hi - lo) / 2
      if lt (a.getD m key) key then searchLeft lt key a steps (m + 1) hi
      else searchLeft lt key a steps lo m
    else hi

/-- The exponential search loops of the gallops: from `offset`, as long as
`offset < maxOfs` and the element at `offset` passes `further`, remember
`offset` in `lastOfs` and go on to `2 * offset + 1`; an offset past `maxOfs`
is cut to `maxOfs`. The result is the pair of `lastOfs` and `offset`. -/
def gallopOffsets (further : Nat → Bool) (maxOfs : Nat) : Nat → Nat → Nat → Nat × Nat
  | 0, lastOfs, offset => (lastOfs, min offset maxOfs)
  | steps + 1, lastOfs, offset =>
    if offset < maxOfs then
      if further offset then gallopOffsets further maxOfs steps offset (2 * offset + 1)
      else (lastOfs, offset)
    else (lastOfs, maxOfs)

/-- The function `GallopLeft(array, key, base, length, hint)` on the run `a`:
the position before which `key` belongs in `a`, left of equal elements. -/
def gallopLeft (lt : α → α → Bool) (key : α) (a : List α) (hint : Nat) : Nat :=
  if lt (a.getD hint key) key then
    let r := gallopOffsets (fun o => lt (a.getD (hint + o) key) key) (a.length - hint)
      a.length 0 1
    searchLeft lt key a a.length (r.1 + hint + 1) (r.2 + hint)
  else
    let r := gallopOffsets (fun o => !lt (a.getD (hint - o) key) key) (hint + 1)
      a.length 0 1
    searchLeft lt key a a.length (hint + 1 - r.2) (hint - r.1)

/-- The function `GallopRight(array, key, base, length, hint)` on the run
`a`: the position before which `key` belongs in `a`, right of equal
elements. -/
def gallopRight (lt : α → α → Bool) (key : α) (a : List α) (hint : Nat) : Nat :=
  if lt key (a.getD hint key) then
    let r := gallopOffsets (fun o => lt key (a.getD (hint - o) key)) (hint + 1)
      a.length 0 1
    searchRight lt key a a.length (hint + 1 - r.2) (hint - r.1)
  else
    let r := gallopOffsets (fun o => !lt key (a.getD (hint + o) key)) (a.length - hint)
      a.length 0 1
    searchRight lt key a a.length (r.1 + hint + 1) (r.2 + hint)

/-- Number of elements after `prev` that continue an ascending run: each is
not less than the one before it. -/
def runAscending (lt : α → α → Bool) (prev : α) : List α → Nat
  | [] => 0
  | x :: xs => if lt x prev then 0 else runAscending lt x xs + 1

/-- Number of elements after `prev` that continue a strictly descending run:
each is less than the one before it. -/
def runDescending (lt : α → α → Bool) (prev : α) : List α → Nat
  | [] => 0
  | x :: xs => if lt x prev then runDescending lt x xs + 1 else 0

/-- The function `CountAndMakeRun(low, high)` on the part `l` of the array
from `low`: the run at the start of `l`, a strictly descending run reversed
in place, and the rest of `l`. -/
def countAndMakeRun (lt : α → α → Bool) (l : List α) : List α × List α :=
  match l with
  | [] => ([], [])
  | [x] => ([x], [])
  | x :: y :: rest =>
    if lt y x then
      let n := runDescending lt y rest + 2
      ((l.take n).reverse, l.drop n)
    else
      let n := runAscending lt y rest + 2
      (l.take n, l.drop n)

/-- One step of `BinaryInsertionSort`: the pivot goes into the sorted part at
the position the binary search finds. -/
def insertPivot (lt : α → α → Bool) (sorted : List α) (pivot : α) : List α :=
  let k := searchRight lt pivot sorted sorted.length 0 sorted.length
  sorted.take k ++ pivot :: sorted.drop k

/-- The function `BinaryInsertionSort(low, start, high)`: the elements of
`pending` are inserted one after the other, from the left, into the run
`sorted`. -/
def binaryInsertionSort (lt : α → α → Bool) (sorted pending : List α) : List α :=
  pending.foldl (insertPivot lt) sorted

/-- Which of the two loops of a merge is running: the one that takes one
element at a time, with the counts of consecutive wins of the two runs, or
the galloping one. -/
inductive MergeMode where
  | single (winsA winsB : Nat)
  | gallop

/-- The constant `kMinGallopWins`. -/
def kMinGallopWins : Nat := 7

/-- The loops of `MergeLow` on the rest `a` of the copy of the left run and
the rest `b` of the right run: the output from here on and the value left in
`sortState.minGallop`. `minGallop` is the local variable and `stored` the
value in the sort state. -/
def mergeLowLoop (lt : α → α → Bool) :
    Nat → MergeMode → Nat → Nat → List α → List α → List α × Nat
  | 0, _, _, stored, a, b => (a ++ b, stored)
  | steps + 1, .single winsA winsB, minGallop, stored, a, b =>
    match a, b with
    | x :: a1, y :: b1 =>
      if lt y x then
        if b1.isEmpty then (y :: a, stored)
        else if winsB + 1 ≥ minGallop then
          let r := mergeLowLoop lt steps .gallop (minGallop + 1) stored a b1
          (y :: r.1, r.2)
        else
          let r := mergeLowLoop lt steps (.single 0 (winsB + 1)) minGallop stored a b1
          (y :: r.1, r.2)
      else
        if a1.length = 1 then (x :: (b ++ a1), stored)
        else if winsA + 1 ≥ minGallop then
          let r := mergeLowLoop lt steps .gallop (minGallop + 1) stored a1 b
          (x :: r.1, r.2)
        else
          let r := mergeLowLoop lt steps (.single (winsA + 1) 0) minGallop stored a1 b
          (x :: r.1, r.2)
    | _, _ => (a ++ b, stored)
  | steps + 1, .gallop, minGallop, _, a, b =>
    let minGallop1 := max 1 (minGallop - 1)
    match b with
    | [] => (a, minGallop1)
    | y :: b1 =>
      let winsA := gallopRight lt y a 0
      let a1 := a.drop winsA
      if 0 < winsA ∧ a1.length = 1 then (a.take winsA ++ (b ++ a1), minGallop1)
      else if 0 < winsA ∧ a1.length = 0 then (a.take winsA ++ b, minGallop1)
      else if b1.isEmpty then (a.take winsA ++ y :: a1, minGallop1)
      else
        match a1 with
        | [] => (a.take winsA ++ b, minGallop1)
        | x :: a2 =>
          let winsB := gallopLeft lt x b1 0
          let b2 := b1.drop winsB
          if 0 < winsB ∧ b2.isEmpty then
            (a.take winsA ++ y :: (b1.take winsB ++ a1), minGallop1)
          else if a2.length = 1 then
            (a.take winsA ++ y :: (b1.take winsB ++ x :: (b2 ++ a2)), minGallop1)
          else if winsA ≥ kMinGallopWins ∨ winsB ≥ kMinGallopWins then
            let r := mergeLowLoop lt steps .gallop minGallop1 minGallop1 a2 b2
            (a.take winsA ++ y :: (b1.take winsB ++ x :: r.1), r.2)
          else
            let r := mergeLowLoop lt steps (.single 0 0) (minGallop1 + 1) (minGallop1 + 1) a2 b2
            (a.take winsA ++ y :: (b1.take winsB ++ x :: r.1), r.2)

/-- The function `MergeLow(baseA, lengthA, baseB, lengthB)` on the runs `a`
and `b`: the merged run and the value left in `sortState.minGallop`. -/
def mergeLow (lt : α → α → Bool) (stored : Nat) (a b : List α) : List α × Nat :=
  match b with
  | [] => (a, stored)
  | y :: b1 =>
    if b1.isEmpty then (y :: a, stored)
    else if a.length = 1 then (y :: (b1 ++ a), stored)
    else
      let r := mergeLowLoop lt (a.length + b.length) (.single 0 0) stored stored a b1
      (y :: r.1, r.2)

/-- The loops of `MergeHigh` on the rest of the left run and the rest of the
copy of the right run, both given from their last element backwards (`ra`,
`rb`): the output from here on, from right to left, and the value left in
`sortState.minGallop`. -/
def mergeHighLoop (lt : α → α → Bool) :
    Nat → MergeMode → Nat → Nat → List α → List α → List α × Nat
  | 0, _, _, stored, ra, rb => (ra ++ rb, stored)
  | steps + 1, .single winsA winsB, minGallop, stored, ra, rb =>
    match ra, rb with
    | x :: ra1, y :: rb1 =>
      if lt y x then
        if ra1.isEmpty then (x :: rb, stored)
        else if winsA + 1 ≥ minGallop then
          let r := mergeHighLoop lt steps .gallop (minGallop + 1) stored ra1 rb
          (x :: r.1, r.2)
        else
          let r := mergeHighLoop lt steps (.single (winsA + 1) 0) minGallop stored ra1 rb
          (x :: r.1, r.2)
      else
        if rb1.length = 1 then (y :: (ra ++ rb1), stored)
        else if winsB + 1 ≥ minGallop then
          let r := mergeHighLoop lt steps .gallop (minGallop + 1) stored ra rb1
          (y :: r.1, r.2)
        else
          let r := mergeHighLoop lt steps (.single 0 (winsB + 1)) minGallop stored ra rb1
          (y :: r.1, r.2)
    | _, _ => (ra ++ rb, stored)
  | steps + 1, .gallop, minGallop, _, ra, rb =>
    let minGallop1 := max 1 (minGallop - 1)
    match rb with
    | [] => (ra, minGallop1)
    | y :: rb1 =>
      let winsA := ra.length - gallopRight lt y ra.reverse (ra.length - 1)
      let ra1 := ra.drop winsA
      if 0 < winsA ∧ ra1.length = 0 then (ra.take winsA ++ rb, minGallop1)
      else if rb1.length = 1 then (ra.take winsA ++ y :: (ra1 ++ rb1), minGallop1)
      else
        match ra1 with
        | [] => (ra.take winsA ++ rb, minGallop1)
        | x :: ra2 =>
          let winsB := rb1.length - gallopLeft lt x rb1.reverse (rb1.length - 1)
          let rb2 := rb1.drop winsB
          if 0 < winsB ∧ rb2.length = 1 then
            (ra.take winsA ++ y :: (rb1.take winsB ++ (ra1 ++ rb2)), minGallop1)
          else if 0 < winsB ∧ rb2.length = 0 then
            (ra.take winsA ++ y :: (rb1.take winsB ++ ra1), minGallop1)
          else if ra2.isEmpty then
            (ra.take winsA ++ y :: (rb1.take winsB ++ x :: rb2), minGallop1)
          else if winsA ≥ kMinGallopWins ∨ winsB ≥ kMinGallopWins then
            let r := mergeHighLoop lt steps .gallop minGallop1 minGallop1 ra2 rb2
            (ra.take winsA ++ y :: (rb1.take winsB ++ x :: r.1), r.2)
          else
            let r := mergeHighLoop lt steps (.single 0 0) (minGallop1 + 1) (minGallop1 + 1)
              ra2 rb2
            (ra.take winsA ++ y :: (rb1.take winsB ++ x :: r.1), r.2)

/-- The function `MergeHigh(baseA, lengthA, baseB, lengthB)` on the runs `a`
and `b`: the merged run and the value left in `sortState.minGallop`. -/
def mergeHigh (lt : α → α → Bool) (stored : Nat) (a b : List α) : List α × Nat :=
  match a.reverse with
  | [] => (b, stored)
  | x :: ra1 =>
    if ra1.isEmpty then (b ++ [x], stored)
    else if b.length = 1 then (b ++ ra1.reverse ++ [x], stored)
    else
      let r := mergeHighLoop lt (a.length + b.length) (.single 0 0) stored stored ra1 b.reverse
      (r.1.reverse ++ [x], r.2)

/-- The function `MergeAt(i)` on the runs `a` (at `i`) and `b` (at `i + 1`):
the elements of `a` that are already in place and the elements of `b` that
are already in place stay, the rest is merged by `MergeLow` or `MergeHigh`.
The result is the merged run and the value left in `sortState.minGallop`. -/
def mergeAt (lt : α → α → Bool) (stored : Nat) (a b : List α) : List α × Nat :=
  match b with
  | [] => (a, stored)
  | y :: _ =>
    let k := gallopRight lt y a 0
    let a2 := a.drop k
    match a2.getLast? with
    | none => (a ++ b, stored)
    | some keyLeft =>
      let lengthB := gallopLeft lt keyLeft b (b.length - 1)
      let b1 := b.take lengthB
      if b1.isEmpty then (a ++ b, stored)
      else
        let r := if a2.length ≤ b1.length then mergeLow lt stored a2 b1
                 else mergeHigh lt stored a2 b1
        (a.take k ++ r.1 ++ b.drop lengthB, r.2)

/-- The loop of `MergeCollapse` on the stack of pending runs, the most recent
run first: the stack and the value of `sortState.minGallop` after it. -/
def mergeCollapse (lt : α → α → Bool) : Nat → Nat → List (List α) → List (List α) × Nat
  | 0, stored, runs => (runs, stored)
  | steps + 1, stored, runs =>
    match runs with
    | x :: y :: rest =>
      let established1 :=
        match rest with
        | z :: _ => decide (z.length > y.length + x.length)
        | [] => true
      let established0 :=
        match rest with
        | z :: w :: _ => decide (w.length > z.length + y.length)
        | _ => true
      if !established1 || !established0 then
        match rest with
        | z :: rest1 =>
          if z.length < x.length then
            let r := mergeAt lt stored z y
            mergeCollapse lt steps r.2 (x :: r.1 :: rest1)
          else
            let r := mergeAt lt stored y x
            mergeCollapse lt steps r.2 (r.1 :: rest)
        | [] =>
          let r := mergeAt lt stored y x
          mergeCollapse lt steps r.2 (r.1 :: rest)
      else if y.length ≤ x.length then
        let r := mergeAt lt stored y x
        mergeCollapse lt steps r.2 (r.1 :: rest)
      else (runs, stored)
    | _ => (runs, stored)

/-- The loop of `MergeForceCollapse` on the stack of pending runs, the most
recent run first: the one run that is left. -/
def mergeForceCollapse (lt : α → α → Bool) : Nat → Nat → List (List α) → List α
  | 0, _, runs => (runs.reverse.foldl (fun acc r => acc ++ r) [])
  | steps + 1, stored, runs =>
    match runs with
    | x :: y :: rest =>
      match rest with
      | z :: rest1 =>
        if z.length < x.length then
          let r := mergeAt lt stored z y
          mergeForceCollapse lt steps r.2 (x :: r.1 :: rest1)
        else
          let r := mergeAt lt stored y x
          mergeForceCollapse lt steps r.2 (r.1 :: rest)
      | [] =>
        let r := mergeAt lt stored y x
        mergeForceCollapse lt steps r.2 (r.1 :: rest)
    | [x] => x
    | [] => []

/-- The loop of `ComputeMinRunLength`. -/
def minRunLoop : Nat → Nat → Nat → Nat
  | 0, n, r => n + r
  | steps + 1, n, r => if n ≥ 64 then minRunLoop steps (n / 2) (max r (n % 2)) else n + r

/-- The function `ComputeMinRunLength(n)`. -/
def computeMinRunLength (n : Nat) : Nat := minRunLoop n n 0

/-- The next run of the main loop of `ArrayTimSortImpl` and the part of the
array after it: the run `CountAndMakeRun` finds at the start of `remaining`,
extended by `BinaryInsertionSort` to `min(minRunLength, remaining)` elements
when it is shorter than `minRunLength`. -/
def nextRun (lt : α → α → Bool) (minRun : Nat) (remaining : List α) : List α × List α :=
  let cut := countAndMakeRun lt remaining
  if cut.1.length < minRun then
    let forced := min minRun remaining.length - cut.1.length
    (binaryInsertionSort lt cut.1 (cut.2.take forced), cut.2.drop forced)
  else cut

/-- The main loop of `ArrayTimSortImpl`, `while (remaining != 0)`, and the
call of `MergeForceCollapse` after it: `runs` is the stack of pending runs,
the most recent first, and `remaining` the part of the array not yet cut into
runs. Every turn takes at least one element, so `remaining.length` steps are
enough. -/
def timSortLoop (lt : α → α → Bool) (minRun : Nat) :
    Nat → Nat → List (List α) → List α → List α
  | 0, stored, runs, _ => mergeForceCollapse lt runs.length stored runs
  | steps + 1, stored, runs, remaining =>
    if remaining.isEmpty then mergeForceCollapse lt runs.length stored runs
    else
      let next := nextRun lt minRun remaining
      let collapsed := mergeCollapse lt (runs.length + 1) stored (next.1 :: runs)
      timSortLoop lt minRun steps collapsed.2 collapsed.1 next.2

/-- The function `ArrayTimSortImpl` on the elements of the array. -/
def timSort (lt : α → α → Bool) (l : List α) : List α :=
  if l.length < 2 then l
  else timSortLoop lt (computeMinRunLength l.length) l.length kMinGallopWins [] l

end TimSort

/-! ## The interleavings of a merge

What a merge of the sort guarantees whatever the comparator: its result is an
interleaving of the two runs in which an element of the right run stands
after an element of the left run only if it is not less than it, and before
one only if it is less than it. -/

section Interleaving

variable {α : Type}

/-- The condition between two neighbours of a merged run, each with the run
it comes from (`false` the left run, `true` the right run): an element of the
right run that follows an element of the left run is not less than it, and an
element of the right run that precedes an element of the left run is less
than it. Neighbours from the same run are not constrained. -/
def Cross (lt : α → α → Bool) (x y : Bool × α) : Prop :=
  (x.1 = false → y.1 = true → lt y.2 x.2 = false)
    ∧ (x.1 = true → y.1 = false → lt x.2 y.2 = true)

/-- The condition `Cross` read from right to left. -/
def CrossR (lt : α → α → Bool) (x y : Bool × α) : Prop := Cross lt y x

/-- The elements of the left run in a list of elements with their run. -/
def leftPart (t : List (Bool × α)) : List α := (t.filter (fun x => !x.1)).map Prod.snd

/-- The elements of the right run in a list of elements with their run. -/
def rightPart (t : List (Bool × α)) : List α := (t.filter (fun x => x.1)).map Prod.snd

/-- The list `out` is an interleaving of `a` and `b` whose neighbours, and
whose first element after `prev`, satisfy `R`. -/
def WeaveFrom (R : Bool × α → Bool × α → Prop) (prev : Bool × α) (a b out : List α) : Prop :=
  ∃ t : List (Bool × α),
    t.map Prod.snd = out ∧ leftPart t = a ∧ rightPart t = b ∧ List.Chain R prev t

/-- The list `out` is an interleaving of the runs `a` and `b` whose
neighbours satisfy `Cross`. -/
def Weave (lt : α → α → Bool) (a b out : List α) : Prop :=
  ∃ t : List (Bool × α),
    t.map Prod.snd = out ∧ leftPart t = a ∧ rightPart t = b ∧ List.Chain' (Cross lt) t

/-- The last element of a block with its run, or `prev` for an empty
block. -/
def lastOf (tag : Bool) (prev : Bool × α) (block : List α) : Bool × α :=
  match block.getLast? with
  | some x => (tag, x)
  | none => prev

/-- The run `run` is made from the part `src` of the array by merges: one
element is a run, and an interleaving of two runs, made from two parts that
follow each other, whose neighbours satisfy `Cross`, is a run. -/
inductive Woven (lt : α → α → Bool) : List α → List α → Prop where
  | single (x : α) : Woven lt [x] [x]
  | weave (s1 r1 s2 r2 out : List α) :
      Woven lt s1 r1 → Woven lt s2 r2 → Weave lt r1 r2 out → Woven lt (s1 ++ s2) out

/-- The stack of pending runs `runs`, the most recent first, is made from the
part `src` of the array: every run from its own part, the parts in the order
of the array. -/
def Stacked (lt : α → α → Bool) : List (List α) → List α → Prop
  | [], src => src = []
  | r :: rs, src => ∃ s1 s2, s1 ++ s2 = src ∧ Stacked lt rs s1 ∧ Woven lt s2 r

end Interleaving

/-- The method `Array.prototype.sort(cmp)` on an array of objects: the sort
of the runtime with the comparator result read as `Array.prototype.sort`
reads it, `NaN` as 0, and tested by `< 0`. -/
def jsSort {α : Type} (cmp : α → α → Option Int) (l : List α) : List α :=
  timSort (fun x y => decide (sortOrder (cmp x y) < 0)) l

/-- Body and status of a reply of the list handler. -/
structure ListReply where
  status : Nat
  success : Bool
  bookings : List Booking
  deriving DecidableEq, Repr

/-- The handler `router.get('/')`. `bookings.sort` sorts the module array in
place and returns it, so the array is left sorted. -/
def listBookings (rt : Runtime) (bookings : Ledger) : ListReply × Ledger :=
  let sorted := jsSort (compareBookings rt) bookings
  ({ status := 200, success := true, bookings := sorted }, sorted)

/-! ## Histories of the booking router -/

/-- A request to the booking router, with the clock readings a booking
takes. -/
inductive Request where
  | availability (date : Option String)
  | book (now created : Nat) (body : BookingRequest)
  | list

/-- The `bookings` array after the router has served a request. -/
def step (rt : Runtime) (bookings : Ledger) : Request → Ledger
  | .availability date => (availability rt bookings date).2
  | .book now created body => (createBooking now created bookings body).2
  | .list => (listBookings rt bookings).2

/-- The `bookings` array after the router has served a sequence of requests,
from the empty array of a fresh process. -/
def run (rt : Runtime) (requests : List Request) : Ledger :=
  requests.foldl (step rt) []

/-- The record a request creates, if any. -/
def insertedBy : Request → List Booking
  | .book now created body => (createBooking now created [] body).1.booking.toList
  | _ => []

/-- The records a sequence of requests creates, in the order of insertion. -/
def inserted : List Request → List Booking
  | [] => []
  | r :: rs => insertedBy r ++ inserted rs

/-- The reading of `Date.now()` a request takes for the id of its record: the
one of a book request that passes the guard on the required fields. -/
def clockReading : Request → List Nat
  | .book now created body =>
    if (createBooking now created [] body).1.success then [now] else []
  | _ => []

/-- The readings of `Date.now()` the successful book requests of a sequence
take, in order. -/
def clockReadings : List Request → List Nat
  | [] => []
  | r :: rs => clockReading r ++ clockReadings rs

/-- Chronological order of two bookings by the date and time they carry; a
booking whose date and time do not parse is not compared. -/
def chronLE (rt : Runtime) (a b : Booking) : Bool :=
  match bookingTime rt a, bookingTime rt b with
  | some x, some y => decide (x ≤ y)
  | _, _ => true

/-! ## The video generation service: data -/

/-- A value of an HTTP body: a JSON value, or `undefined` for a property
that is not there. An object lists each of its properties once. -/
inductive JsVal where
  | undefined
  | null
  | bool (b : Bool)
  | num (n : Int)
  | str (s : String)
  | arr (items : List JsVal)
  | obj (fields : List (String × JsVal))

/-- Property access `v.key` for a key that no built-in prototype defines:
a TypeError on `undefined` and `null`, the property of an object, and
`undefined` on any other value. -/
def getProp (v : JsVal) (key : String) : Except JsError JsVal :=
  match v with
  | .undefined =>
    .error (.typeError ("Cannot read properties of undefined (reading \x27" ++ key ++ "\x27)"))
  | .null =>
    .error (.typeError ("Cannot read properties of null (reading \x27" ++ key ++ "\x27)"))
  | .obj fields => .ok ((fields.lookup key).getD .undefined)
  | _ => .ok .undefined

/-- Index access `v[i]`: a TypeError on `undefined` and `null`, the element
of an array, the character of a string, the property named by the index of an
object, and `undefined` otherwise. -/
def getIndex (v : JsVal) (i : Nat) : Except JsError JsVal :=
  match v with
  | .undefined =>
    .error (.typeError
      ("Cannot read properties of undefined (reading \x27" ++ toString i ++ "\x27)"))
  | .null =>
    .error (.typeError ("Cannot read properties of null (reading \x27" ++ toString i ++ "\x27)"))
  | .arr items => .ok (items.getD i .undefined)
  | .str s =>
    .ok (match s.data.get? i with
      | some c => .str (String.singleton c)
      | none => .undefined)
  | .obj fields => .ok ((fields.lookup (toString i)).getD .undefined)
  | _ => .ok .undefined

/-- An entry of `this.providers`. -/
structure ProviderConfig where
  baseURL : String
  costPerVideo : ℚ
  maxDuration : Nat

/-- The entry `this.providers.stabilityai`. -/
def stabilityai : ProviderConfig :=
  { baseURL := "https://api.stability.ai", costPerVideo := 1 / 2, maxDuration := 4 }

/-- The entry `this.providers.pika`. -/
def pika : ProviderConfig :=
  { baseURL := "https://api.pika.art", costPerVideo := 1, maxDuration := 10 }

/-- The entry `this.providers.runway`. -/
def runway : ProviderConfig :=
  { baseURL := "https://api.runwayml.com", costPerVideo := 5, maxDuration := 16 }

/-- The registry `this.providers`, in the order of the constructor. -/
def providers : List (String × ProviderConfig) :=
  [("stabilityai", stabilityai), ("pika", pika), ("runway", runway)]

/-- Names of the properties every object inherits from `Object.prototype`. -/
def objectPrototypeKeys : List String :=
  ["constructor", "hasOwnProperty", "isPrototypeOf", "propertyIsEnumerable",
   "toLocaleString", "toString", "valueOf", "__proto__", "__defineGetter__",
   "__defineSetter__", "__lookupGetter__", "__lookupSetter__"]

/-- Value of the expression `this.providers[provider]`. -/
inductive ProviderLookup where
  | config (c : ProviderConfig)
  | inherited
  | undefined

/-- The expression `this.providers[provider]`: the entry of a key of the
registry, an inherited member of `Object.prototype`, or `undefined`. -/
def lookupProvider (provider : String) : ProviderLookup :=
  match providers.lookup provider with
  | some c => .config c
  | none => if provider ∈ objectPrototypeKeys then .inherited else .undefined

/-- The expression `this.providers[provider].costPerVideo`: a TypeError when
the lookup is `undefined`, and `undefined` on an inherited member. -/
def lookupCost (provider : String) : Except JsError (Option ℚ) :=
  match lookupProvider provider with
  | .config c => .ok (some c.costPerVideo)
  | .inherited => .ok none
  | .undefined =>
    .error (.typeError "Cannot read properties of undefined (reading \x27costPerVideo\x27)")

/-- The argument `options` of `generateVideo`. -/
structure GenerateOptions where
  provider : Option String
  duration : Option Nat
  style : Option String
  clientId : Option String
  projectId : Option String

/-- Environment variables the adapters read. -/
structure Env where
  stabilityApiKey : Option String
  runwayApiKey : Option String

/-- A call of `axios.post(url, body, { headers })`. -/
structure HttpRequest where
  url : String
  body : JsVal
  authorization : String
  contentType : String

/-- The HTTP client: for each request the `data` of the response, or the
error `axios.post` rejects with (network failure, non-success status). -/
abbrev HttpClient := HttpRequest → Except JsError JsVal

/-- The billing record `logEntry` of `logVideoRequest`. -/
structure LogEntry where
  clientId : Option String
  provider : String
  cost : Option ℚ
  timestamp : Nat
  status : String

/-- An observable effect of `generateVideo`, in the order of occurrence. -/
inductive Event where
  | consoleLog (text : String)
  | billingLog (entry : LogEntry)
  | httpPost (request : HttpRequest)
  | consoleError (e : JsError)

/-- The value `generateVideo` resolves with: the object of the Stability
adapter or the object of the Runway adapter. -/
inductive VideoResult where
  | video (videoUrl : JsVal) (provider : String) (cost : ℚ) (duration : Nat)
  | task (taskId : JsVal) (provider : String) (cost : ℚ) (status : String)

/-- The field `provider` of a result. -/
def VideoResult.provider : VideoResult → String
  | .video _ p _ _ => p
  | .task _ p _ _ => p

/-- The field `cost` of a result. -/
def VideoResult.cost : VideoResult → ℚ
  | .video _ _ c _ => c
  | .task _ _ c _ => c

/-! ## The video generation service: methods -/

/-- The TypeError of calling the method `generateWithPika`, which the class
does not define. -/
def pikaTypeError : JsError := .typeError "this.generateWithPika is not a function"

/-- The request `generateWithStability` posts. -/
def stabilityRequest (env : Env) (prompt : String) : HttpRequest :=
  { url := stabilityai.baseURL ++ "/v1/generation/stable-video-diffusion-xl/text-to-video"
    body := .obj [("text_prompts", .arr [.obj [("text", .str prompt)]]),
                  ("cfg_scale", .num 7), ("motion_bucket_id", .num 127),
                  ("seed", .num 0), ("steps", .num 25)]
    authorization := "Bearer " ++ jsString env.stabilityApiKey
    contentType := "application/json" }

/-- The request `generateWithRunway` posts. -/
def runwayRequest (env : Env) (prompt : String) (duration : Nat) : HttpRequest :=
  { url := runway.baseURL ++ "/v1/tasks"
    body := .obj [("taskType", .str "gen3a_turbo"), ("internal", .bool false),
                  ("options", .obj [("text_prompt", .str prompt), ("duration", .num duration),
                                    ("exploreMode", .bool false), ("watermark", .bool false)])]
    authorization := "Bearer " ++ jsString env.runwayApiKey
    contentType := "application/json" }

/-- The expression `response.data.artifacts[0].base64` of
`generateWithStability`, on the `data` of the response. -/
def stabilityArtifact (data : JsVal) : Except JsError JsVal :=
  (getProp data "artifacts").bind
    (fun a => (getIndex a 0).bind (fun first => getProp first "base64"))

/-- The expression `response.data.task.id` of `generateWithRunway`, on the
`data` of the response. -/
def runwayTaskId (data : JsVal) : Except JsError JsVal :=
  (getProp data "task").bind (fun task => getProp task "id")

/-- The method `generateWithStability(prompt, { duration, style })`; the
style is not used. -/
def generateWithStability (http : HttpClient) (env : Env) (prompt : String) (duration : Nat) :
    Except JsError VideoResult × List Event :=
  let request := stabilityRequest env prompt
  match http request with
  | .error e => (.error e, [.httpPost request])
  | .ok data =>
    match (getProp data "artifacts").bind
        (fun a => (getIndex a 0).bind (fun first => getProp first "base64")) with
    | .error e => (.error e, [.httpPost request])
    | .ok base64 =>
      (.ok (.video base64 "stabilityai" stabilityai.costPerVideo duration), [.httpPost request])

/-- The method `generateWithRunway(prompt, { duration, style })`; the style
is not used. -/
def generateWithRunway (http : HttpClient) (env : Env) (prompt : String) (duration : Nat) :
    Except JsError VideoResult × List Event :=
  let request := runwayRequest env prompt duration
  match http request with
  | .error e => (.error e, [.httpPost request])
  | .ok data =>
    match (getProp data "task").bind (fun task => getProp task "id") with
    | .error e => (.error e, [.httpPost request])
    | .ok id => (.ok (.task id "runway" runway.costPerVideo "processing"), [.httpPost request])

/-- The method `logVideoRequest(clientId, provider, cost)`; `now` is the
reading of the clock. -/
def logVideoRequest (now : Nat) (clientId : Option String) (provider : String)
    (cost : Option ℚ) : List Event :=
  [.billingLog { clientId := clientId, provider := provider, cost := cost,
                 timestamp := now, status := "initiated" }]

/-- The body of the `try` block of `generateVideo`, after the destructuring
of the options. The class has no method `generateWithPika`, so the call of
it in the `pika` case is a TypeError. -/
def generateVideoTry (http : HttpClient) (env : Env) (now : Nat) (prompt : String)
    (provider : String) (duration : Nat) (clientId : Option String) :
    Except JsError VideoResult × List Event :=
  let started : List Event :=
    [.consoleLog ("Generating video with " ++ provider ++ " for client " ++ jsString clientId)]
  match lookupCost provider with
  | .error e => (.error e, started)
  | .ok cost =>
    let logged := started ++ logVideoRequest now clientId provider cost
    if provider = "stabilityai" then
      let r := generateWithStability http env prompt duration
      (r.1, logged ++ r.2)
    else if provider = "pika" then
      (.error pikaTypeError, logged)
    else if provider = "runway" then
      let r := generateWithRunway http env prompt duration
      (r.1, logged ++ r.2)
    else
      (.error (.error ("Unsupported provider: " ++ provider)), logged)

/-- The method `generateVideo(prompt, options)`: the result it resolves with
or the error it rejects with, and the effects in order. The `catch` block
logs the error and throws it again. -/
def generateVideo (http : HttpClient) (env : Env) (now : Nat) (prompt : String)
    (options : GenerateOptions) : Except JsError VideoResult × List Event :=
  let provider := options.provider.getD "stabilityai"
  let duration := options.duration.getD 4
  let r := generateVideoTry http env now prompt provider duration options.clientId
  match r.1 with
  | .error e => (.error e, r.2 ++ [.consoleError e])
  | .ok v => (.ok v, r.2)

/-! ## The book handler on an arbitrary JSON body

The body of a request is parsed by `express.json()`, so a field may hold any
JSON value. The handler below is `router.post('/book')` on such a body;
`createBooking` is its restriction to bodies whose fields are strings or
absent (lemma `createBookingJson_of_strings`). Numbers of `JsVal` are the
integers; a fraction, which the test `!v` never rejects, is not represented. -/

/-- The test `!v` of JavaScript: true for `undefined`, `null`, `false`, the
number 0 and the empty string, false for every other value, arrays and
objects included. -/
def jsFalsy : JsVal → Bool
  | .undefined => true
  | .null => true
  | .bool b => !b
  | .num n => n == 0
  | .str s => s == ""
  | .arr _ => false
  | .obj _ => false

/-- Body of a request to the book handler as `express.json()` delivers it; a
field the body does not carry is `undefined`. -/
structure JsonBookingRequest where
  name : JsVal
  email : JsVal
  phone : JsVal
  company : JsVal
  date : JsVal
  time : JsVal
  projectType : JsVal
  budget : JsVal
  message : JsVal

/-- A record of the `bookings` array built from an arbitrary JSON body. -/
structure JsonBooking where
  id : String
  name : JsVal
  email : JsVal
  phone : JsVal
  company : JsVal
  date : JsVal
  time : JsVal
  projectType : JsVal
  budget : JsVal
  message : JsVal
  status : String
  createdAt : Nat

/-- Body and status of a reply of the book handler to an arbitrary JSON
body. -/
structure JsonBookReply where
  status : Nat
  success : Bool
  message : String
  booking : Option JsonBooking

/-- The handler `router.post('/book')` on an arbitrary JSON body. `now` is
the reading of `Date.now()` and `created` the reading of the clock by
`new Date()`. -/
def createBookingJson (now created : Nat) (bookings : List JsonBooking)
    (body : JsonBookingRequest) : JsonBookReply × List JsonBooking :=
  if jsFalsy body.name || jsFalsy body.email || jsFalsy body.date || jsFalsy body.time then
    ({ status := 400, success := false,
       message := "Name, email, date, and time are required", booking := none }, bookings)
  else
    let booking : JsonBooking :=
      { id := toString now
        name := body.name
        email := body.email
        phone := body.phone
        company := body.company
        date := body.date
        time := body.time
        projectType := body.projectType
        budget := body.budget
        message := body.message
        status := "confirmed"
        createdAt := created }
    ({ status := 200, success := true, message := "Booking confirmed!",
       booking := some booking }, bookings ++ [booking])

/-- The JSON value of a field that is a string or `undefined`. -/
def fieldValue : Option String → JsVal
  | none => .undefined
  | some s => .str s

/-- A body whose fields are strings or absent, as a JSON body. -/
def BookingRequest.toJson (body : BookingRequest) : JsonBookingRequest :=
  { name := fieldValue body.name, email := fieldValue body.email,
    phone := fieldValue body.phone, company := fieldValue body.company,
    date := fieldValue body.date, time := fieldValue body.time,
    projectType := fieldValue body.projectType, budget := fieldValue body.budget,
    message := fieldValue body.message }

/-- A record whose fields are strings or absent, as a record of JSON
values. -/
def Booking.toJson (b : Booking) : JsonBooking :=
  { id := b.id, name := fieldValue b.name, email := fieldValue b.email,
    phone := fieldValue b.phone, company := fieldValue b.company,
    date := fieldValue b.date, time := fieldValue b.time,
    projectType := fieldValue b.projectType, budget := fieldValue b.budget,
    message := fieldValue b.message, status := b.status, createdAt := b.createdAt }

/-- A reply of the book handler on strings, as a reply on JSON values. -/
def BookReply.toJson (r : BookReply) : JsonBookReply :=
  { status := r.status, success := r.success, message := r.message,
    booking := r.booking.map Booking.toJson }

/-! ## A reference runtime

A concrete runtime for evaluating the handlers: it reads the two string forms
of the HTTP interface, the ISO date `YYYY-MM-DD` (UTC midnight, as ECMAScript
prescribes for the date-only form) and the date-time `YYYY-MM-DD HH:MM`
(local time), its local time zone is UTC, and every other string is an
Invalid Date. -/

/-- Value of a non-empty string of decimal digits. -/
def digitsValue (cs : List Char) : Option Nat :=
  if cs ≠ [] ∧ cs.all Char.isDigit = true then
    some (cs.foldl (fun n c => 10 * n + (c.toNat - 48)) 0)
  else none

/-- Number of days of a month of the proleptic Gregorian calendar. -/
def daysInMonth (y m : Int) : Int :=
  daysFromCivil (if m = 12 then y + 1 else y) (if m = 12 then 1 else m + 1) 1
    - daysFromCivil y m 1

/-- Day number of a date written `YYYY-MM-DD`. -/
def parseIsoDate (cs : List Char) : Option Int :=
  if cs.length = 10 ∧ cs.get? 4 = some '-' ∧ cs.get? 7 = some '-' then
    match digitsValue (cs.take 4), digitsValue ((cs.drop 5).take 2), digitsValue (cs.drop 8) with
    | some y, some m, some d =>
      if 1 ≤ m ∧ m ≤ 12 ∧ 1 ≤ d ∧ (d : Int) ≤ daysInMonth y m then
        some (daysFromCivil y m d)
      else none
    | _, _, _ => none
  else none

/-- Milliseconds since midnight of a time of day written `HH:MM`. -/
def parseClock (cs : List Char) : Option Int :=
  if cs.length = 5 ∧ cs.get? 2 = some ':' then
    match digitsValue (cs.take 2), digitsValue (cs.drop 3) with
    | some h, some m => if h ≤ 23 ∧ m ≤ 59 then some ((h * 60 + m) * 60000 : Nat) else none
    | _, _ => none
  else none

/-- Time value of a string for the reference runtime. -/
def referenceParse (s : String) : Option Int :=
  match parseIsoDate (s.data.take 10) with
  | none => none
  | some days =>
    if s.data.drop 10 = [] then some (days * msPerDay)
    else if s.data.get? 10 = some ' ' then
      match parseClock (s.data.drop 11) with
      | some ms => some (days * msPerDay + ms)
      | none => none
    else none

/-- The reference runtime. -/
def referenceRuntime : Runtime where
  parseDate := referenceParse
  localTZA := fun _ => 0

/-! ## Inputs of the scenarios -/

/-- The error `toLocaleDateString` throws for the weekday style the
availability handler passes, "lowercase". -/
def weekdayRangeError : JsError :=
  .rangeError "Value lowercase out of range for Intl.DateTimeFormat options property weekday"

/-- The booking request of the scenario of the spec: name A, a Monday. -/
def scenarioRequest : BookingRequest :=
  { name := some "A", email := some "a@x.com", phone := none, company := none,
    date := some "2025-06-02", time := some "09:00", projectType := none, budget := none,
    message := none }

/-- A booking request of client A for a date and a time. -/
def requestAt (date time : String) : BookingRequest :=
  { name := some "A", email := some "a@x.com", phone := none, company := none,
    date := some date, time := some time, projectType := none, budget := none,
    message := none }

/-- Three bookings made in this order: for 3 June, for a date that is no
date, and for 2 June. -/
def mixedHistory : List Request :=
  [.book 1748000000001 1748000000001 (requestAt "2025-06-03" "09:00"),
   .book 1748000000002 1748000000002 (requestAt "soon" "x"),
   .book 1748000000003 1748000000003 (requestAt "2025-06-02" "09:00")]

/-- Three bookings made in this order: for 3 June, and two for 2 June at
09:00. -/
def tiedHistory : List Request :=
  [.book 1748000000001 1748000000001 (requestAt "2025-06-03" "09:00"),
   .book 1748000000002 1748000000002 (requestAt "2025-06-02" "09:00"),
   .list,
   .book 1748000000003 1748000000003 (requestAt "2025-06-02" "09:00")]

/-- Four bookings made in this order: for 2 June, for 1 June, for a date
that is no date, and for 1 June again, all at 09:00. -/
def unparsedHistory : List Request :=
  [.book 1748000000001 1748000000001 (requestAt "2025-06-02" "09:00"),
   .book 1748000000002 1748000000002 (requestAt "2025-06-01" "09:00"),
   .book 1748000000003 1748000000003 (requestAt "soon" "09:00"),
   .book 1748000000004 1748000000004 (requestAt "2025-06-01" "09:00")]

/-- Two bookings for different slots made within one millisecond. -/
def collidingHistory : List Request :=
  [.book 1748000000001 1748000000001 (requestAt "2025-06-02" "09:00"),
   .book 1748000000001 1748000000001 (requestAt "2025-06-03" "10:00")]

/-- A JSON body with the four required fields present, the name being the
number 0. -/
def zeroNameRequest : JsonBookingRequest :=
  { name := .num 0, email := .str "a@x.com", phone := .undefined, company := .undefined,
    date := .str "2025-06-02", time := .str "09:00", projectType := .undefined,
    budget := .undefined, message := .undefined }

/-- A ledger whose only booking, for 2025-06-02 at 09:00, is cancelled. -/
def cancelledLedger : Ledger :=
  [{ id := "1748000000000", name := some "A", email := some "a@x.com", phone := none,
     company := none, date := some "2025-06-02", time := some "09:00", projectType := none,
     budget := none, message := none, status := "cancelled", createdAt := 1748000000000 }]

/-- An HTTP client that answers every request with a body that is well
formed for both adapters. -/
def answeringClient : HttpClient := fun _ =>
  .ok (.obj [("artifacts", .arr [.obj [("base64", .str "AAAA")]]),
             ("task", .obj [("id", .str "task-1")])])

/-- An HTTP client whose every request fails in the network. -/
def failingClient : HttpClient := fun _ => .error (.requestFailed "socket hang up")

/-- An HTTP client that answers every request with the empty object. -/
def emptyBodyClient : HttpClient := fun _ => .ok (.obj [])

/-- An HTTP client that answers every request with a body in which the
artifact has no `base64` and the task has no `id`. -/
def partialBodyClient : HttpClient := fun _ =>
  .ok (.obj [("artifacts", .arr [.obj []]), ("task", .obj [])])

/-- Options that name a provider and a client and leave the rest out. -/
def optionsFor (provider : String) : GenerateOptions :=
  { provider := some provider, duration := none, style := none, clientId := some "client-1",
    projectId := none }

/-- The TypeError of reading `costPerVideo` of `undefined`. -/
def costTypeError : JsError :=
  .typeError "Cannot read properties of undefined (reading \x27costPerVideo\x27)"

/-! ## Lemmas on the availability handler -/

theorem toLocaleDateString_lowercase (rt : Runtime) (t : Int) :
    toLocaleDateString rt (some t) "lowercase" = .error weekdayRangeError := by
  simp [toLocaleDateString, weekdayRangeError]

theorem falsy_some_of_ne {s : String} (h : s ≠ "") : falsy (some s) = false := by
  simp [falsy, h]

theorem availability_of_parsed (rt : Runtime) (ledger : Ledger) (s : String) (t : Int)
    (hs : s ≠ "") (ht : rt.parseDate s = some t) :
    availability rt ledger (some s) = (.error weekdayRangeError, ledger) := by
  simp [availability, falsy_some_of_ne hs, ht, toLocaleDateString_lowercase]

theorem availability_of_unparsed (rt : Runtime) (ledger : Ledger) (s : String)
    (hs : s ≠ "") (ht : rt.parseDate s = none) :
    availability rt ledger (some s) = (.error (.rangeError "Invalid time value"), ledger) := by
  simp [availability, falsy_some_of_ne hs, ht, toLocaleDateString, toISOString]

theorem availability_of_missing (rt : Runtime) (ledger : Ledger) (date : Option String)
    (h : date = none ∨ date = some "") :
    availability rt ledger date =
      (.ok { status := 400, success := false, message := some "Date parameter required",
             date := none, availableSlots := none }, ledger) := by
  rcases h with h | h <;> subst h <;> simp [availability, falsy]

theorem availability_not_ok (rt : Runtime) (ledger : Ledger) (s : String) (hs : s ≠ "")
    (reply : AvailabilityReply) : (availability rt ledger (some s)).1 ≠ .ok reply := by
  cases ht : rt.parseDate s with
  | none => simp [availability_of_unparsed rt ledger s hs ht]
  | some t => simp [availability_of_parsed rt ledger s t hs ht]

/-! ## Theorems on the availability handler -/

/-- C1 (defect of the code). For every runtime, every ledger and every
non-empty date string that parses to a date, the availability handler sends
no slot list: the call of `toLocaleDateString` with the weekday style
"lowercase" throws a RangeError, and the ledger is left as it was. The claim
asks for the slots of the weekday template that are not taken. -/
theorem availability_throws_on_parsed_date (rt : Runtime) (ledger : Ledger) (s : String)
    (t : Int) (hs : s ≠ "") (ht : rt.parseDate s = some t) :
    availability rt ledger (some s) = (.error weekdayRangeError, ledger) :=
  availability_of_parsed rt ledger s t hs ht

/-- Witness of C1: the date 2025-06-02 parses to a Monday, whose template has
six slots, and the handler throws on it with an empty ledger. -/
theorem availability_throws_on_parsed_date_witness :
    referenceRuntime.parseDate "2025-06-02" = some 1748822400000
      ∧ weekDay 1748822400000 = 1
      ∧ defaultAvailability "monday"
          = some ["09:00", "10:00", "11:00", "14:00", "15:00", "16:00"]
      ∧ availability referenceRuntime [] (some "2025-06-02") = (.error weekdayRangeError, []) :=
  ⟨by decide, by decide, by decide,
    availability_throws_on_parsed_date referenceRuntime [] "2025-06-02" 1748822400000
      (by decide) (by decide)⟩

/-- C2 (defect of the code, the one of C1). The booking of the scenario
succeeds on an empty ledger with status confirmed, and the availability query
for 2025-06-02 that follows it sends no slot list under any runtime; under
the reference runtime it throws the RangeError of the weekday style. The
claim asks for the five remaining slots of the Monday template. -/
theorem booked_slot_query_throws (rt : Runtime) (now created : Nat) :
    (createBooking now created [] scenarioRequest).1.success = true
      ∧ (createBooking now created [] scenarioRequest).1.booking.map (fun b => b.status)
          = some "confirmed"
      ∧ (∀ reply : AvailabilityReply,
          (availability rt (createBooking now created [] scenarioRequest).2
            (some "2025-06-02")).1 ≠ .ok reply)
      ∧ (availability referenceRuntime (createBooking now created [] scenarioRequest).2
            (some "2025-06-02")).1 = .error weekdayRangeError := by
  refine ⟨by simp [createBooking, scenarioRequest, falsy],
    by simp [createBooking, scenarioRequest, falsy], ?_, ?_⟩
  · intro reply
    exact availability_not_ok rt _ "2025-06-02" (by decide) reply
  · rw [availability_of_parsed referenceRuntime _ "2025-06-02" 1748822400000 (by decide)
      (by decide)]

/-- C7 (defect of the code, the one of C1). On a ledger whose only booking
for 2025-06-02 at 09:00 is cancelled, and on the empty ledger, with 09:00 a
slot of the Monday template, the availability query for 2025-06-02 sends no
slot list under any runtime; under the reference runtime it throws the
RangeError of the weekday style. The claim asks for 09:00 to be in the
result. -/
theorem cancelled_slot_query_throws (rt : Runtime) :
    (∀ b ∈ cancelledLedger, b.date = some "2025-06-02" → b.time = some "09:00" →
        b.status = "cancelled")
      ∧ weekDay 1748822400000 = 1
      ∧ "09:00" ∈ (defaultAvailability "monday").getD []
      ∧ (∀ reply : AvailabilityReply,
          (availability rt cancelledLedger (some "2025-06-02")).1 ≠ .ok reply
            ∧ (availability rt [] (some "2025-06-02")).1 ≠ .ok reply)
      ∧ availability referenceRuntime cancelledLedger (some "2025-06-02")
          = (.error weekdayRangeError, cancelledLedger)
      ∧ availability referenceRuntime [] (some "2025-06-02")
          = (.error weekdayRangeError, []) := by
  refine ⟨by decide, by decide, by decide, ?_, ?_, ?_⟩
  · intro reply
    exact ⟨availability_not_ok rt _ "2025-06-02" (by decide) reply,
      availability_not_ok rt _ "2025-06-02" (by decide) reply⟩
  · exact availability_of_parsed referenceRuntime _ "2025-06-02" 1748822400000 (by decide)
      (by decide)
  · exact availability_of_parsed referenceRuntime _ "2025-06-02" 1748822400000 (by decide)
      (by decide)

/-- C8 (defect of the code, the one of C1). The date 2025-11-29 is a
Saturday (weekday 6), and for every ledger the availability query for it
sends no slot list under any runtime; under the reference runtime it throws
the RangeError of the weekday style. The claim asks for the empty list. -/
theorem saturday_query_throws (rt : Runtime) (ledger : Ledger) :
    referenceRuntime.parseDate "2025-11-29" = some 1764374400000
      ∧ weekDay 1764374400000 = 6
      ∧ (∀ reply : AvailabilityReply,
          (availability rt ledger (some "2025-11-29")).1 ≠ .ok reply)
      ∧ availability referenceRuntime ledger (some "2025-11-29")
          = (.error weekdayRangeError, ledger) := by
  refine ⟨by decide, by decide, ?_, ?_⟩
  · intro reply
    exact availability_not_ok rt _ "2025-11-29" (by decide) reply
  · exact availability_of_parsed referenceRuntime _ "2025-11-29" 1764374400000 (by decide)
      (by decide)

/-- C9 (amended). When the date parameter is missing or empty the
availability handler replies with status 400, success false and the message
"Date parameter required", without slot list and without date; when it is a
non-empty string that does not parse to a date the handler sends no reply of
its own: `toISOString` throws the RangeError "Invalid time value". In both
cases the ledger is left as it was, and no reply carries a slot list or a
date. -/
theorem availability_invalid_input (rt : Runtime) (ledger : Ledger) (date : Option String)
    (h : date = none ∨ date = some "" ∨ ∃ s, date = some s ∧ rt.parseDate s = none) :
    (availability rt ledger date).2 = ledger
      ∧ (date = none ∨ date = some "" →
          (availability rt ledger date).1
            = .ok { status := 400, success := false,
                    message := some "Date parameter required",
                    date := none, availableSlots := none })
      ∧ ((∃ s, date = some s ∧ s ≠ "") →
          (availability rt ledger date).1 = .error (.rangeError "Invalid time value"))
      ∧ (∀ reply, (availability rt ledger date).1 = .ok reply →
          reply.availableSlots = none ∧ reply.date = none) := by
  have hmissing : date = none ∨ date = some "" →
      availability rt ledger date =
        (.ok { status := 400, success := false, message := some "Date parameter required",
               date := none, availableSlots := none }, ledger) :=
    availability_of_missing rt ledger date
  have hbad : ∀ s, date = some s → s ≠ "" →
      availability rt ledger date = (.error (.rangeError "Invalid time value"), ledger) := by
    intro s hd hs
    rcases h with h | h | ⟨s1, h1, h2⟩
    · simp [h] at hd
    · rw [h] at hd; cases hd; exact absurd rfl hs
    · rw [h1] at hd; cases hd
      rw [h1]; exact availability_of_unparsed rt ledger s hs h2
  by_cases hm : date = none ∨ date = some ""
  · have e := hmissing hm
    refine ⟨by rw [e], fun _ => by rw [e], ?_, ?_⟩
    · rintro ⟨s, hd, hs⟩
      rcases hm with hm | hm
      · simp [hm] at hd
      · rw [hm] at hd; cases hd; exact absurd rfl hs
    · intro reply hr
      rw [e] at hr
      cases hr
      exact ⟨rfl, rfl⟩
  · obtain ⟨s, hd, hs⟩ : ∃ s, date = some s ∧ s ≠ "" := by
      cases date with
      | none => exact absurd (Or.inl rfl) hm
      | some s => exact ⟨s, rfl, fun hs => hm (Or.inr (by rw [hs]))⟩
    have e := hbad s hd hs
    refine ⟨by rw [e], fun h0 => absurd h0 hm, fun _ => by rw [e], ?_⟩
    intro reply hr
    rw [e] at hr
    cases hr

/-- Witness of C9 (amended): the date "tomorrow" does not parse; the handler
throws the RangeError of `toISOString` and leaves the empty ledger as it
was. -/
theorem availability_invalid_input_witness :
    referenceRuntime.parseDate "tomorrow" = none
      ∧ (availability referenceRuntime [] (some "tomorrow")).2 = []
      ∧ (availability referenceRuntime [] (some "tomorrow")).1
          = .error (.rangeError "Invalid time value") :=
  ⟨by decide,
    (availability_invalid_input referenceRuntime [] (some "tomorrow")
      (Or.inr (Or.inr ⟨"tomorrow", rfl, by decide⟩))).1,
    (availability_invalid_input referenceRuntime [] (some "tomorrow")
      (Or.inr (Or.inr ⟨"tomorrow", rfl, by decide⟩))).2.2.1 ⟨"tomorrow", rfl, by decide⟩⟩

/-- Counterexample to C9 as stated: the date "tomorrow" does not parse, and
the availability handler does not reply with status 400 and success false:
it throws. -/
theorem availability_unparsed_not_400 :
    referenceRuntime.parseDate "tomorrow" = none
      ∧ ¬ ∃ reply : AvailabilityReply,
          (availability referenceRuntime [] (some "tomorrow")).1 = .ok reply
            ∧ reply.status = 400 ∧ reply.success = false := by
  refine ⟨by decide, ?_⟩
  rintro ⟨reply, h, -⟩
  exact availability_not_ok referenceRuntime [] "tomorrow" (by decide) reply h

/-! ## Theorems on the book handler -/

/-- On a body whose fields are strings or absent, the book handler fails,
with status 400, success false and no booking, exactly when one of name,
email, date, time is absent or empty, whatever the ledger holds; whenever it
fails the ledger is left as it was, and a request with the four fields is
accepted also when the ledger already holds a booking for its date and
time. -/
theorem createBooking_fails_iff (now created : Nat) (ledger : Ledger) (body : BookingRequest) :
    ((createBooking now created ledger body).1.success = false
        ↔ (body.name = none ∨ body.name = some "") ∨ (body.email = none ∨ body.email = some "")
          ∨ (body.date = none ∨ body.date = some "") ∨ (body.time = none ∨ body.time = some ""))
      ∧ ((createBooking now created ledger body).1.success = false →
          (createBooking now created ledger body).1
              = { status := 400, success := false,
                  message := "Name, email, date, and time are required", booking := none }
            ∧ (createBooking now created ledger body).2 = ledger)
      ∧ ((createBooking now created ledger body).1.success = true →
          ∀ prior : Booking, prior.date = body.date → prior.time = body.time →
            (createBooking now created (ledger ++ [prior]) body).1.success = true) := by
  have hf : ∀ v : Option String, falsy v = true ↔ (v = none ∨ v = some "") := by
    intro v
    cases v with
    | none => simp [falsy]
    | some s => simp [falsy]
  by_cases hc : (falsy body.name || falsy body.email || falsy body.date || falsy body.time) = true
  · have e : ∀ l : Ledger, createBooking now created l body =
        ({ status := 400, success := false,
           message := "Name, email, date, and time are required", booking := none }, l) := by
      intro l; simp only [createBooking, hc, if_true]
    refine ⟨?_, fun _ => ⟨by rw [e], by rw [e]⟩, ?_⟩
    · rw [e]
      simp only [Bool.or_eq_true, hf] at hc
      simpa [or_assoc] using hc
    · rw [e]; simp
  · have e : ∀ l : Ledger, (createBooking now created l body).1.success = true := by
      intro l; simp only [createBooking, hc]; simp
    refine ⟨?_, ?_, fun _ prior _ _ => e _⟩
    · rw [e]
      simp only [Bool.or_eq_true, hf] at hc
      constructor
      · intro h; cases h
      · intro h; exact absurd (by simpa [or_assoc] using h) hc
    · intro h; rw [e] at h; cases h

/-- C10. For every ledger and every request whose name, email, date and time
are present and non-empty, the book handler replies with status 200 and
success true, the ledger afterwards is the ledger before followed by one new
record, that record has status confirmed and the nine request fields of the
request, and it is the booking of the reply. -/
theorem createBooking_appends (now created : Nat) (ledger : Ledger) (body : BookingRequest)
    (hname : ∃ s, body.name = some s ∧ s ≠ "") (hemail : ∃ s, body.email = some s ∧ s ≠ "")
    (hdate : ∃ s, body.date = some s ∧ s ≠ "") (htime : ∃ s, body.time = some s ∧ s ≠ "") :
    ∃ record : Booking,
      createBooking now created ledger body
          = ({ status := 200, success := true, message := "Booking confirmed!",
               booking := some record }, ledger ++ [record])
        ∧ record.status = "confirmed"
        ∧ record.name = body.name ∧ record.email = body.email ∧ record.phone = body.phone
        ∧ record.company = body.company ∧ record.date = body.date ∧ record.time = body.time
        ∧ record.projectType = body.projectType ∧ record.budget = body.budget
        ∧ record.message = body.message
        ∧ record.id = toString now ∧ record.createdAt = created := by
  obtain ⟨n, hn, hn0⟩ := hname
  obtain ⟨e, he, he0⟩ := hemail
  obtain ⟨d, hd, hd0⟩ := hdate
  obtain ⟨t, ht, ht0⟩ := htime
  refine ⟨{ id := toString now, name := body.name, email := body.email, phone := body.phone,
             company := body.company, date := body.date, time := body.time,
             projectType := body.projectType, budget := body.budget, message := body.message,
             status := "confirmed", createdAt := created },
    ?_, rfl, rfl, rfl, rfl, rfl, rfl, rfl, rfl, rfl, rfl, rfl, rfl⟩
  simp [createBooking, hn, he, hd, ht, falsy, hn0, he0, hd0, ht0]

/-- Witness of C10: the booking of the scenario on an empty ledger. -/
theorem createBooking_appends_witness :
    ∃ record : Booking,
      createBooking 1748000000000 1748000000001 [] scenarioRequest
          = ({ status := 200, success := true, message := "Booking confirmed!",
               booking := some record }, [] ++ [record])
        ∧ record.status = "confirmed"
        ∧ record.name = scenarioRequest.name ∧ record.email = scenarioRequest.email
        ∧ record.phone = scenarioRequest.phone
        ∧ record.company = scenarioRequest.company ∧ record.date = scenarioRequest.date
        ∧ record.time = scenarioRequest.time
        ∧ record.projectType = scenarioRequest.projectType
        ∧ record.budget = scenarioRequest.budget
        ∧ record.message = scenarioRequest.message
        ∧ record.id = toString 1748000000000 ∧ record.createdAt = 1748000000001 :=
  createBooking_appends 1748000000000 1748000000001 [] scenarioRequest
    ⟨"A", rfl, by decide⟩ ⟨"a@x.com", rfl, by decide⟩ ⟨"2025-06-02", rfl, by decide⟩
    ⟨"09:00", rfl, by decide⟩


/-! ## Theorems on the video generation service -/

/-- C4 (defect of the code). For a provider name that is not a key of the
registry, `generateVideo` fails before the `switch`: reading `costPerVideo`
of `undefined` throws a TypeError, which is what the caller receives, not the
error "Unsupported provider" of the default case; the effects are the first
console line and the logged error, with no external call and no billing
entry. Only for a name that `Object.prototype` defines does the default case
run, and then after a billing entry with an undefined cost. -/
theorem generateVideo_unregistered_provider (http : HttpClient) (env : Env) (now : Nat)
    (prompt : String) (options : GenerateOptions) (name : String)
    (hp : options.provider = some name) (hkey : providers.lookup name = none) :
    (name ∉ objectPrototypeKeys →
        generateVideo http env now prompt options
          = (.error costTypeError,
             [.consoleLog ("Generating video with " ++ name ++ " for client "
                ++ jsString options.clientId),
              .consoleError costTypeError]))
      ∧ (name ∈ objectPrototypeKeys →
        generateVideo http env now prompt options
          = (.error (.error ("Unsupported provider: " ++ name)),
             [.consoleLog ("Generating video with " ++ name ++ " for client "
                ++ jsString options.clientId),
              .billingLog { clientId := options.clientId, provider := name, cost := none,
                            timestamp := now, status := "initiated" },
              .consoleError (.error ("Unsupported provider: " ++ name))])) := by
  have h1 : name ≠ "stabilityai" := by
    rintro rfl; simp [providers] at hkey
  have h2 : name ≠ "pika" := by
    rintro rfl; simp [providers, List.lookup] at hkey
  have h3 : name ≠ "runway" := by
    rintro rfl; simp [providers, List.lookup] at hkey
  constructor
  · intro hproto
    simp [generateVideo, generateVideoTry, lookupCost, lookupProvider, hp, hkey, hproto,
      costTypeError]
  · intro hproto
    simp [generateVideo, generateVideoTry, lookupCost, lookupProvider, hp, hkey, hproto,
      h1, h2, h3, logVideoRequest]

/-- Witness of C4: the provider "unknown-vendor" of the scenario is no key of
the registry and no member of `Object.prototype`; `generateVideo` rejects
with the TypeError after the first console line, with no external call and no
billing entry. -/
theorem generateVideo_unregistered_provider_witness :
    providers.lookup "unknown-vendor" = none
      ∧ "unknown-vendor" ∉ objectPrototypeKeys
      ∧ generateVideo answeringClient ⟨none, none⟩ 0 "sunset drone shot"
            (optionsFor "unknown-vendor")
          = (.error costTypeError,
             [.consoleLog "Generating video with unknown-vendor for client client-1",
              .consoleError costTypeError]) :=
  ⟨rfl, by decide,
    (generateVideo_unregistered_provider answeringClient ⟨none, none⟩ 0 "sunset drone shot"
      (optionsFor "unknown-vendor") "unknown-vendor" rfl rfl).1 (by decide)⟩

/-- C6 (defect of the code). For the provider `pika`, a key of the registry,
`generateVideo` returns no result whatever the HTTP client answers: the
`pika` case calls a method the class does not define, so after the billing
entry a TypeError is thrown and no external call is made. For `stabilityai`
(also the default) and `runway`, when the external call answers with a well
formed body, the result carries the requested provider name and the cost of
that provider in the registry, with `videoUrl` and `duration` for
`stabilityai` and with `taskId` and the status "processing" for `runway`. -/
theorem generateVideo_by_provider (http : HttpClient) (env : Env) (now : Nat)
    (prompt : String) (options : GenerateOptions) :
    (options.provider = some "pika" →
        providers.lookup "pika" = some pika
          ∧ generateVideo http env now prompt options
            = (.error pikaTypeError,
               [.consoleLog ("Generating video with pika for client "
                  ++ jsString options.clientId),
                .billingLog { clientId := options.clientId, provider := "pika",
                              cost := some pika.costPerVideo, timestamp := now,
                              status := "initiated" },
                .consoleError pikaTypeError]))
      ∧ (∀ (fields : List (String × JsVal)) (first : List (String × JsVal))
          (rest : List JsVal) (v : JsVal),
          options.provider = none ∨ options.provider = some "stabilityai" →
          http (stabilityRequest env prompt) = .ok (.obj fields) →
          fields.lookup "artifacts" = some (.arr (.obj first :: rest)) →
          first.lookup "base64" = some v →
          providers.lookup (options.provider.getD "stabilityai") = some stabilityai
            ∧ (generateVideo http env now prompt options).1
              = .ok (.video v (options.provider.getD "stabilityai") stabilityai.costPerVideo
                  (options.duration.getD 4)))
      ∧ (∀ (fields : List (String × JsVal)) (task : List (String × JsVal)) (v : JsVal),
          options.provider = some "runway" →
          http (runwayRequest env prompt (options.duration.getD 4)) = .ok (.obj fields) →
          fields.lookup "task" = some (.obj task) →
          task.lookup "id" = some v →
          providers.lookup (options.provider.getD "stabilityai") = some runway
            ∧ (generateVideo http env now prompt options).1
              = .ok (.task v (options.provider.getD "stabilityai") runway.costPerVideo
                  "processing")) := by
  refine ⟨?_, ?_, ?_⟩
  · intro hp
    refine ⟨rfl, ?_⟩
    simp [generateVideo, generateVideoTry, lookupCost, lookupProvider, hp, providers,
      List.lookup, logVideoRequest]
  · intro fields first rest v hp hhttp hart hb
    have hname : options.provider.getD "stabilityai" = "stabilityai" := by
      rcases hp with hp | hp <;> simp [hp]
    refine ⟨by rw [hname]; rfl, ?_⟩
    simp [generateVideo, generateVideoTry, lookupCost, lookupProvider, hname, providers,
      List.lookup, logVideoRequest, generateWithStability, hhttp, getProp, getIndex, hart, hb,
      Except.bind]
  · intro fields task v hp hhttp htask hid
    have hname : options.provider.getD "stabilityai" = "runway" := by simp [hp]
    refine ⟨by rw [hname]; rfl, ?_⟩
    simp [generateVideo, generateVideoTry, lookupCost, lookupProvider, hname, providers,
      List.lookup, logVideoRequest, generateWithRunway, hhttp, getProp, htask, hid,
      Except.bind]

/-- Evaluation for C6: with a client that answers every request with a well
formed body, `generateVideo` for `pika` rejects with the TypeError, while for
`stabilityai` and `runway` it resolves with the provider name and cost of
the registry. -/
theorem generateVideo_by_provider_witness :
    (generateVideo answeringClient ⟨none, none⟩ 0 "sunset drone shot" (optionsFor "pika")).1
        = .error pikaTypeError
      ∧ (generateVideo answeringClient ⟨none, none⟩ 0 "sunset drone shot"
          (optionsFor "stabilityai")).1
        = .ok (.video (.str "AAAA") "stabilityai" (1 / 2) 4)
      ∧ (generateVideo answeringClient ⟨none, none⟩ 0 "sunset drone shot"
          (optionsFor "runway")).1
        = .ok (.task (.str "task-1") "runway" 5 "processing") := by
  have h := generateVideo_by_provider answeringClient ⟨none, none⟩ 0 "sunset drone shot"
  refine ⟨?_, ?_, ?_⟩
  · rw [((h (optionsFor "pika")).1 rfl).2]
  · exact ((h (optionsFor "stabilityai")).2.1 _ _ _ _ (Or.inr rfl) rfl rfl rfl).2
  · exact ((h (optionsFor "runway")).2.2 _ _ _ rfl rfl rfl rfl).2


/-! ## Lemmas on the sort of the list handler -/

section TimSortSearch

variable {α : Type}

theorem searchRight_spec (lt : α → α → Bool) (key : α) (a : List α) :
    ∀ steps lo hi, lo ≤ hi → hi - lo ≤ steps →
      lo ≤ searchRight lt key a steps lo hi ∧ searchRight lt key a steps lo hi ≤ hi
        ∧ (searchRight lt key a steps lo hi = lo
            ∨ lt key (a.getD (searchRight lt key a steps lo hi - 1) key) = false)
        ∧ (searchRight lt key a steps lo hi = hi
            ∨ lt key (a.getD (searchRight lt key a steps lo hi) key) = true) := by
  intro steps
  induction steps with
  | zero =>
    intro lo hi h1 h2
    have : lo = hi := by omega
    subst this
    simp [searchRight]
  | succ steps ih =>
    intro lo hi h1 h2
    simp only [searchRight]
    by_cases hlt : lo < hi
    · simp only [hlt, if_true]
      have hm1 : lo ≤ lo + (hi - lo) / 2 := Nat.le_add_right _ _
      have hm2 : lo + (hi - lo) / 2 < hi := by omega
      by_cases hc : lt key (a.getD (lo + (hi - lo) / 2) key) = true
      · simp only [hc, if_true]
        obtain ⟨i1, i2, i3, i4⟩ := ih lo (lo + (hi - lo) / 2) hm1 (by omega)
        refine ⟨i1, by omega, i3, ?_⟩
        rcases i4 with i4 | i4
        · right; rw [i4]; exact hc
        · right; exact i4
      · have hc' : lt key (a.getD (lo + (hi - lo) / 2) key) = false := by simpa using hc
        simp only [hc', Bool.false_eq_true, if_false]
        obtain ⟨i1, i2, i3, i4⟩ := ih (lo + (hi - lo) / 2 + 1) hi (by omega) (by omega)
        refine ⟨by omega, i2, ?_, i4⟩
        rcases i3 with i3 | i3
        · right; rw [i3]; simpa using hc'
        · right; exact i3
    · have : lo = hi := by omega
      subst this
      simp

theorem searchLeft_spec (lt : α → α → Bool) (key : α) (a : List α) :
    ∀ steps lo hi, lo ≤ hi → hi - lo ≤ steps →
      lo ≤ searchLeft lt key a steps lo hi ∧ searchLeft lt key a steps lo hi ≤ hi
        ∧ (searchLeft lt key a steps lo hi = lo
            ∨ lt (a.getD (searchLeft lt key a steps lo hi - 1) key) key = true)
        ∧ (searchLeft lt key a steps lo hi = hi
            ∨ lt (a.getD (searchLeft lt key a steps lo hi) key) key = false) := by
  intro steps
  induction steps with
  | zero =>
    intro lo hi h1 h2
    have : lo = hi := by omega
    subst this
    simp [searchLeft]
  | succ steps ih =>
    intro lo hi h1 h2
    simp only [searchLeft]
    by_cases hlt : lo < hi
    · simp only [hlt, if_true]
      have hm1 : lo ≤ lo + (hi - lo) / 2 := Nat.le_add_right _ _
      have hm2 : lo + (hi - lo) / 2 < hi := by omega
      by_cases hc : lt (a.getD (lo + (hi - lo) / 2) key) key = true
      · simp only [hc, if_true]
        obtain ⟨i1, i2, i3, i4⟩ := ih (lo + (hi - lo) / 2 + 1) hi (by omega) (by omega)
        refine ⟨by omega, i2, ?_, i4⟩
        rcases i3 with i3 | i3
        · right; rw [i3]; simpa using hc
        · right; exact i3
      · have hc' : lt (a.getD (lo + (hi - lo) / 2) key) key = false := by simpa using hc
        simp only [hc', Bool.false_eq_true, if_false]
        obtain ⟨i1, i2, i3, i4⟩ := ih lo (lo + (hi - lo) / 2) hm1 (by omega)
        refine ⟨i1, by omega, i3, ?_⟩
        rcases i4 with i4 | i4
        · right; rw [i4]; exact hc'
        · right; exact i4
    · have : lo = hi := by omega
      subst this
      simp

theorem gallopOffsets_spec (further : Nat → Bool) (maxOfs : Nat) :
    ∀ steps lastOfs offset, lastOfs < offset → lastOfs < maxOfs → maxOfs < steps + offset →
      (gallopOffsets further maxOfs steps lastOfs offset).1
          < (gallopOffsets further maxOfs steps lastOfs offset).2
        ∧ (gallopOffsets further maxOfs steps lastOfs offset).2 ≤ maxOfs
        ∧ ((gallopOffsets further maxOfs steps lastOfs offset).1 = lastOfs
            ∨ further (gallopOffsets further maxOfs steps lastOfs offset).1 = true)
        ∧ ((gallopOffsets further maxOfs steps lastOfs offset).2 = maxOfs
            ∨ further (gallopOffsets further maxOfs steps lastOfs offset).2 = false) := by
  intro steps
  induction steps with
  | zero =>
    intro lastOfs offset h1 h2 h3
    have : min offset maxOfs = maxOfs := by omega
    simp [gallopOffsets, this, h2]
  | succ steps ih =>
    intro lastOfs offset h1 h2 h3
    simp only [gallopOffsets]
    by_cases hlt : offset < maxOfs
    · simp only [hlt, if_true]
      by_cases hf : further offset = true
      · simp only [hf, if_true]
        obtain ⟨i1, i2, i3, i4⟩ := ih offset (2 * offset + 1) (by omega) hlt (by omega)
        refine ⟨i1, i2, ?_, i4⟩
        rcases i3 with i3 | i3
        · right; rw [i3]; exact hf
        · right; exact i3
      · have hf' : further offset = false := by simpa using hf
        simp [hf', h1, Nat.le_of_lt hlt]
    · simp [hlt, h2]

end TimSortSearch

section TimSortGallop

variable {α : Type}

theorem gallopLeft_index (lt : α → α → Bool) (key : α) (a : List α) (hint : Nat)
    (hh : hint < a.length) :
    gallopLeft lt key a hint ≤ a.length
      ∧ (0 < gallopLeft lt key a hint →
          lt (a.getD (gallopLeft lt key a hint - 1) key) key = true)
      ∧ (gallopLeft lt key a hint < a.length →
          lt (a.getD (gallopLeft lt key a hint) key) key = false) := by
  unfold gallopLeft
  by_cases hb : lt (a.getD hint key) key = true
  · simp only [hb, if_true]
    obtain ⟨r1, r2, r3, r4⟩ := gallopOffsets_spec (fun o => lt (a.getD (hint + o) key) key)
      (a.length - hint) a.length 0 1 (by omega) (by omega) (by omega)
    generalize gallopOffsets (fun o => lt (a.getD (hint + o) key) key) (a.length - hint)
      a.length 0 1 = r at r1 r2 r3 r4
    obtain ⟨s1, s2, s3, s4⟩ := searchLeft_spec lt key a a.length (r.1 + hint + 1) (r.2 + hint)
      (by omega) (by omega)
    generalize searchLeft lt key a a.length (r.1 + hint + 1) (r.2 + hint) = k at s1 s2 s3 s4
    refine ⟨by omega, fun _ => ?_, fun hk => ?_⟩
    · rcases s3 with s3 | s3
      · subst s3
        rcases r3 with r3 | r3
        · simpa [r3] using hb
        · have : r.1 + hint + 1 - 1 = hint + r.1 := by omega
          rw [this]; exact r3
      · exact s3
    · rcases s4 with s4 | s4
      · subst s4
        rcases r4 with r4 | r4
        · omega
        · have : r.2 + hint = hint + r.2 := by omega
          rw [this]; exact r4
      · exact s4
  · have hb' : lt (a.getD hint key) key = false := by simpa using hb
    simp only [hb', Bool.false_eq_true, if_false]
    obtain ⟨r1, r2, r3, r4⟩ := gallopOffsets_spec (fun o => !lt (a.getD (hint - o) key) key)
      (hint + 1) a.length 0 1 (by omega) (by omega) (by omega)
    generalize gallopOffsets (fun o => !lt (a.getD (hint - o) key) key) (hint + 1)
      a.length 0 1 = r at r1 r2 r3 r4
    obtain ⟨s1, s2, s3, s4⟩ := searchLeft_spec lt key a a.length (hint + 1 - r.2) (hint - r.1)
      (by omega) (by omega)
    generalize searchLeft lt key a a.length (hint + 1 - r.2) (hint - r.1) = k at s1 s2 s3 s4
    refine ⟨by omega, fun hk => ?_, fun _ => ?_⟩
    · rcases s3 with s3 | s3
      · subst s3
        rcases r4 with r4 | r4
        · omega
        · have : hint + 1 - r.2 - 1 = hint - r.2 := by omega
          rw [this]; simpa using r4
      · exact s3
    · rcases s4 with s4 | s4
      · subst s4
        rcases r3 with r3 | r3
        · simpa [r3] using hb'
        · simpa using r3
      · exact s4

theorem gallopRight_index (lt : α → α → Bool) (key : α) (a : List α) (hint : Nat)
    (hh : hint < a.length) :
    gallopRight lt key a hint ≤ a.length
      ∧ (0 < gallopRight lt key a hint →
          lt key (a.getD (gallopRight lt key a hint - 1) key) = false)
      ∧ (gallopRight lt key a hint < a.length →
          lt key (a.getD (gallopRight lt key a hint) key) = true) := by
  unfold gallopRight
  by_cases hb : lt key (a.getD hint key) = true
  · simp only [hb, if_true]
    obtain ⟨r1, r2, r3, r4⟩ := gallopOffsets_spec (fun o => lt key (a.getD (hint - o) key))
      (hint + 1) a.length 0 1 (by omega) (by omega) (by omega)
    generalize gallopOffsets (fun o => lt key (a.getD (hint - o) key)) (hint + 1)
      a.length 0 1 = r at r1 r2 r3 r4
    obtain ⟨s1, s2, s3, s4⟩ := searchRight_spec lt key a a.length (hint + 1 - r.2) (hint - r.1)
      (by omega) (by omega)
    generalize searchRight lt key a a.length (hint + 1 - r.2) (hint - r.1) = k at s1 s2 s3 s4
    refine ⟨by omega, fun hk => ?_, fun _ => ?_⟩
    · rcases s3 with s3 | s3
      · subst s3
        rcases r4 with r4 | r4
        · omega
        · have : hint + 1 - r.2 - 1 = hint - r.2 := by omega
          rw [this]; exact r4
      · exact s3
    · rcases s4 with s4 | s4
      · subst s4
        rcases r3 with r3 | r3
        · simpa [r3] using hb
        · exact r3
      · exact s4
  · have hb' : lt key (a.getD hint key) = false := by simpa using hb
    simp only [hb', Bool.false_eq_true, if_false]
    obtain ⟨r1, r2, r3, r4⟩ := gallopOffsets_spec (fun o => !lt key (a.getD (hint + o) key))
      (a.length - hint) a.length 0 1 (by omega) (by omega) (by omega)
    generalize gallopOffsets (fun o => !lt key (a.getD (hint + o) key)) (a.length - hint)
      a.length 0 1 = r at r1 r2 r3 r4
    obtain ⟨s1, s2, s3, s4⟩ := searchRight_spec lt key a a.length (r.1 + hint + 1) (r.2 + hint)
      (by omega) (by omega)
    generalize searchRight lt key a a.length (r.1 + hint + 1) (r.2 + hint) = k at s1 s2 s3 s4
    refine ⟨by omega, fun _ => ?_, fun hk => ?_⟩
    · rcases s3 with s3 | s3
      · subst s3
        rcases r3 with r3 | r3
        · simpa [r3] using hb'
        · have : r.1 + hint + 1 - 1 = hint + r.1 := by omega
          rw [this]; simpa using r3
      · exact s3
    · rcases s4 with s4 | s4
      · subst s4
        rcases r4 with r4 | r4
        · omega
        · have : r.2 + hint = hint + r.2 := by omega
          rw [this]; simpa using r4
      · exact s4

/-- The last element of the first `k` elements of a list. -/
theorem getLast?_take_eq (a : List α) (d : α) (k : Nat) (hk : 0 < k) (hka : k ≤ a.length) :
    (a.take k).getLast? = some (a.getD (k - 1) d) := by
  induction a generalizing k with
  | nil => simp at hka; omega
  | cons x xs ih =>
    cases k with
    | zero => omega
    | succ k =>
      cases k with
      | zero => simp
      | succ k =>
        have hl : k + 1 ≤ xs.length := by simpa using hka
        have := ih (k + 1) (by omega) hl
        cases xs with
        | nil => simp at hl
        | cons y ys =>
          simp only [List.take_succ_cons, Nat.add_sub_cancel] at this ⊢
          rw [List.getLast?_cons_cons, this]
          simp

/-- The first element of a list without its first `k` elements. -/
theorem head?_drop_eq (a : List α) (d : α) (k : Nat) (hka : k < a.length) :
    (a.drop k).head? = some (a.getD k d) := by
  induction a generalizing k with
  | nil => simp at hka
  | cons x xs ih =>
    cases k with
    | zero => simp
    | succ k =>
      have hl : k < xs.length := by simpa using hka
      simpa using ih k hl

theorem gallopLeft_spec (lt : α → α → Bool) (key : α) (a : List α) (hint : Nat)
    (hh : hint < a.length) :
    gallopLeft lt key a hint ≤ a.length
      ∧ (∀ x ∈ (a.take (gallopLeft lt key a hint)).getLast?, lt x key = true)
      ∧ (∀ x ∈ (a.drop (gallopLeft lt key a hint)).head?, lt x key = false) := by
  obtain ⟨h1, h2, h3⟩ := gallopLeft_index lt key a hint hh
  refine ⟨h1, ?_, ?_⟩
  · intro x hx
    by_cases hk : 0 < gallopLeft lt key a hint
    · rw [getLast?_take_eq a key _ hk h1] at hx
      cases hx
      exact h2 hk
    · have : gallopLeft lt key a hint = 0 := by omega
      rw [this] at hx
      simp at hx
  · intro x hx
    by_cases hk : gallopLeft lt key a hint < a.length
    · rw [head?_drop_eq a key _ hk] at hx
      cases hx
      exact h3 hk
    · rw [List.drop_of_length_le (by omega)] at hx
      simp at hx

theorem gallopRight_spec (lt : α → α → Bool) (key : α) (a : List α) (hint : Nat)
    (hh : hint < a.length) :
    gallopRight lt key a hint ≤ a.length
      ∧ (∀ x ∈ (a.take (gallopRight lt key a hint)).getLast?, lt key x = false)
      ∧ (∀ x ∈ (a.drop (gallopRight lt key a hint)).head?, lt key x = true) := by
  obtain ⟨h1, h2, h3⟩ := gallopRight_index lt key a hint hh
  refine ⟨h1, ?_, ?_⟩
  · intro x hx
    by_cases hk : 0 < gallopRight lt key a hint
    · rw [getLast?_take_eq a key _ hk h1] at hx
      cases hx
      exact h2 hk
    · have : gallopRight lt key a hint = 0 := by omega
      rw [this] at hx
      simp at hx
  · intro x hx
    by_cases hk : gallopRight lt key a hint < a.length
    · rw [head?_drop_eq a key _ hk] at hx
      cases hx
      exact h3 hk
    · rw [List.drop_of_length_le (by omega)] at hx
      simp at hx

theorem searchRight_take_drop (lt : α → α → Bool) (key : α) (a : List α) :
    searchRight lt key a a.length 0 a.length ≤ a.length
      ∧ (∀ x ∈ (a.take (searchRight lt key a a.length 0 a.length)).getLast?, lt key x = false)
      ∧ (∀ x ∈ (a.drop (searchRight lt key a a.length 0 a.length)).head?, lt key x = true) := by
  obtain ⟨s1, s2, s3, s4⟩ := searchRight_spec lt key a a.length 0 a.length (Nat.zero_le _)
    (by omega)
  refine ⟨s2, ?_, ?_⟩
  · intro x hx
    by_cases hk : 0 < searchRight lt key a a.length 0 a.length
    · rw [getLast?_take_eq a key _ hk s2] at hx
      cases hx
      rcases s3 with s3 | s3
      · omega
      · exact s3
    · have : searchRight lt key a a.length 0 a.length = 0 := by omega
      rw [this] at hx
      simp at hx
  · intro x hx
    by_cases hk : searchRight lt key a a.length 0 a.length < a.length
    · rw [head?_drop_eq a key _ hk] at hx
      cases hx
      rcases s4 with s4 | s4
      · omega
      · exact s4
    · rw [List.drop_of_length_le (by omega)] at hx
      simp at hx

end TimSortGallop

section WeaveLemmas

variable {α : Type}

theorem lastOf_nil (tag : Bool) (prev : Bool × α) : lastOf tag prev [] = prev := rfl

theorem lastOf_cons (tag : Bool) (prev : Bool × α) (x : α) (block : List α) :
    lastOf tag prev (x :: block) = lastOf tag (tag, x) block := by
  cases block with
  | nil => rfl
  | cons y ys =>
    simp only [lastOf, List.getLast?_cons_cons]
    cases h : (y :: ys).getLast? with
    | none => simp at h
    | some z => rfl

theorem lastOf_of_getLast? (tag : Bool) (prev : Bool × α) (block : List α) (x : α)
    (h : block.getLast? = some x) : lastOf tag prev block = (tag, x) := by
  simp [lastOf, h]

theorem weaveFrom_nil (R : Bool × α → Bool × α → Prop) (prev : Bool × α) :
    WeaveFrom R prev [] [] [] :=
  ⟨[], rfl, rfl, rfl, List.Chain.nil⟩

theorem weaveFrom_left (R : Bool × α → Bool × α → Prop) (prev : Bool × α) (x : α)
    (a b out : List α) (h : R prev (false, x)) (hw : WeaveFrom R (false, x) a b out) :
    WeaveFrom R prev (x :: a) b (x :: out) := by
  obtain ⟨t, h1, h2, h3, h4⟩ := hw
  refine ⟨(false, x) :: t, by simp [h1], ?_, ?_, List.Chain.cons h h4⟩
  · simpa [leftPart] using h2
  · simpa [rightPart] using h3

theorem weaveFrom_right (R : Bool × α → Bool × α → Prop) (prev : Bool × α) (y : α)
    (a b out : List α) (h : R prev (true, y)) (hw : WeaveFrom R (true, y) a b out) :
    WeaveFrom R prev a (y :: b) (y :: out) := by
  obtain ⟨t, h1, h2, h3, h4⟩ := hw
  refine ⟨(true, y) :: t, by simp [h1], ?_, ?_, List.Chain.cons h h4⟩
  · simpa [leftPart] using h2
  · simpa [rightPart] using h3

theorem weaveFrom_leftBlock (R : Bool × α → Bool × α → Prop)
    (hsame : ∀ x y : α, R (false, x) (false, y)) (a b out : List α) :
    ∀ (block : List α) (prev : Bool × α), (∀ x ∈ block.head?, R prev (false, x)) →
      WeaveFrom R (lastOf false prev block) a b out →
      WeaveFrom R prev (block ++ a) b (block ++ out) := by
  intro block
  induction block with
  | nil => intro prev _ hw; simpa [lastOf_nil] using hw
  | cons x rest ih =>
    intro prev h hw
    rw [lastOf_cons] at hw
    exact weaveFrom_left R prev x _ _ _ (h x (by simp))
      (ih (false, x) (fun y _ => hsame x y) hw)

theorem weaveFrom_rightBlock (R : Bool × α → Bool × α → Prop)
    (hsame : ∀ x y : α, R (true, x) (true, y)) (a b out : List α) :
    ∀ (block : List α) (prev : Bool × α), (∀ y ∈ block.head?, R prev (true, y)) →
      WeaveFrom R (lastOf true prev block) a b out →
      WeaveFrom R prev a (block ++ b) (block ++ out) := by
  intro block
  induction block with
  | nil => intro prev _ hw; simpa [lastOf_nil] using hw
  | cons y rest ih =>
    intro prev h hw
    rw [lastOf_cons] at hw
    exact weaveFrom_right R prev y _ _ _ (h y (by simp))
      (ih (true, y) (fun z _ => hsame y z) hw)

/-- The rest of the left run alone. -/
theorem weaveFrom_leftRest (R : Bool × α → Bool × α → Prop)
    (hsame : ∀ x y : α, R (false, x) (false, y)) (prev : Bool × α) (a : List α)
    (h : ∀ x ∈ a.head?, R prev (false, x)) : WeaveFrom R prev a [] a := by
  simpa using weaveFrom_leftBlock R hsame [] [] [] a prev h (weaveFrom_nil R _)

/-- The rest of the right run alone. -/
theorem weaveFrom_rightRest (R : Bool × α → Bool × α → Prop)
    (hsame : ∀ x y : α, R (true, x) (true, y)) (prev : Bool × α) (b : List α)
    (h : ∀ y ∈ b.head?, R prev (true, y)) : WeaveFrom R prev [] b b := by
  simpa using weaveFrom_rightBlock R hsame [] [] [] b prev h (weaveFrom_nil R _)

theorem cross_same (lt : α → α → Bool) (tag : Bool) (x y : α) : Cross lt (tag, x) (tag, y) := by
  cases tag <;> simp [Cross]

theorem crossR_same (lt : α → α → Bool) (tag : Bool) (x y : α) :
    CrossR lt (tag, x) (tag, y) := cross_same lt tag y x

theorem cross_left_right (lt : α → α → Bool) (x y : α) :
    Cross lt (false, x) (true, y) ↔ lt y x = false := by
  simp [Cross]

theorem cross_right_left (lt : α → α → Bool) (x y : α) :
    Cross lt (true, y) (false, x) ↔ lt y x = true := by
  simp [Cross]

/-- After a block of the left run, or after `prev` when the block is empty,
an element of the right run may follow. -/
theorem cross_lastOf_left (lt : α → α → Bool) (prev : Bool × α) (block : List α) (y : α)
    (h1 : ∀ z ∈ block.getLast?, lt y z = false) (h2 : block = [] → Cross lt prev (true, y)) :
    Cross lt (lastOf false prev block) (true, y) := by
  cases hb : block.getLast? with
  | none =>
    have : block = [] := List.getLast?_eq_none_iff.mp hb
    simpa [lastOf, hb] using h2 this
  | some z =>
    rw [lastOf_of_getLast? _ _ _ _ hb]
    exact (cross_left_right lt z y).mpr (h1 z (by simp [hb]))

/-- After a block of the right run, or after `prev` when the block is empty,
an element of the left run may follow. -/
theorem cross_lastOf_right (lt : α → α → Bool) (prev : Bool × α) (block : List α) (x : α)
    (h1 : ∀ z ∈ block.getLast?, lt z x = true) (h2 : block = [] → Cross lt prev (false, x)) :
    Cross lt (lastOf true prev block) (false, x) := by
  cases hb : block.getLast? with
  | none =>
    have : block = [] := List.getLast?_eq_none_iff.mp hb
    simpa [lastOf, hb] using h2 this
  | some z =>
    rw [lastOf_of_getLast? _ _ _ _ hb]
    exact (cross_right_left lt x z).mpr (h1 z (by simp [hb]))

end WeaveLemmas

section MergeLowWeave

variable {α : Type}

theorem getLast?_drop_of_lt (a : List α) (k : Nat) (h : k < a.length) :
    (a.drop k).getLast? = a.getLast? := by
  induction a generalizing k with
  | nil => simp at h
  | cons x xs ih =>
    cases k with
    | zero => rfl
    | succ k =>
      have hl : k < xs.length := by simpa using h
      rw [List.drop_succ_cons, ih k hl]
      cases xs with
      | nil => simp at hl
      | cons y ys => rw [List.getLast?_cons_cons]

theorem head?_take_of_pos (a : List α) (k : Nat) (h : 0 < k) : (a.take k).head? = a.head? := by
  cases a with
  | nil => simp
  | cons x xs =>
    cases k with
    | zero => omega
    | succ k => simp

theorem head?_eq_getLast?_of_length_one (a : List α) (h : a.length = 1) :
    a.head? = a.getLast? := by
  match a, h with
  | [x], _ => rfl

theorem mergeLowLoop_weave (lt : α → α → Bool) :
    ∀ (steps : Nat) (mode : MergeMode) (minGallop stored : Nat) (a b : List α)
      (prev : Bool × α),
      a.length + b.length ≤ steps → 2 ≤ a.length → b ≠ [] →
      (∀ x ∈ a.head?, Cross lt prev (false, x)) →
      (∀ y ∈ b.head?, Cross lt prev (true, y)) →
      (∀ y ∈ b.getLast?, ∀ x ∈ a.getLast?, lt y x = true) →
      WeaveFrom (Cross lt) prev a b (mergeLowLoop lt steps mode minGallop stored a b).1 := by
  intro steps
  induction steps with
  | zero =>
    intro mode mg st a b prev hfuel ha
    omega
  | succ steps ih =>
    intro mode mg st a b prev hfuel ha hb hI1 hI2 hG
    have sameL : ∀ x y : α, Cross lt (false, x) (false, y) := cross_same lt false
    have sameR : ∀ x y : α, Cross lt (true, x) (true, y) := cross_same lt true
    cases mode with
    | single winsA winsB =>
      match a, b, ha, hb with
      | x :: a1, y :: b1, ha, _ =>
        have ha1 : a1 ≠ [] := by
          intro h; subst h; simp at ha
        have hlastA : a1.getLast? = (x :: a1).getLast? := by
          cases a1 with
          | nil => exact absurd rfl ha1
          | cons z zs => rw [List.getLast?_cons_cons]
        simp only [mergeLowLoop]
        by_cases hlt : lt y x = true
        · simp only [hlt, if_true]
          have hyx : Cross lt (true, y) (false, x) := (cross_right_left lt x y).mpr hlt
          by_cases hb1 : b1.isEmpty = true
          · have hb1' : b1 = [] := List.isEmpty_iff.mp hb1
            subst hb1'
            simp only [List.isEmpty_nil, if_true]
            exact weaveFrom_right _ prev y _ _ _ (hI2 y (by simp))
              (weaveFrom_leftRest _ sameL _ _ (fun z hz => by
                simp at hz; subst hz; exact hyx))
          · have hb1' : b1 ≠ [] := fun h => hb1 (by simp [h])
            have hlastB : b1.getLast? = (y :: b1).getLast? := by
              cases b1 with
              | nil => exact absurd rfl hb1'
              | cons z zs => rw [List.getLast?_cons_cons]
            have hrec : ∀ mode' mg' st', WeaveFrom (Cross lt) (true, y) (x :: a1) b1
                (mergeLowLoop lt steps mode' mg' st' (x :: a1) b1).1 := by
              intro mode' mg' st'
              refine ih mode' mg' st' (x :: a1) b1 (true, y) (by simp at hfuel ⊢; omega) ha hb1'
                (fun z hz => by simp at hz; subst hz; exact hyx)
                (fun z _ => sameR y z) ?_
              intro z hz w hw
              exact hG z (by rw [← hlastB]; exact hz) w hw
            simp only [hb1, Bool.false_eq_true, if_false]
            split
            · exact weaveFrom_right _ prev y _ _ _ (hI2 y (by simp)) (hrec _ _ _)
            · exact weaveFrom_right _ prev y _ _ _ (hI2 y (by simp)) (hrec _ _ _)
        · have hlt' : lt y x = false := by simpa using hlt
          simp only [hlt', Bool.false_eq_true, if_false]
          have hxy : Cross lt (false, x) (true, y) := (cross_left_right lt x y).mpr hlt'
          by_cases hone : a1.length = 1
          · simp only [hone, if_true]
            refine weaveFrom_left _ prev x _ _ _ (hI1 x (by simp)) ?_
            have := weaveFrom_rightBlock (Cross lt) sameR a1 [] a1 (y :: b1) (false, x)
              (fun z hz => by simp at hz; subst hz; exact hxy) ?_
            · simpa using this
            · refine weaveFrom_leftRest _ sameL _ _ ?_
              intro z hz
              obtain ⟨w, hw⟩ : ∃ w, (y :: b1).getLast? = some w := by
                cases h : (y :: b1).getLast? with
                | none => simp at h
                | some w => exact ⟨w, rfl⟩
              rw [lastOf_of_getLast? _ _ _ _ hw]
              refine (cross_right_left lt z w).mpr (hG w (by simp [hw]) z ?_)
              rw [← hlastA, ← head?_eq_getLast?_of_length_one a1 hone]
              exact hz
          · have ha1' : 2 ≤ a1.length := by
              have : a1.length ≠ 0 := fun h => ha1 (List.length_eq_zero.mp h)
              omega
            have hrec : ∀ mode' mg' st', WeaveFrom (Cross lt) (false, x) a1 (y :: b1)
                (mergeLowLoop lt steps mode' mg' st' a1 (y :: b1)).1 := by
              intro mode' mg' st'
              refine ih mode' mg' st' a1 (y :: b1) (false, x) (by simp at hfuel ⊢; omega) ha1'
                (by simp) (fun z _ => sameL x z)
                (fun z hz => by simp at hz; subst hz; exact hxy) ?_
              intro z hz w hw
              exact hG z hz w (by rw [← hlastA]; exact hw)
            simp only [hone, if_false]
            split
            · exact weaveFrom_left _ prev x _ _ _ (hI1 x (by simp)) (hrec _ _ _)
            · exact weaveFrom_left _ prev x _ _ _ (hI1 x (by simp)) (hrec _ _ _)
    | gallop =>
      match b, hb with
      | y :: b1, _ =>
        simp only [mergeLowLoop]
        obtain ⟨g1, g2, g3⟩ := gallopRight_spec lt y a 0 (by omega)
        generalize gallopRight lt y a 0 = winsA at g1 g2 g3 ⊢
        have hsplit : a.take winsA ++ a.drop winsA = a := List.take_append_drop _ _
        have hlen : (a.drop winsA).length = a.length - winsA := List.length_drop _ _
        have hheadA : ∀ z ∈ (a.take winsA).head?, Cross lt prev (false, z) := by
          intro z hz
          by_cases hw : 0 < winsA
          · rw [head?_take_of_pos a winsA hw] at hz
            exact hI1 z hz
          · have : winsA = 0 := by omega
            subst this
            simp at hz
        have hlastA : a.drop winsA ≠ [] → (a.drop winsA).getLast? = a.getLast? := by
          intro h
          refine getLast?_drop_of_lt a winsA ?_
          by_contra hge
          exact h (List.drop_eq_nil_of_le (by omega))
        generalize hdrop : a.drop winsA = a1 at g3 hsplit hlen hlastA ⊢
        generalize htake : a.take winsA = blkA at g2 hsplit hheadA ⊢
        have hstart : ∀ restOut, WeaveFrom (Cross lt) (lastOf false prev blkA) a1 (y :: b1) restOut →
            WeaveFrom (Cross lt) prev a (y :: b1) (blkA ++ restOut) := by
          intro restOut hw
          have := weaveFrom_leftBlock (Cross lt) sameL a1 (y :: b1) restOut blkA prev hheadA hw
          rwa [hsplit] at this
        have hy : Cross lt (lastOf false prev blkA) (true, y) :=
          cross_lastOf_left lt prev blkA y g2 (fun _ => hI2 y (by simp))
        obtain ⟨wb, hwb⟩ : ∃ w, (y :: b1).getLast? = some w := by
          cases h : (y :: b1).getLast? with
          | none => simp at h
          | some w => exact ⟨w, rfl⟩
        have hGw : ∀ z ∈ a.getLast?, Cross lt (true, wb) (false, z) := fun z hz =>
          (cross_right_left lt z wb).mpr (hG wb (by simp [hwb]) z hz)
        by_cases hc1 : 0 < winsA ∧ a1.length = 1
        · simp only [hc1, and_self, if_true]
          refine hstart _ ?_
          have := weaveFrom_rightBlock (Cross lt) sameR a1 [] a1 (y :: b1) _
            (fun z hz => by simp at hz; subst hz; exact hy) ?_
          · simpa using this
          · refine weaveFrom_leftRest _ sameL _ _ ?_
            intro z hz
            rw [lastOf_of_getLast? _ _ _ _ hwb]
            refine hGw z ?_
            have hne : a1 ≠ [] := by
              intro h; rw [h] at hc1; simp at hc1
            rw [← hlastA hne, ← head?_eq_getLast?_of_length_one a1 hc1.2]
            exact hz
        · simp only [hc1, if_false]
          by_cases hc2 : 0 < winsA ∧ a1.length = 0
          · simp only [hc2, and_self, if_true]
            have ha1 : a1 = [] := List.length_eq_zero.mp hc2.2
            subst ha1
            refine hstart _ ?_
            exact weaveFrom_rightRest _ sameR _ _ (fun z hz => by
              simp at hz; subst hz; exact hy)
          · simp only [hc2, if_false]
            have ha1len : 2 ≤ a1.length := by
              by_cases hw : 0 < winsA
              · have h1 : a1.length ≠ 1 := fun h => hc1 ⟨hw, h⟩
                have h0 : a1.length ≠ 0 := fun h => hc2 ⟨hw, h⟩
                omega
              · omega
            have ha1ne : a1 ≠ [] := by
              intro h; rw [h] at ha1len; simp at ha1len
            by_cases hb1 : b1.isEmpty = true
            · simp only [hb1, if_true]
              refine hstart _ ?_
              have hb1' : b1 = [] := List.isEmpty_iff.mp hb1
              subst hb1'
              exact weaveFrom_right _ _ y _ _ _ hy
                (weaveFrom_leftRest _ sameL _ _ (fun z hz =>
                  (cross_right_left lt z y).mpr (g3 z hz)))
            · simp only [hb1, Bool.false_eq_true, if_false]
              have hb1ne : b1 ≠ [] := fun h => hb1 (by simp [h])
              have hb1len : 0 < b1.length := List.length_pos.mpr hb1ne
              cases a1 with
              | nil => exact absurd rfl ha1ne
              | cons x a2 =>
                simp only []
                obtain ⟨q1, q2, q3⟩ := gallopLeft_spec lt x b1 0 hb1len
                generalize gallopLeft lt x b1 0 = winsB at q1 q2 q3 ⊢
                have hyx : Cross lt (true, y) (false, x) :=
                  (cross_right_left lt x y).mpr (g3 x (by simp))
                have hsplitB : b1.take winsB ++ b1.drop winsB = b1 := List.take_append_drop _ _
                have hlenB : (b1.drop winsB).length = b1.length - winsB := List.length_drop _ _
                have hlastB : b1.drop winsB ≠ [] → (b1.drop winsB).getLast? = some wb := by
                  intro h
                  have h0 : winsB < b1.length := by
                    by_contra hge
                    exact h (List.drop_eq_nil_of_le (by omega))
                  rw [getLast?_drop_of_lt b1 winsB h0, ← hwb]
                  cases b1 with
                  | nil => exact absurd rfl hb1ne
                  | cons z zs => rw [List.getLast?_cons_cons]
                generalize hdropB : b1.drop winsB = b2 at q3 hsplitB hlenB hlastB ⊢
                generalize htakeB : b1.take winsB = blkB at q2 hsplitB ⊢
                have hx : Cross lt (lastOf true (true, y) blkB) (false, x) :=
                  cross_lastOf_right lt _ blkB x q2 (fun _ => hyx)
                have hmid : ∀ restOut,
                    WeaveFrom (Cross lt) (lastOf true (true, y) blkB) (x :: a2) b2 restOut →
                    WeaveFrom (Cross lt) (lastOf false prev blkA) (x :: a2) (y :: b1)
                      (y :: (blkB ++ restOut)) := by
                  intro restOut hw
                  refine weaveFrom_right _ _ y _ _ _ hy ?_
                  have := weaveFrom_rightBlock (Cross lt) sameR (x :: a2) b2 restOut blkB (true, y)
                    (fun z _ => sameR y z) hw
                  rwa [hsplitB] at this
                have ha2last : a2 ≠ [] → a2.getLast? = a.getLast? := by
                  intro h
                  rw [← hlastA (by simp)]
                  cases a2 with
                  | nil => exact absurd rfl h
                  | cons z zs => rw [List.getLast?_cons_cons]
                by_cases hc3 : 0 < winsB ∧ b2.isEmpty = true
                · simp only [hc3, and_self, if_true]
                  have hb2 : b2 = [] := List.isEmpty_iff.mp hc3.2
                  subst hb2
                  refine hstart _ (hmid _ ?_)
                  exact weaveFrom_leftRest _ sameL _ _ (fun z hz => by
                    simp at hz; subst hz; exact hx)
                · simp only [hc3, if_false]
                  have hb2ne : b2 ≠ [] := by
                    intro h
                    by_cases hw : 0 < winsB
                    · exact hc3 ⟨hw, by simp [h]⟩
                    · have : winsB = 0 := by omega
                      subst this
                      simp at hdropB
                      exact hb1ne (hdropB.trans h)
                  have hq3 : ∀ z ∈ b2.head?, Cross lt (false, x) (true, z) := fun z hz =>
                    (cross_left_right lt x z).mpr (q3 z hz)
                  by_cases hc4 : a2.length = 1
                  · simp only [hc4, if_true]
                    refine hstart _ (hmid _ ?_)
                    refine weaveFrom_left _ _ x _ _ _ hx ?_
                    have := weaveFrom_rightBlock (Cross lt) sameR a2 [] a2 b2 (false, x) hq3 ?_
                    · simpa using this
                    · refine weaveFrom_leftRest _ sameL _ _ ?_
                      intro z hz
                      rw [lastOf_of_getLast? _ _ _ _ (hlastB hb2ne)]
                      refine hGw z ?_
                      have hne : a2 ≠ [] := by
                        intro h; rw [h] at hc4; simp at hc4
                      rw [← ha2last hne, ← head?_eq_getLast?_of_length_one a2 hc4]
                      exact hz
                  · simp only [hc4, if_false]
                    have ha2len : 2 ≤ a2.length := by
                      simp at ha1len
                      omega
                    have ha2ne : a2 ≠ [] := by
                      intro h; rw [h] at ha2len; simp at ha2len
                    have hrec : ∀ mode' mg' st', WeaveFrom (Cross lt) (false, x) a2 b2
                        (mergeLowLoop lt steps mode' mg' st' a2 b2).1 := by
                      intro mode' mg' st'
                      refine ih mode' mg' st' a2 b2 (false, x) ?_ ha2len hb2ne
                        (fun z _ => sameL x z) hq3 ?_
                      · simp at hfuel hlen
                        omega
                      · intro z hz w hw
                        rw [hlastB hb2ne] at hz
                        have hz' : wb = z := by simpa using hz
                        subst hz'
                        exact hG _ (by simp [hwb]) w (by rw [← ha2last ha2ne]; exact hw)
                    split
                    · exact hstart _ (hmid _ (weaveFrom_left _ _ x _ _ _ hx (hrec _ _ _)))
                    · exact hstart _ (hmid _ (weaveFrom_left _ _ x _ _ _ hx (hrec _ _ _)))

end MergeLowWeave

section MergeHighWeave

variable {α : Type}

theorem crossR_left_right (lt : α → α → Bool) (x y : α) :
    CrossR lt (false, x) (true, y) ↔ lt y x = true := by
  simp [CrossR, Cross]

theorem crossR_right_left (lt : α → α → Bool) (x y : α) :
    CrossR lt (true, y) (false, x) ↔ lt y x = false := by
  simp [CrossR, Cross]

theorem crossR_lastOf_left (lt : α → α → Bool) (prev : Bool × α) (block : List α) (y : α)
    (h1 : ∀ z ∈ block.getLast?, lt y z = true) (h2 : block = [] → CrossR lt prev (true, y)) :
    CrossR lt (lastOf false prev block) (true, y) := by
  cases hb : block.getLast? with
  | none =>
    have : block = [] := List.getLast?_eq_none_iff.mp hb
    simpa [lastOf, hb] using h2 this
  | some z =>
    rw [lastOf_of_getLast? _ _ _ _ hb]
    exact (crossR_left_right lt z y).mpr (h1 z (by simp [hb]))

theorem crossR_lastOf_right (lt : α → α → Bool) (prev : Bool × α) (block : List α) (x : α)
    (h1 : ∀ z ∈ block.getLast?, lt z x = false) (h2 : block = [] → CrossR lt prev (false, x)) :
    CrossR lt (lastOf true prev block) (false, x) := by
  cases hb : block.getLast? with
  | none =>
    have : block = [] := List.getLast?_eq_none_iff.mp hb
    simpa [lastOf, hb] using h2 this
  | some z =>
    rw [lastOf_of_getLast? _ _ _ _ hb]
    exact (crossR_right_left lt x z).mpr (h1 z (by simp [hb]))

theorem gallopRight_reverse_spec (lt : α → α → Bool) (key : α) (ra : List α) (h : ra ≠ []) :
    (∀ z ∈ (ra.take (ra.length - gallopRight lt key ra.reverse (ra.length - 1))).getLast?,
        lt key z = true)
      ∧ (∀ z ∈ (ra.drop (ra.length - gallopRight lt key ra.reverse (ra.length - 1))).head?,
        lt key z = false) := by
  have hpos : 0 < ra.length := List.length_pos.mpr h
  obtain ⟨g1, g2, g3⟩ := gallopRight_spec lt key ra.reverse (ra.length - 1)
    (by simp; omega)
  generalize gallopRight lt key ra.reverse (ra.length - 1) = k at g1 g2 g3 ⊢
  rw [List.take_reverse, List.getLast?_reverse] at g2
  rw [List.drop_reverse, List.head?_reverse] at g3
  exact ⟨g3, g2⟩

theorem gallopLeft_reverse_spec (lt : α → α → Bool) (key : α) (rb : List α) (h : rb ≠ []) :
    (∀ z ∈ (rb.take (rb.length - gallopLeft lt key rb.reverse (rb.length - 1))).getLast?,
        lt z key = false)
      ∧ (∀ z ∈ (rb.drop (rb.length - gallopLeft lt key rb.reverse (rb.length - 1))).head?,
        lt z key = true) := by
  have hpos : 0 < rb.length := List.length_pos.mpr h
  obtain ⟨g1, g2, g3⟩ := gallopLeft_spec lt key rb.reverse (rb.length - 1)
    (by simp; omega)
  generalize gallopLeft lt key rb.reverse (rb.length - 1) = k at g1 g2 g3 ⊢
  rw [List.take_reverse, List.getLast?_reverse] at g2
  rw [List.drop_reverse, List.head?_reverse] at g3
  exact ⟨g3, g2⟩

theorem mergeHighLoop_weave (lt : α → α → Bool) :
    ∀ (steps : Nat) (mode : MergeMode) (minGallop stored : Nat) (ra rb : List α)
      (prev : Bool × α),
      ra.length + rb.length ≤ steps → ra ≠ [] → 2 ≤ rb.length →
      (∀ x ∈ ra.head?, CrossR lt prev (false, x)) →
      (∀ y ∈ rb.head?, CrossR lt prev (true, y)) →
      (∀ y ∈ rb.getLast?, ∀ x ∈ ra.getLast?, lt y x = true) →
      WeaveFrom (CrossR lt) prev ra rb (mergeHighLoop lt steps mode minGallop stored ra rb).1 := by
  intro steps
  induction steps with
  | zero =>
    intro mode mg st ra rb prev hfuel _ hb
    omega
  | succ steps ih =>
    intro mode mg st ra rb prev hfuel ha hb hI1 hI2 hG
    have sameL : ∀ x y : α, CrossR lt (false, x) (false, y) := crossR_same lt false
    have sameR : ∀ x y : α, CrossR lt (true, x) (true, y) := crossR_same lt true
    obtain ⟨wa, hwa⟩ : ∃ w, ra.getLast? = some w := by
      cases h : ra.getLast? with
      | none => exact absurd (List.getLast?_eq_none_iff.mp h) ha
      | some w => exact ⟨w, rfl⟩
    have hGw : ∀ z ∈ rb.getLast?, CrossR lt (false, wa) (true, z) := fun z hz =>
      (crossR_left_right lt wa z).mpr (hG z hz wa (by simp [hwa]))
    cases mode with
    | single winsA winsB =>
      match ra, rb, ha, hb with
      | x :: ra1, y :: rb1, _, hb =>
        have hrb1 : rb1 ≠ [] := by
          intro h; subst h; simp at hb
        have hlastB : rb1.getLast? = (y :: rb1).getLast? := by
          cases rb1 with
          | nil => exact absurd rfl hrb1
          | cons z zs => rw [List.getLast?_cons_cons]
        simp only [mergeHighLoop]
        by_cases hlt : lt y x = true
        · simp only [hlt, if_true]
          have hxy : CrossR lt (false, x) (true, y) := (crossR_left_right lt x y).mpr hlt
          by_cases hra1 : ra1.isEmpty = true
          · simp only [hra1, if_true]
            have hra1' : ra1 = [] := List.isEmpty_iff.mp hra1
            subst hra1'
            exact weaveFrom_left _ prev x _ _ _ (hI1 x (by simp))
              (weaveFrom_rightRest _ sameR _ _ (fun z hz => by
                simp at hz; subst hz; exact hxy))
          · have hra1' : ra1 ≠ [] := fun h => hra1 (by simp [h])
            have hlastA : ra1.getLast? = (x :: ra1).getLast? := by
              cases ra1 with
              | nil => exact absurd rfl hra1'
              | cons z zs => rw [List.getLast?_cons_cons]
            have hrec : ∀ mode' mg' st', WeaveFrom (CrossR lt) (false, x) ra1 (y :: rb1)
                (mergeHighLoop lt steps mode' mg' st' ra1 (y :: rb1)).1 := by
              intro mode' mg' st'
              refine ih mode' mg' st' ra1 (y :: rb1) (false, x) (by simp at hfuel ⊢; omega)
                hra1' hb (fun z _ => sameL x z)
                (fun z hz => by simp at hz; subst hz; exact hxy) ?_
              intro z hz w hw
              exact hG z hz w (by rw [← hlastA]; exact hw)
            simp only [hra1, Bool.false_eq_true, if_false]
            split
            · exact weaveFrom_left _ prev x _ _ _ (hI1 x (by simp)) (hrec _ _ _)
            · exact weaveFrom_left _ prev x _ _ _ (hI1 x (by simp)) (hrec _ _ _)
        · have hlt' : lt y x = false := by simpa using hlt
          simp only [hlt', Bool.false_eq_true, if_false]
          have hyx : CrossR lt (true, y) (false, x) := (crossR_right_left lt x y).mpr hlt'
          by_cases hone : rb1.length = 1
          · simp only [hone, if_true]
            refine weaveFrom_right _ prev y _ _ _ (hI2 y (by simp)) ?_
            have := weaveFrom_leftBlock (CrossR lt) sameL [] rb1 rb1 (x :: ra1) (true, y)
              (fun z hz => by simp at hz; subst hz; exact hyx) ?_
            · simpa using this
            · refine weaveFrom_rightRest _ sameR _ _ ?_
              intro z hz
              rw [lastOf_of_getLast? _ _ _ _ hwa]
              refine hGw z ?_
              rw [← hlastB, ← head?_eq_getLast?_of_length_one rb1 hone]
              exact hz
          · have hrb1' : 2 ≤ rb1.length := by
              have : rb1.length ≠ 0 := fun h => hrb1 (List.length_eq_zero.mp h)
              omega
            have hrec : ∀ mode' mg' st', WeaveFrom (CrossR lt) (true, y) (x :: ra1) rb1
                (mergeHighLoop lt steps mode' mg' st' (x :: ra1) rb1).1 := by
              intro mode' mg' st'
              refine ih mode' mg' st' (x :: ra1) rb1 (true, y) (by simp at hfuel ⊢; omega)
                (by simp) hrb1' (fun z hz => by simp at hz; subst hz; exact hyx)
                (fun z _ => sameR y z) ?_
              intro z hz w hw
              exact hG z (by rw [← hlastB]; exact hz) w hw
            simp only [hone, if_false]
            split
            · exact weaveFrom_right _ prev y _ _ _ (hI2 y (by simp)) (hrec _ _ _)
            · exact weaveFrom_right _ prev y _ _ _ (hI2 y (by simp)) (hrec _ _ _)
    | gallop =>
      match rb, hb with
      | y :: rb1, hb =>
        have hrb1 : rb1 ≠ [] := by
          intro h; subst h; simp at hb
        have hlastB1 : rb1.getLast? = (y :: rb1).getLast? := by
          cases rb1 with
          | nil => exact absurd rfl hrb1
          | cons z zs => rw [List.getLast?_cons_cons]
        simp only [mergeHighLoop]
        obtain ⟨g3, g2⟩ := gallopRight_reverse_spec lt y ra ha
        generalize ra.length - gallopRight lt y ra.reverse (ra.length - 1) = winsA at g2 g3 ⊢
        have hsplit : ra.take winsA ++ ra.drop winsA = ra := List.take_append_drop _ _
        have hlen : (ra.drop winsA).length = ra.length - winsA := List.length_drop _ _
        have hheadA : ∀ z ∈ (ra.take winsA).head?, CrossR lt prev (false, z) := by
          intro z hz
          by_cases hw : 0 < winsA
          · rw [head?_take_of_pos ra winsA hw] at hz
            exact hI1 z hz
          · have : winsA = 0 := by omega
            subst this
            simp at hz
        have hlastA : ra.drop winsA ≠ [] → (ra.drop winsA).getLast? = some wa := by
          intro h
          rw [← hwa]
          refine getLast?_drop_of_lt ra winsA ?_
          by_contra hge
          exact h (List.drop_eq_nil_of_le (by omega))
        have hdrop0 : winsA = 0 → ra.drop winsA = ra := by
          intro h; subst h; rfl
        generalize hdrop : ra.drop winsA = ra1 at g2 hsplit hlen hlastA hdrop0 ⊢
        generalize htake : ra.take winsA = blkA at g3 hsplit hheadA ⊢
        have hstart : ∀ restOut,
            WeaveFrom (CrossR lt) (lastOf false prev blkA) ra1 (y :: rb1) restOut →
            WeaveFrom (CrossR lt) prev ra (y :: rb1) (blkA ++ restOut) := by
          intro restOut hw
          have := weaveFrom_leftBlock (CrossR lt) sameL ra1 (y :: rb1) restOut blkA prev hheadA hw
          rwa [hsplit] at this
        have hy : CrossR lt (lastOf false prev blkA) (true, y) :=
          crossR_lastOf_left lt prev blkA y g3 (fun _ => hI2 y (by simp))
        by_cases hc1 : 0 < winsA ∧ ra1.length = 0
        · simp only [hc1, and_self, if_true]
          have hra1 : ra1 = [] := List.length_eq_zero.mp hc1.2
          subst hra1
          refine hstart _ ?_
          exact weaveFrom_rightRest _ sameR _ _ (fun z hz => by
            simp at hz; subst hz; exact hy)
        · simp only [hc1, if_false]
          have hra1ne : ra1 ≠ [] := by
            intro h
            by_cases hw : 0 < winsA
            · exact hc1 ⟨hw, by simp [h]⟩
            · exact ha ((hdrop0 (by omega)).symm.trans h)
          have hyra1 : ∀ z ∈ ra1.head?, CrossR lt (true, y) (false, z) := fun z hz =>
            (crossR_right_left lt z y).mpr (g2 z hz)
          by_cases hc2 : rb1.length = 1
          · simp only [hc2, if_true]
            refine hstart _ (weaveFrom_right _ _ y _ _ _ hy ?_)
            have := weaveFrom_leftBlock (CrossR lt) sameL [] rb1 rb1 ra1 (true, y) hyra1 ?_
            · simpa using this
            · refine weaveFrom_rightRest _ sameR _ _ ?_
              intro z hz
              rw [lastOf_of_getLast? _ _ _ _ (hlastA hra1ne)]
              refine hGw z ?_
              rw [← hlastB1, ← head?_eq_getLast?_of_length_one rb1 hc2]
              exact hz
          · simp only [hc2, if_false]
            have hrb1len : 2 ≤ rb1.length := by
              have : rb1.length ≠ 0 := fun h => hrb1 (List.length_eq_zero.mp h)
              omega
            cases ra1 with
            | nil => exact absurd rfl hra1ne
            | cons x ra2 =>
              simp only []
              obtain ⟨q3, q2⟩ := gallopLeft_reverse_spec lt x rb1 hrb1
              generalize rb1.length - gallopLeft lt x rb1.reverse (rb1.length - 1) = winsB
                at q2 q3 ⊢
              have hyx : CrossR lt (true, y) (false, x) := hyra1 x (by simp)
              have hsplitB : rb1.take winsB ++ rb1.drop winsB = rb1 := List.take_append_drop _ _
              have hlenB : (rb1.drop winsB).length = rb1.length - winsB := List.length_drop _ _
              have hlastB : rb1.drop winsB ≠ [] →
                  (rb1.drop winsB).getLast? = (y :: rb1).getLast? := by
                intro h
                have h0 : winsB < rb1.length := by
                  by_contra hge
                  exact h (List.drop_eq_nil_of_le (by omega))
                rw [getLast?_drop_of_lt rb1 winsB h0, hlastB1]
              generalize hdropB : rb1.drop winsB = rb2 at q2 hsplitB hlenB hlastB ⊢
              generalize htakeB : rb1.take winsB = blkB at q3 hsplitB ⊢
              have hx : CrossR lt (lastOf true (true, y) blkB) (false, x) :=
                crossR_lastOf_right lt _ blkB x q3 (fun _ => hyx)
              have hmid : ∀ restOut,
                  WeaveFrom (CrossR lt) (lastOf true (true, y) blkB) (x :: ra2) rb2 restOut →
                  WeaveFrom (CrossR lt) (lastOf false prev blkA) (x :: ra2) (y :: rb1)
                    (y :: (blkB ++ restOut)) := by
                intro restOut hw
                refine weaveFrom_right _ _ y _ _ _ hy ?_
                have := weaveFrom_rightBlock (CrossR lt) sameR (x :: ra2) rb2 restOut blkB (true, y)
                  (fun z _ => sameR y z) hw
                rwa [hsplitB] at this
              have hra2last : ra2 ≠ [] → ra2.getLast? = some wa := by
                intro h
                rw [← hlastA (by simp)]
                cases ra2 with
                | nil => exact absurd rfl h
                | cons z zs => rw [List.getLast?_cons_cons]
              have hwa1 : (x :: ra2).getLast? = some wa := hlastA (by simp)
              have hq2 : ∀ z ∈ rb2.head?, CrossR lt (false, x) (true, z) := fun z hz =>
                (crossR_left_right lt x z).mpr (q2 z hz)
              by_cases hc3 : 0 < winsB ∧ rb2.length = 1
              · simp only [hc3, and_self, if_true]
                refine hstart _ (hmid _ ?_)
                have := weaveFrom_leftBlock (CrossR lt) sameL [] rb2 rb2 (x :: ra2) _
                  (fun z hz => by simp at hz; subst hz; exact hx) ?_
                · simpa using this
                · refine weaveFrom_rightRest _ sameR _ _ ?_
                  intro z hz
                  rw [lastOf_of_getLast? _ _ _ _ hwa1]
                  refine hGw z ?_
                  have hne : rb2 ≠ [] := by
                    intro h; rw [h] at hc3; simp at hc3
                  rw [← hlastB hne, ← head?_eq_getLast?_of_length_one rb2 hc3.2]
                  exact hz
              · simp only [hc3, if_false]
                by_cases hc4 : 0 < winsB ∧ rb2.length = 0
                · simp only [hc4, and_self, if_true]
                  have hrb2 : rb2 = [] := List.length_eq_zero.mp hc4.2
                  subst hrb2
                  refine hstart _ (hmid _ ?_)
                  exact weaveFrom_leftRest _ sameL _ _ (fun z hz => by
                    simp at hz; subst hz; exact hx)
                · simp only [hc4, if_false]
                  have hrb2len : 2 ≤ rb2.length := by
                    by_cases hw : 0 < winsB
                    · have h1 : rb2.length ≠ 1 := fun h => hc3 ⟨hw, h⟩
                      have h0 : rb2.length ≠ 0 := fun h => hc4 ⟨hw, h⟩
                      omega
                    · omega
                  have hrb2ne : rb2 ≠ [] := by
                    intro h; rw [h] at hrb2len; simp at hrb2len
                  by_cases hc5 : ra2.isEmpty = true
                  · simp only [hc5, if_true]
                    refine hstart _ (hmid _ ?_)
                    have hra2 : ra2 = [] := List.isEmpty_iff.mp hc5
                    subst hra2
                    exact weaveFrom_left _ _ x _ _ _ hx (weaveFrom_rightRest _ sameR _ _ hq2)
                  · simp only [hc5, Bool.false_eq_true, if_false]
                    have hra2ne : ra2 ≠ [] := fun h => hc5 (by simp [h])
                    have hrec : ∀ mode' mg' st', WeaveFrom (CrossR lt) (false, x) ra2 rb2
                        (mergeHighLoop lt steps mode' mg' st' ra2 rb2).1 := by
                      intro mode' mg' st'
                      refine ih mode' mg' st' ra2 rb2 (false, x) ?_ hra2ne hrb2len
                        (fun z _ => sameL x z) hq2 ?_
                      · have h1 : ra.length = blkA.length + (x :: ra2).length := by
                          rw [← hsplit]; simp
                        simp at hfuel hlenB h1
                        omega
                      · intro z hz w hw
                        rw [hra2last hra2ne] at hw
                        have hw' : wa = w := by simpa using hw
                        subst hw'
                        exact hG z (by rw [← hlastB hrb2ne]; exact hz) _ (by simp [hwa])
                    split
                    · exact hstart _ (hmid _ (weaveFrom_left _ _ x _ _ _ hx (hrec _ _ _)))
                    · exact hstart _ (hmid _ (weaveFrom_left _ _ x _ _ _ hx (hrec _ _ _)))

end MergeHighWeave

section MergeWeave

variable {α : Type}

theorem leftPart_append (s t : List (Bool × α)) : leftPart (s ++ t) = leftPart s ++ leftPart t := by
  simp [leftPart]

theorem rightPart_append (s t : List (Bool × α)) :
    rightPart (s ++ t) = rightPart s ++ rightPart t := by
  simp [rightPart]

theorem leftPart_reverse (t : List (Bool × α)) : leftPart t.reverse = (leftPart t).reverse := by
  simp [leftPart, List.filter_reverse]

theorem rightPart_reverse (t : List (Bool × α)) :
    rightPart t.reverse = (rightPart t).reverse := by
  simp [rightPart, List.filter_reverse]

theorem leftPart_map_false (l : List α) : leftPart (l.map (fun x => (false, x))) = l := by
  induction l with
  | nil => rfl
  | cons x xs ih => simpa [leftPart] using ih

theorem rightPart_map_false (l : List α) : rightPart (l.map (fun x => (false, x))) = [] := by
  simp [rightPart]

theorem leftPart_map_true (l : List α) : leftPart (l.map (fun x => (true, x))) = [] := by
  simp [leftPart]

theorem rightPart_map_true (l : List α) : rightPart (l.map (fun x => (true, x))) = l := by
  induction l with
  | nil => rfl
  | cons x xs ih => simpa [rightPart] using ih

theorem chain'_map_tag (lt : α → α → Bool) (tag : Bool) (l : List α) :
    List.Chain' (Cross lt) (l.map (fun x => (tag, x))) := by
  rw [List.chain'_map]
  exact List.Pairwise.chain' (List.pairwise_of_forall (fun x y => cross_same lt tag x y))

/-- The first element of a list of elements with their run, when it comes
from the right run, is the first element of the right run. -/
theorem rightPart_head (t : List (Bool × α)) (u : Bool × α) (h : u ∈ t.head?)
    (hu : u.1 = true) : (rightPart t).head? = some u.2 := by
  cases t with
  | nil => simp at h
  | cons v t' =>
    simp at h
    subst h
    simp [rightPart, hu]

/-- The last element of a list of elements with their run, when it comes
from the left run, is the last element of the left run. -/
theorem leftPart_getLast (t : List (Bool × α)) (u : Bool × α) (h : u ∈ t.getLast?)
    (hu : u.1 = false) : (leftPart t).getLast? = some u.2 := by
  have h1 : u ∈ t.reverse.head? := by simpa using h
  cases hr : t.reverse with
  | nil => rw [hr] at h1; simp at h1
  | cons v t' =>
    rw [hr] at h1
    simp at h1
    subst h1
    have : t = t'.reverse ++ [v] := by
      have := congrArg List.reverse hr
      simpa using this
    rw [this, leftPart_append]
    simp [leftPart, hu]

theorem weave_cons_right (lt : α → α → Bool) (y : α) (a b out : List α)
    (h : WeaveFrom (Cross lt) (true, y) a b out) : Weave lt a (y :: b) (y :: out) := by
  obtain ⟨t, h1, h2, h3, h4⟩ := h
  refine ⟨(true, y) :: t, by simp [h1], ?_, ?_, h4⟩
  · simpa [leftPart] using h2
  · simpa [rightPart] using h3

theorem weave_of_reversed (lt : α → α → Bool) (x : α) (ra rb rout : List α)
    (h : WeaveFrom (CrossR lt) (false, x) ra rb rout) :
    Weave lt (ra.reverse ++ [x]) rb.reverse (rout.reverse ++ [x]) := by
  obtain ⟨t, h1, h2, h3, h4⟩ := h
  refine ⟨((false, x) :: t).reverse, ?_, ?_, ?_, ?_⟩
  · simp [← h1]
  · rw [leftPart_reverse]
    simp [leftPart, ← h2]
  · rw [rightPart_reverse]
    simp [rightPart, ← h3]
  · rw [List.chain'_reverse]
    exact h4

/-- The two runs one after the other, when the first of the right run is
not less than the last of the left run. -/
theorem weave_append (lt : α → α → Bool) (a b : List α)
    (h : ∀ x ∈ a.getLast?, ∀ y ∈ b.head?, lt y x = false) : Weave lt a b (a ++ b) := by
  refine ⟨a.map (fun x => (false, x)) ++ b.map (fun x => (true, x)), by simp, ?_, ?_, ?_⟩
  · rw [leftPart_append, leftPart_map_false, leftPart_map_true, List.append_nil]
  · rw [rightPart_append, rightPart_map_false, rightPart_map_true, List.nil_append]
  · rw [List.chain'_append]
    refine ⟨chain'_map_tag lt false a, chain'_map_tag lt true b, ?_⟩
    intro u hu v hv
    simp only [List.getLast?_map, List.head?_map, Option.mem_def, Option.map_eq_some'] at hu hv
    obtain ⟨x, hx, rfl⟩ := hu
    obtain ⟨y, hy, rfl⟩ := hv
    exact (cross_left_right lt x y).mpr (h x hx y hy)

/-- Elements of the left run that stay in front of a merged part. -/
theorem weave_prepend_left (lt : α → α → Bool) (block a b out : List α) (hw : Weave lt a b out)
    (h : ∀ x ∈ block.getLast?, ∀ y ∈ b.head?, lt y x = false) :
    Weave lt (block ++ a) b (block ++ out) := by
  obtain ⟨t, h1, h2, h3, h4⟩ := hw
  refine ⟨block.map (fun x => (false, x)) ++ t, by simp [h1], ?_, ?_, ?_⟩
  · rw [leftPart_append, leftPart_map_false, h2]
  · rw [rightPart_append, rightPart_map_false, h3, List.nil_append]
  · rw [List.chain'_append]
    refine ⟨chain'_map_tag lt false block, h4, ?_⟩
    intro u hu v hv
    simp only [List.getLast?_map, Option.mem_def, Option.map_eq_some'] at hu
    obtain ⟨x, hx, rfl⟩ := hu
    constructor
    · intro _ hv1
      have := rightPart_head t v hv hv1
      rw [h3] at this
      exact h x hx v.2 this
    · intro hcontra
      simp at hcontra

/-- Elements of the right run that stay behind a merged part. -/
theorem weave_append_right (lt : α → α → Bool) (block a b out : List α) (hw : Weave lt a b out)
    (h : ∀ y ∈ block.head?, ∀ x ∈ a.getLast?, lt y x = false) :
    Weave lt a (b ++ block) (out ++ block) := by
  obtain ⟨t, h1, h2, h3, h4⟩ := hw
  refine ⟨t ++ block.map (fun x => (true, x)), by simp [h1], ?_, ?_, ?_⟩
  · rw [leftPart_append, leftPart_map_true, h2, List.append_nil]
  · rw [rightPart_append, rightPart_map_true, h3]
  · rw [List.chain'_append]
    refine ⟨h4, chain'_map_tag lt true block, ?_⟩
    intro u hu v hv
    simp only [List.head?_map, Option.mem_def, Option.map_eq_some'] at hv
    obtain ⟨y, hy, rfl⟩ := hv
    constructor
    · intro hu1 _
      have := leftPart_getLast t u hu hu1
      rw [h2] at this
      exact h y hy u.2 this
    · intro _ hcontra
      simp at hcontra

theorem mergeLow_weave (lt : α → α → Bool) (stored : Nat) (a b : List α) (ha : a ≠ [])
    (hb : b ≠ []) (h1 : ∀ y ∈ b.head?, ∀ x ∈ a.head?, lt y x = true)
    (h2 : ∀ y ∈ b.getLast?, ∀ x ∈ a.getLast?, lt y x = true) :
    Weave lt a b (mergeLow lt stored a b).1 := by
  match b, hb with
  | y :: b1, _ =>
    have sameL : ∀ x y : α, Cross lt (false, x) (false, y) := cross_same lt false
    have sameR : ∀ x y : α, Cross lt (true, x) (true, y) := cross_same lt true
    have hya : ∀ z ∈ a.head?, Cross lt (true, y) (false, z) := fun z hz =>
      (cross_right_left lt z y).mpr (h1 y (by simp) z hz)
    simp only [mergeLow]
    by_cases hb1 : b1.isEmpty = true
    · simp only [hb1, if_true]
      have hb1' : b1 = [] := List.isEmpty_iff.mp hb1
      subst hb1'
      exact weave_cons_right lt y a [] a (weaveFrom_leftRest _ sameL _ _ hya)
    · simp only [hb1, Bool.false_eq_true, if_false]
      have hb1ne : b1 ≠ [] := fun h => hb1 (by simp [h])
      have hlastB : b1.getLast? = (y :: b1).getLast? := by
        cases b1 with
        | nil => exact absurd rfl hb1ne
        | cons z zs => rw [List.getLast?_cons_cons]
      by_cases hone : a.length = 1
      · simp only [hone, if_true]
        refine weave_cons_right lt y a b1 _ ?_
        have := weaveFrom_rightBlock (Cross lt) sameR a [] a b1 (true, y)
          (fun z _ => sameR y z) ?_
        · simpa using this
        · refine weaveFrom_leftRest _ sameL _ _ ?_
          intro z hz
          refine cross_lastOf_right lt _ b1 z ?_ (fun h => absurd h hb1ne)
          intro w hw
          refine h2 w (by rw [← hlastB]; exact hw) z ?_
          rw [← head?_eq_getLast?_of_length_one a hone]
          exact hz
      · simp only [hone, if_false]
        refine weave_cons_right lt y a b1 _ ?_
        refine mergeLowLoop_weave lt _ _ _ _ a b1 (true, y) (by simp) ?_ hb1ne hya
          (fun z _ => sameR y z) ?_
        · have : a.length ≠ 0 := fun h => ha (List.length_eq_zero.mp h)
          omega
        · intro z hz w hw
          exact h2 z (by rw [← hlastB]; exact hz) w hw

theorem mergeHigh_weave (lt : α → α → Bool) (stored : Nat) (a b : List α) (ha : a ≠ [])
    (hb : b ≠ []) (h1 : ∀ y ∈ b.head?, ∀ x ∈ a.head?, lt y x = true)
    (h2 : ∀ y ∈ b.getLast?, ∀ x ∈ a.getLast?, lt y x = true) :
    Weave lt a b (mergeHigh lt stored a b).1 := by
  have sameL : ∀ x y : α, CrossR lt (false, x) (false, y) := crossR_same lt false
  have sameR : ∀ x y : α, CrossR lt (true, x) (true, y) := crossR_same lt true
  cases hra : a.reverse with
  | nil => exact absurd (List.reverse_eq_nil_iff.mp hra) ha
  | cons x ra1 =>
    have harev : a = ra1.reverse ++ [x] := by
      have := congrArg List.reverse hra
      simpa using this
    have hlastA : a.getLast? = some x := by rw [harev]; simp
    have hxb : ∀ y ∈ b.reverse.head?, CrossR lt (false, x) (true, y) := fun y hy =>
      (crossR_left_right lt x y).mpr (h2 y (by simpa using hy) x (by simp [hlastA]))
    have hfinish : ∀ rout, WeaveFrom (CrossR lt) (false, x) ra1 b.reverse rout →
        Weave lt a b (rout.reverse ++ [x]) := by
      intro rout hw
      have := weave_of_reversed lt x ra1 b.reverse rout hw
      rwa [← harev, List.reverse_reverse] at this
    simp only [mergeHigh, hra]
    by_cases hra1 : ra1.isEmpty = true
    · simp only [hra1, if_true]
      have hra1' : ra1 = [] := List.isEmpty_iff.mp hra1
      subst hra1'
      have := hfinish b.reverse (weaveFrom_rightRest _ sameR _ _ hxb)
      simpa using this
    · simp only [hra1, Bool.false_eq_true, if_false]
      have hra1ne : ra1 ≠ [] := fun h => hra1 (by simp [h])
      have hheadA : ra1.getLast? = a.head? := by
        rw [harev]
        cases hr : ra1.reverse with
        | nil => exact absurd (List.reverse_eq_nil_iff.mp hr) hra1ne
        | cons z zs =>
          have : ra1.getLast? = ra1.reverse.head? := by simp
          rw [this, hr]
          simp
      by_cases hone : b.length = 1
      · simp only [hone, if_true]
        have hw : WeaveFrom (CrossR lt) (false, x) ra1 b.reverse (ra1 ++ b.reverse) := by
          have := weaveFrom_leftBlock (CrossR lt) sameL [] b.reverse b.reverse ra1 (false, x)
            (fun z _ => sameL x z) ?_
          · simpa using this
          · refine weaveFrom_rightRest _ sameR _ _ ?_
            intro z hz
            refine crossR_lastOf_left lt _ ra1 z ?_ (fun h => absurd h hra1ne)
            intro w hw
            refine h1 z ?_ w (by rw [← hheadA]; exact hw)
            have hb1 : b.reverse.length = 1 := by simpa using hone
            have : b.reverse.head? = b.reverse.getLast? :=
              head?_eq_getLast?_of_length_one _ hb1
            rw [this] at hz
            simpa using hz
        have := hfinish _ hw
        simpa using this
      · simp only [hone, if_false]
        refine hfinish _ ?_
        refine mergeHighLoop_weave lt _ _ _ _ ra1 b.reverse (false, x) ?_ hra1ne ?_
          (fun z _ => sameL x z) hxb ?_
        · have : a.length = ra1.length + 1 := by rw [harev]; simp
          simp
          omega
        · have : b.length ≠ 0 := fun h => hb (List.length_eq_zero.mp h)
          simp
          omega
        · intro z hz w hw
          exact h1 z (by simpa using hz) w (by rw [← hheadA]; exact hw)

theorem mergeAt_weave (lt : α → α → Bool) (stored : Nat) (a b : List α) (ha : a ≠ [])
    (hb : b ≠ []) : Weave lt a b (mergeAt lt stored a b).1 := by
  match b, hb with
  | y :: b0, hb =>
    simp only [mergeAt]
    obtain ⟨g1, g2, g3⟩ := gallopRight_spec lt y a 0 (List.length_pos.mpr ha)
    generalize gallopRight lt y a 0 = k at g1 g2 g3 ⊢
    have hsplit : a.take k ++ a.drop k = a := List.take_append_drop _ _
    cases hlast : (a.drop k).getLast? with
    | none =>
      simp only []
      have hnil : a.drop k = [] := List.getLast?_eq_none_iff.mp hlast
      have htake : a.take k = a := by rw [← hsplit, hnil, List.append_nil]; simp [hnil]
      rw [htake] at g2
      exact weave_append lt a (y :: b0) (fun x hx z hz => by
        simp at hz; subst hz; exact g2 x hx)
    | some keyLeft =>
      simp only []
      have hne : a.drop k ≠ [] := by
        intro h; rw [h] at hlast; simp at hlast
      have hklt : k < a.length := by
        by_contra hge
        exact hne (List.drop_eq_nil_of_le (by omega))
      have hlastA : a.getLast? = some keyLeft := by
        rw [← getLast?_drop_of_lt a k hklt]; exact hlast
      obtain ⟨q1, q2, q3⟩ := gallopLeft_spec lt keyLeft (y :: b0) ((y :: b0).length - 1)
        (by simp)
      generalize gallopLeft lt keyLeft (y :: b0) ((y :: b0).length - 1) = lengthB at q1 q2 q3 ⊢
      have hsplitB : (y :: b0).take lengthB ++ (y :: b0).drop lengthB = y :: b0 :=
        List.take_append_drop _ _
      by_cases hb1 : ((y :: b0).take lengthB).isEmpty = true
      · simp only [hb1, if_true]
        have hb1' : (y :: b0).take lengthB = [] := List.isEmpty_iff.mp hb1
        have hdropB : (y :: b0).drop lengthB = y :: b0 := by
          rw [hb1'] at hsplitB; simpa using hsplitB
        rw [hdropB] at q3
        exact weave_append lt a (y :: b0) (fun x hx z hz => by
          rw [hlastA] at hx
          have hx1 : keyLeft = x := by simpa using hx
          subst hx1
          exact q3 z hz)
      · simp only [hb1, Bool.false_eq_true, if_false]
        have hb1ne : (y :: b0).take lengthB ≠ [] := fun h => hb1 (by simp [h])
        have hposB : 0 < lengthB := by
          rcases Nat.eq_zero_or_pos lengthB with h | h
          · subst h; simp at hb1ne
          · exact h
        have hheadB : ((y :: b0).take lengthB).head? = some y := by
          rw [head?_take_of_pos _ _ hposB]; rfl
        have hinner : ∀ r : List α × Nat,
            Weave lt (a.drop k) ((y :: b0).take lengthB) r.1 →
            Weave lt a (y :: b0) (a.take k ++ r.1 ++ (y :: b0).drop lengthB) := by
          intro r hw
          have s1 := weave_prepend_left lt (a.take k) _ _ _ hw (fun x hx z hz => by
            rw [hheadB] at hz
            simp at hz
            subst hz
            exact g2 x hx)
          have s2 := weave_append_right lt ((y :: b0).drop lengthB) _ _ _ s1
            (fun z hz x hx => by
              rw [hsplit, hlastA] at hx
              simp at hx
              subst hx
              exact q3 z hz)
          rwa [hsplit, hsplitB] at s2
        have hP1 : ∀ z ∈ ((y :: b0).take lengthB).head?, ∀ x ∈ (a.drop k).head?, lt z x = true := by
          intro z hz x hx
          rw [hheadB] at hz
          simp at hz
          subst hz
          exact g3 x hx
        have hP2 : ∀ z ∈ ((y :: b0).take lengthB).getLast?, ∀ x ∈ (a.drop k).getLast?,
            lt z x = true := by
          intro z hz x hx
          rw [hlast] at hx
          simp at hx
          subst hx
          exact q2 z hz
        split
        · exact hinner _ (mergeLow_weave lt stored _ _ hne hb1ne hP1 hP2)
        · exact hinner _ (mergeHigh_weave lt stored _ _ hne hb1ne hP1 hP2)

end MergeWeave

section WovenRuns

variable {α : Type}

theorem weave_perm (lt : α → α → Bool) (a b out : List α) (h : Weave lt a b out) :
    out.Perm (a ++ b) := by
  obtain ⟨t, h1, h2, h3, _⟩ := h
  subst h1 h2 h3
  have hp := (List.filter_append_perm (fun x : Bool × α => !x.1) t).symm
  have := hp.map Prod.snd
  simpa [leftPart, rightPart] using this

theorem woven_perm (lt : α → α → Bool) (s r : List α) (h : Woven lt s r) : r.Perm s := by
  induction h with
  | single x => exact List.Perm.refl _
  | weave s1 r1 s2 r2 out _ _ hw ih1 ih2 =>
    exact (weave_perm lt r1 r2 out hw).trans (List.Perm.append ih1 ih2)

theorem woven_ne (lt : α → α → Bool) (s r : List α) (h : Woven lt s r) : r ≠ [] := by
  induction h with
  | single x => simp
  | weave s1 r1 s2 r2 out _ _ hw ih1 _ =>
    intro he
    subst he
    have := (weave_perm lt r1 r2 [] hw).symm
    simp at this
    exact ih1 this.1

theorem woven_src_ne (lt : α → α → Bool) (s r : List α) (h : Woven lt s r) : s ≠ [] := by
  intro he
  subst he
  have := woven_perm lt [] r h
  simp at this
  exact woven_ne lt [] r h this

/-- The right run in front of the left run, when the last of the right run
is less than the first of the left run. -/
theorem weave_append_swapped (lt : α → α → Bool) (a b : List α)
    (h : ∀ y ∈ b.getLast?, ∀ x ∈ a.head?, lt y x = true) : Weave lt a b (b ++ a) := by
  refine ⟨b.map (fun x => (true, x)) ++ a.map (fun x => (false, x)), by simp, ?_, ?_, ?_⟩
  · rw [leftPart_append, leftPart_map_false, leftPart_map_true, List.nil_append]
  · rw [rightPart_append, rightPart_map_false, rightPart_map_true, List.append_nil]
  · rw [List.chain'_append]
    refine ⟨chain'_map_tag lt true b, chain'_map_tag lt false a, ?_⟩
    intro u hu v hv
    simp only [List.getLast?_map, List.head?_map, Option.mem_def, Option.map_eq_some'] at hu hv
    obtain ⟨y, hy, rfl⟩ := hu
    obtain ⟨x, hx, rfl⟩ := hv
    exact (cross_right_left lt x y).mpr (h y hy x hx)

theorem woven_of_ascending (lt : α → α → Bool) :
    ∀ s : List α, s ≠ [] → List.Chain' (fun x y => lt y x = false) s → Woven lt s s := by
  intro s
  induction s with
  | nil => intro h; exact absurd rfl h
  | cons x s ih =>
    intro _ hc
    cases s with
    | nil => exact Woven.single x
    | cons y s1 =>
      have hc1 := List.chain'_cons.mp hc
      have hw : Weave lt [x] (y :: s1) ([x] ++ (y :: s1)) :=
        weave_append lt [x] (y :: s1) (fun x1 hx1 y1 hy1 => by
          have e1 : x = x1 := by simpa using hx1
          have e2 : y = y1 := by simpa using hy1
          subst e1 e2
          exact hc1.1)
      exact Woven.weave [x] [x] (y :: s1) (y :: s1) _ (Woven.single x)
        (ih (by simp) hc1.2) hw

theorem woven_of_descending (lt : α → α → Bool) :
    ∀ s : List α, s ≠ [] → List.Chain' (fun x y => lt y x = true) s →
      Woven lt s s.reverse := by
  intro s
  induction s with
  | nil => intro h; exact absurd rfl h
  | cons x s ih =>
    intro _ hc
    cases s with
    | nil => exact Woven.single x
    | cons y s1 =>
      have hc1 := List.chain'_cons.mp hc
      have hw : Weave lt [x] (y :: s1).reverse ((y :: s1).reverse ++ [x]) :=
        weave_append_swapped lt [x] (y :: s1).reverse (fun y1 hy1 x1 hx1 => by
          have e1 : x = x1 := by simpa using hx1
          have e2 : y = y1 := by simpa using hy1
          subst e1 e2
          exact hc1.1)
      have := Woven.weave [x] [x] (y :: s1) (y :: s1).reverse _ (Woven.single x)
        (ih (by simp) hc1.2) hw
      simpa using this

theorem runAscending_chain (lt : α → α → Bool) :
    ∀ (xs : List α) (prev : α),
      List.Chain (fun x y => lt y x = false) prev (xs.take (runAscending lt prev xs)) := by
  intro xs
  induction xs with
  | nil => intro prev; exact List.Chain.nil
  | cons x xs ih =>
    intro prev
    simp only [runAscending]
    cases hc : lt x prev with
    | true => simp
    | false =>
      simp only [Bool.false_eq_true, if_false, List.take_succ_cons]
      exact List.Chain.cons hc (ih x)

theorem runDescending_chain (lt : α → α → Bool) :
    ∀ (xs : List α) (prev : α),
      List.Chain (fun x y => lt y x = true) prev (xs.take (runDescending lt prev xs)) := by
  intro xs
  induction xs with
  | nil => intro prev; exact List.Chain.nil
  | cons x xs ih =>
    intro prev
    simp only [runDescending]
    cases hc : lt x prev with
    | false => simp
    | true =>
      simp only [if_true, List.take_succ_cons]
      exact List.Chain.cons hc (ih x)

theorem countAndMakeRun_woven (lt : α → α → Bool) (l : List α) (hl : l ≠ []) :
    ∃ seg, seg ++ (countAndMakeRun lt l).2 = l ∧ Woven lt seg (countAndMakeRun lt l).1 := by
  match l, hl with
  | [x], _ => exact ⟨[x], rfl, Woven.single x⟩
  | x :: y :: rest, _ =>
    simp only [countAndMakeRun]
    cases hc : lt y x with
    | true =>
      simp only [if_true]
      refine ⟨(x :: y :: rest).take (runDescending lt y rest + 2), List.take_append_drop _ _, ?_⟩
      refine woven_of_descending lt _ (by simp) ?_
      simp only [List.take_succ_cons]
      exact List.chain'_cons.mpr ⟨hc, runDescending_chain lt rest y⟩
    | false =>
      simp only [Bool.false_eq_true, if_false]
      refine ⟨(x :: y :: rest).take (runAscending lt y rest + 2), List.take_append_drop _ _, ?_⟩
      refine woven_of_ascending lt _ (by simp) ?_
      simp only [List.take_succ_cons]
      exact List.chain'_cons.mpr ⟨hc, runAscending_chain lt rest y⟩

theorem insertPivot_weave (lt : α → α → Bool) (sorted : List α) (pivot : α) :
    Weave lt sorted [pivot] (insertPivot lt sorted pivot) := by
  obtain ⟨_, s2, s3⟩ := searchRight_take_drop lt pivot sorted
  simp only [insertPivot]
  generalize searchRight lt pivot sorted sorted.length 0 sorted.length = k at s2 s3
  have h1 : Weave lt (sorted.drop k) [pivot] ([pivot] ++ sorted.drop k) :=
    weave_append_swapped lt _ _ (fun y hy x hx => by
      have e : pivot = y := by simpa using hy
      subst e
      exact s3 x hx)
  have h2 := weave_prepend_left lt (sorted.take k) _ _ _ h1 (fun x hx y hy => by
    have e : pivot = y := by simpa using hy
    subst e
    exact s2 x hx)
  rw [List.take_append_drop] at h2
  exact h2

theorem binaryInsertionSort_woven (lt : α → α → Bool) :
    ∀ (pending s sorted : List α), Woven lt s sorted →
      Woven lt (s ++ pending) (binaryInsertionSort lt sorted pending) := by
  intro pending
  induction pending with
  | nil => intro s sorted h; simpa [binaryInsertionSort] using h
  | cons p ps ih =>
    intro s sorted h
    have h1 : Woven lt (s ++ [p]) (insertPivot lt sorted p) :=
      Woven.weave s sorted [p] [p] _ h (Woven.single p) (insertPivot_weave lt sorted p)
    have := ih (s ++ [p]) _ h1
    simpa [binaryInsertionSort] using this

theorem nextRun_woven (lt : α → α → Bool) (minRun : Nat) (l : List α) (hl : l ≠ []) :
    ∃ seg, seg ++ (nextRun lt minRun l).2 = l ∧ Woven lt seg (nextRun lt minRun l).1 := by
  obtain ⟨seg, h1, h2⟩ := countAndMakeRun_woven lt l hl
  simp only [nextRun]
  split
  · refine ⟨seg ++ (countAndMakeRun lt l).2.take
      (min minRun l.length - (countAndMakeRun lt l).1.length), ?_, ?_⟩
    · rw [List.append_assoc, List.take_append_drop, h1]
    · exact binaryInsertionSort_woven lt _ seg _ h2
  · exact ⟨seg, h1, h2⟩

theorem mergeAt_woven (lt : α → α → Bool) (stored : Nat) (s1 r1 s2 r2 : List α)
    (h1 : Woven lt s1 r1) (h2 : Woven lt s2 r2) :
    Woven lt (s1 ++ s2) (mergeAt lt stored r1 r2).1 :=
  Woven.weave s1 r1 s2 r2 _ h1 h2
    (mergeAt_weave lt stored r1 r2 (woven_ne lt s1 r1 h1) (woven_ne lt s2 r2 h2))

theorem stacked_top (lt : α → α → Bool) (x y : List α) (rest : List (List α)) (src : List α)
    (stored : Nat) (h : Stacked lt (x :: y :: rest) src) :
    Stacked lt ((mergeAt lt stored y x).1 :: rest) src := by
  obtain ⟨s1, sx, e1, h1, hx⟩ := h
  obtain ⟨s0, sy, e0, h0, hy⟩ := h1
  refine ⟨s0, sy ++ sx, ?_, h0, mergeAt_woven lt stored sy y sx x hy hx⟩
  rw [← List.append_assoc, e0, e1]

theorem stacked_below (lt : α → α → Bool) (x y z : List α) (rest : List (List α))
    (src : List α) (stored : Nat) (h : Stacked lt (x :: y :: z :: rest) src) :
    Stacked lt (x :: (mergeAt lt stored z y).1 :: rest) src := by
  obtain ⟨s1, sx, e1, h1, hx⟩ := h
  exact ⟨s1, sx, e1, stacked_top lt y z rest s1 stored h1, hx⟩

theorem mergeCollapse_stacked (lt : α → α → Bool) :
    ∀ (steps stored : Nat) (runs : List (List α)) (src : List α),
      Stacked lt runs src → Stacked lt (mergeCollapse lt steps stored runs).1 src := by
  intro steps
  induction steps with
  | zero => intro stored runs src h; exact h
  | succ n ih =>
    intro stored runs src h
    match runs, h with
    | [], h => exact h
    | [x], h => exact h
    | x :: y :: rest, h =>
      simp only [mergeCollapse]
      split
      · match rest, h with
        | [], h => exact ih _ _ _ (stacked_top lt x y [] src stored h)
        | z :: rest1, h =>
          simp only []
          split
          · exact ih _ _ _ (stacked_below lt x y z rest1 src stored h)
          · exact ih _ _ _ (stacked_top lt x y (z :: rest1) src stored h)
      · split
        · exact ih _ _ _ (stacked_top lt x y rest src stored h)
        · exact h

theorem mergeForceCollapse_woven (lt : α → α → Bool) :
    ∀ (steps stored : Nat) (runs : List (List α)) (src : List α),
      runs.length ≤ steps → src ≠ [] → Stacked lt runs src →
      Woven lt src (mergeForceCollapse lt steps stored runs) := by
  intro steps
  induction steps with
  | zero =>
    intro stored runs src hlen hsrc h
    have : runs = [] := List.length_eq_zero.mp (Nat.le_zero.mp hlen)
    subst this
    exact absurd h hsrc
  | succ n ih =>
    intro stored runs src hlen hsrc h
    match runs, h, hlen with
    | [], h, _ => exact absurd h hsrc
    | [x], h, _ =>
      obtain ⟨s1, s2, e, h1, hx⟩ := h
      have : s1 = [] := h1
      subst this
      simp only [List.nil_append] at e
      subst e
      simpa [mergeForceCollapse] using hx
    | x :: y :: [], h, hlen =>
      simp only [mergeForceCollapse]
      exact ih _ _ _ (by simp at hlen ⊢; omega) hsrc (stacked_top lt x y [] src stored h)
    | x :: y :: z :: rest1, h, hlen =>
      simp only [mergeForceCollapse]
      split
      · exact ih _ _ _ (by simp at hlen ⊢; omega) hsrc
          (stacked_below lt x y z rest1 src stored h)
      · exact ih _ _ _ (by simp at hlen ⊢; omega) hsrc
          (stacked_top lt x y (z :: rest1) src stored h)

theorem stacked_ne (lt : α → α → Bool) (runs : List (List α)) (src : List α)
    (h : Stacked lt runs src) (hsrc : src ≠ []) : runs ≠ [] := by
  intro he
  subst he
  exact hsrc h

theorem timSortLoop_woven (lt : α → α → Bool) (minRun : Nat) (l : List α) (hl : l ≠ []) :
    ∀ (steps stored : Nat) (runs : List (List α)) (done remaining : List α),
      remaining.length ≤ steps → done ++ remaining = l → Stacked lt runs done →
      Woven lt l (timSortLoop lt minRun steps stored runs remaining) := by
  intro steps
  induction steps with
  | zero =>
    intro stored runs done remaining hlen hsplit h
    have : remaining = [] := List.length_eq_zero.mp (Nat.le_zero.mp hlen)
    subst this
    simp only [List.append_nil] at hsplit
    subst hsplit
    simp only [timSortLoop]
    exact mergeForceCollapse_woven lt _ _ _ _ (Nat.le_refl _) hl h
  | succ n ih =>
    intro stored runs done remaining hlen hsplit h
    simp only [timSortLoop]
    by_cases hr : remaining.isEmpty = true
    · simp only [hr, if_true]
      have : remaining = [] := List.isEmpty_iff.mp hr
      subst this
      simp only [List.append_nil] at hsplit
      subst hsplit
      exact mergeForceCollapse_woven lt _ _ _ _ (Nat.le_refl _) hl h
    · simp only [hr, Bool.false_eq_true, if_false]
      have hne : remaining ≠ [] := fun he => hr (by simp [he])
      obtain ⟨seg, e1, hw⟩ := nextRun_woven lt minRun remaining hne
      have hseg : seg ≠ [] := woven_src_ne lt _ _ hw
      refine ih _ _ (done ++ seg) _ ?_ ?_ ?_
      · have := congrArg List.length e1
        have hpos : seg.length ≠ 0 := fun h0 => hseg (List.length_eq_zero.mp h0)
        simp at this
        omega
      · rw [List.append_assoc, e1, hsplit]
      · exact mergeCollapse_stacked lt _ _ _ _ ⟨done, seg, rfl, h, hw⟩

/-- The sort makes its result from the array by merges. -/
theorem timSort_woven (lt : α → α → Bool) (l : List α) (hl : l ≠ []) :
    Woven lt l (timSort lt l) := by
  simp only [timSort]
  split
  · match l, hl with
    | [x], _ => exact Woven.single x
    | x :: y :: rest, _ =>
      rename_i h
      exact absurd h (by simp only [List.length_cons]; omega)
  · exact timSortLoop_woven lt _ l hl _ _ [] [] l (Nat.le_refl _) rfl rfl

end WovenRuns

section SortProperties

variable {α : Type}

theorem leftPart_subset (t : List (Bool × α)) (x : α) (h : x ∈ leftPart t) :
    x ∈ t.map Prod.snd := by
  simp only [leftPart, List.mem_map, List.mem_filter] at h ⊢
  obtain ⟨u, ⟨hu, _⟩, e⟩ := h
  exact ⟨u, hu, e⟩

theorem rightPart_subset (t : List (Bool × α)) (x : α) (h : x ∈ rightPart t) :
    x ∈ t.map Prod.snd := by
  simp only [rightPart, List.mem_map, List.mem_filter] at h ⊢
  obtain ⟨u, ⟨hu, _⟩, e⟩ := h
  exact ⟨u, hu, e⟩

theorem leftPart_cons_false (x : α) (t : List (Bool × α)) :
    leftPart ((false, x) :: t) = x :: leftPart t := by
  simp [leftPart]

theorem leftPart_cons_true (x : α) (t : List (Bool × α)) :
    leftPart ((true, x) :: t) = leftPart t := by
  simp [leftPart]

theorem rightPart_cons_false (x : α) (t : List (Bool × α)) :
    rightPart ((false, x) :: t) = rightPart t := by
  simp [rightPart]

theorem rightPart_cons_true (x : α) (t : List (Bool × α)) :
    rightPart ((true, x) :: t) = x :: rightPart t := by
  simp [rightPart]

/-- A relation that holds between the neighbours of both runs, and between
two elements of different runs as the comparisons of a merge place them,
holds between the neighbours of the merged run. -/
theorem tagged_chain (lt : α → α → Bool) (S : α → α → Prop) :
    ∀ t : List (Bool × α), List.Chain' (Cross lt) t →
      (∀ x ∈ leftPart t, ∀ y ∈ rightPart t, lt y x = false → S x y) →
      (∀ x ∈ leftPart t, ∀ y ∈ rightPart t, lt y x = true → S y x) →
      List.Chain' S (leftPart t) → List.Chain' S (rightPart t) →
      List.Chain' S (t.map Prod.snd) := by
  intro t
  induction t with
  | nil => intro _ _ _ _ _; exact List.chain'_nil
  | cons u t ih =>
    intro hc hAB hBA hL hR
    obtain ⟨bu, xu⟩ := u
    have hct : List.Chain' (Cross lt) t := hc.tail
    cases bu with
    | false =>
      rw [leftPart_cons_false] at hAB hBA hL
      rw [rightPart_cons_false] at hAB hBA hR
      have ih1 := ih hct (fun x hx y hy => hAB x (List.mem_cons_of_mem _ hx) y hy)
        (fun x hx y hy => hBA x (List.mem_cons_of_mem _ hx) y hy) hL.tail hR
      simp only [List.map_cons]
      refine List.chain'_cons'.mpr ⟨?_, ih1⟩
      intro z hz
      cases t with
      | nil => simp at hz
      | cons v t1 =>
        obtain ⟨bv, xv⟩ := v
        have e : xv = z := by simpa using hz
        subst e
        cases bv with
        | false =>
          rw [leftPart_cons_false] at hL
          exact (List.chain'_cons.mp hL).1
        | true =>
          have hcr := (List.chain'_cons.mp hc).1
          rw [rightPart_cons_true] at hAB
          exact hAB xu (List.mem_cons_self _ _) xv (List.mem_cons_self _ _)
            ((cross_left_right lt xu xv).mp hcr)
    | true =>
      rw [leftPart_cons_true] at hAB hBA hL
      rw [rightPart_cons_true] at hAB hBA hR
      have ih1 := ih hct (fun x hx y hy => hAB x hx y (List.mem_cons_of_mem _ hy))
        (fun x hx y hy => hBA x hx y (List.mem_cons_of_mem _ hy)) hL hR.tail
      simp only [List.map_cons]
      refine List.chain'_cons'.mpr ⟨?_, ih1⟩
      intro z hz
      cases t with
      | nil => simp at hz
      | cons v t1 =>
        obtain ⟨bv, xv⟩ := v
        have e : xv = z := by simpa using hz
        subst e
        cases bv with
        | true =>
          rw [rightPart_cons_true] at hR
          exact (List.chain'_cons.mp hR).1
        | false =>
          have hcr := (List.chain'_cons.mp hc).1
          rw [leftPart_cons_false] at hBA
          exact hBA xv (List.mem_cons_self _ _) xu (List.mem_cons_self _ _)
            ((cross_right_left lt xv xu).mp hcr)

theorem weave_chain (lt : α → α → Bool) (S : α → α → Prop) (a b out : List α)
    (hw : Weave lt a b out)
    (hAB : ∀ x ∈ a, ∀ y ∈ b, lt y x = false → S x y)
    (hBA : ∀ x ∈ a, ∀ y ∈ b, lt y x = true → S y x)
    (ha : List.Chain' S a) (hb : List.Chain' S b) : List.Chain' S out := by
  obtain ⟨t, h1, h2, h3, h4⟩ := hw
  subst h1 h2 h3
  exact tagged_chain lt S t h4 hAB hBA ha hb

/-- After an element of the right run, the elements of the left run in a
merged run that is ascending by `key` have a greater key. -/
theorem tagged_left_after (lt : α → α → Bool) (key : α → Int) :
    ∀ (t : List (Bool × α)) (y : α), List.Chain (Cross lt) (true, y) t →
      List.Pairwise (fun a b => key a ≤ key b) (y :: t.map Prod.snd) →
      (∀ a ∈ y :: t.map Prod.snd, ∀ b ∈ y :: t.map Prod.snd,
        lt a b = true → key a < key b) →
      ∀ x ∈ leftPart t, key y < key x := by
  intro t
  induction t with
  | nil => intro y _ _ _ x hx; simp [leftPart] at hx
  | cons v t ih =>
    intro y hc hp hlt x hx
    obtain ⟨bv, xv⟩ := v
    have hc1 := List.chain_cons.mp hc
    simp only [List.map_cons] at hp hlt
    have hp1 := List.pairwise_cons.mp hp
    have hyv : key y ≤ key xv := hp1.1 xv (List.mem_cons_self _ _)
    cases bv with
    | false =>
      have h1 : lt y xv = true := (cross_right_left lt xv y).mp hc1.1
      have h2 : key y < key xv :=
        hlt y (List.mem_cons_self _ _) xv (List.mem_cons_of_mem _ (List.mem_cons_self _ _)) h1
      rw [leftPart_cons_false] at hx
      rcases List.mem_cons.mp hx with e | hx1
      · rw [e]; exact h2
      · have h3 : key xv ≤ key x :=
          (List.pairwise_cons.mp hp1.2).1 x (leftPart_subset t x hx1)
        omega
    | true =>
      rw [leftPart_cons_true] at hx
      have := ih xv hc1.2 hp1.2
        (fun a ha b hb => hlt a (List.mem_cons_of_mem _ ha) b (List.mem_cons_of_mem _ hb)) x hx
      omega

/-- A merged run that is ascending by `key` keeps the elements of one key in
the order left run, right run. -/
theorem tagged_filter (lt : α → α → Bool) (key : α → Int) (p : α → Bool)
    (hp : ∀ a b, p a = true → p b = true → key a = key b) :
    ∀ t : List (Bool × α), List.Chain' (Cross lt) t →
      List.Pairwise (fun a b => key a ≤ key b) (t.map Prod.snd) →
      (∀ a ∈ t.map Prod.snd, ∀ b ∈ t.map Prod.snd, lt a b = true → key a < key b) →
      (t.map Prod.snd).filter p = (leftPart t).filter p ++ (rightPart t).filter p := by
  intro t
  induction t with
  | nil => intro _ _ _; rfl
  | cons u t ih =>
    intro hc hs hlt
    obtain ⟨bu, xu⟩ := u
    simp only [List.map_cons] at hs hlt
    have ih1 := ih hc.tail (List.pairwise_cons.mp hs).2
      (fun a ha b hb => hlt a (List.mem_cons_of_mem _ ha) b (List.mem_cons_of_mem _ hb))
    cases bu with
    | false =>
      rw [leftPart_cons_false, rightPart_cons_false]
      simp only [List.map_cons, List.filter_cons, ih1]
      split <;> simp
    | true =>
      rw [leftPart_cons_true, rightPart_cons_true]
      simp only [List.map_cons, List.filter_cons, ih1]
      cases hpx : p xu with
      | false => simp
      | true =>
        have hnil : (leftPart t).filter p = [] := by
          rw [List.filter_eq_nil_iff]
          intro x hx hpxx
          have h1 := tagged_left_after lt key t xu hc hs hlt x hx
          have h2 := hp xu x hpx hpxx
          omega
        simp [hnil]

theorem chain'_key_pairwise (key : α → Int) (l : List α)
    (h : List.Chain' (fun a b => key a ≤ key b) l) :
    List.Pairwise (fun a b => key a ≤ key b) l := by
  have h1 : List.Chain' (fun a b : Int => a ≤ b) (l.map key) := (List.chain'_map key).mpr h
  have h2 := List.chain'_iff_pairwise.mp h1
  exact List.pairwise_map.mp h2

/-- A run made by merges from a part of the array on which the comparisons
are those of a key is ascending by the key, and keeps the elements of one key
in the order of the array. -/
theorem woven_sorted_stable (lt : α → α → Bool) (key : α → Int) (s r : List α)
    (h : Woven lt s r) (hk : ∀ a ∈ s, ∀ b ∈ s, (lt a b = true ↔ key a < key b)) :
    List.Pairwise (fun a b => key a ≤ key b) r
      ∧ ∀ p : α → Bool, (∀ a b, p a = true → p b = true → key a = key b) →
          r.filter p = s.filter p := by
  induction h with
  | single x => exact ⟨List.pairwise_singleton _ _, fun _ _ => rfl⟩
  | weave s1 r1 s2 r2 out h1 h2 hw ih1 ih2 =>
    have hk1 := ih1 (fun a ha b hb =>
      hk a (List.mem_append_left _ ha) b (List.mem_append_left _ hb))
    have hk2 := ih2 (fun a ha b hb =>
      hk a (List.mem_append_right _ ha) b (List.mem_append_right _ hb))
    have hm1 : ∀ x ∈ r1, x ∈ s1 ++ s2 := fun x hx =>
      List.mem_append_left _ ((woven_perm lt s1 r1 h1).mem_iff.mp hx)
    have hm2 : ∀ x ∈ r2, x ∈ s1 ++ s2 := fun x hx =>
      List.mem_append_right _ ((woven_perm lt s2 r2 h2).mem_iff.mp hx)
    have hmo : ∀ x ∈ out, x ∈ s1 ++ s2 := fun x hx => by
      rcases List.mem_append.mp ((weave_perm lt r1 r2 out hw).mem_iff.mp hx) with h | h
      · exact hm1 x h
      · exact hm2 x h
    have hsorted : List.Pairwise (fun a b => key a ≤ key b) out := by
      refine chain'_key_pairwise key out
        (weave_chain lt _ r1 r2 out hw ?_ ?_ hk1.1.chain' hk2.1.chain')
      · intro x hx y hy hxy
        have := (hk y (hm2 y hy) x (hm1 x hx)).not
        simp only [hxy, Bool.false_eq_true, not_false_eq_true, true_iff] at this
        omega
      · intro x hx y hy hxy
        have := (hk y (hm2 y hy) x (hm1 x hx)).mp hxy
        omega
    refine ⟨hsorted, ?_⟩
    intro p hp
    obtain ⟨t, e1, e2, e3, e4⟩ := hw
    subst e1 e2 e3
    rw [tagged_filter lt key p hp t e4 hsorted
      (fun a ha b hb hab => (hk a (hmo a ha) b (hmo b hb)).mp hab),
      hk1.2 p hp, hk2.2 p hp, List.filter_append]

/-- A run made by merges with a comparison that never holds in both
directions is ascending: no element is less than the one before it. -/
theorem woven_ascending (lt : α → α → Bool) (hanti : ∀ a b, lt a b = true → lt b a = false)
    (s r : List α) (h : Woven lt s r) : List.Chain' (fun x y => lt y x = false) r := by
  induction h with
  | single x => exact List.chain'_singleton x
  | weave s1 r1 s2 r2 out _ _ hw ih1 ih2 =>
    exact weave_chain lt _ r1 r2 out hw (fun _ _ _ _ h => h)
      (fun x _ y _ h => hanti y x h) ih1 ih2

theorem timSort_nil (lt : α → α → Bool) : timSort lt ([] : List α) = [] := by
  simp [timSort]

/-- The sort permutes the array. -/
theorem timSort_perm (lt : α → α → Bool) (l : List α) : (timSort lt l).Perm l := by
  by_cases hl : l = []
  · subst hl; rw [timSort_nil]
  · exact woven_perm lt l _ (timSort_woven lt l hl)

/-- With a comparison that is the one of a key on the elements of the array,
the sorted array is ascending by the key. -/
theorem timSort_sorted (lt : α → α → Bool) (key : α → Int) (l : List α)
    (hk : ∀ a ∈ l, ∀ b ∈ l, (lt a b = true ↔ key a < key b)) :
    List.Pairwise (fun a b => key a ≤ key b) (timSort lt l) := by
  by_cases hl : l = []
  · subst hl; rw [timSort_nil]; exact List.Pairwise.nil
  · exact (woven_sorted_stable lt key l _ (timSort_woven lt l hl) hk).1

/-- With a comparison that is the one of a key on the elements of the array,
the sort is stable: elements of one key keep their order. -/
theorem timSort_filter (lt : α → α → Bool) (key : α → Int) (p : α → Bool) (l : List α)
    (hk : ∀ a ∈ l, ∀ b ∈ l, (lt a b = true ↔ key a < key b))
    (hp : ∀ a b, p a = true → p b = true → key a = key b) :
    (timSort lt l).filter p = l.filter p := by
  by_cases hl : l = []
  · subst hl; rw [timSort_nil]
  · exact (woven_sorted_stable lt key l _ (timSort_woven lt l hl) hk).2 p hp

/-- With a comparison that never holds in both directions, no element of
the sorted array is less than the one before it. -/
theorem timSort_ascending (lt : α → α → Bool) (hanti : ∀ a b, lt a b = true → lt b a = false)
    (l : List α) : List.Chain' (fun x y => lt y x = false) (timSort lt l) := by
  by_cases hl : l = []
  · subst hl; rw [timSort_nil]; exact List.chain'_nil
  · exact woven_ascending lt hanti l _ (timSort_woven lt l hl)

theorem runAscending_full (lt : α → α → Bool) :
    ∀ (xs : List α) (prev : α), List.Chain (fun x y => lt y x = false) prev xs →
      runAscending lt prev xs = xs.length := by
  intro xs
  induction xs with
  | nil => intro _ _; rfl
  | cons x xs ih =>
    intro prev h
    have h1 := List.chain_cons.mp h
    simp [runAscending, h1.1, ih x h1.2]

theorem countAndMakeRun_of_ascending (lt : α → α → Bool) (l : List α)
    (h : List.Chain' (fun x y => lt y x = false) l) : countAndMakeRun lt l = (l, []) := by
  match l, h with
  | [], _ => rfl
  | [x], _ => rfl
  | x :: y :: rest, h =>
    have h1 := List.chain'_cons.mp h
    have h2 : List.Chain (fun x y => lt y x = false) y rest := h1.2
    simp [countAndMakeRun, h1.1, runAscending_full lt rest y h2]

theorem nextRun_of_ascending (lt : α → α → Bool) (minRun : Nat) (l : List α)
    (h : List.Chain' (fun x y => lt y x = false) l) : nextRun lt minRun l = (l, []) := by
  simp only [nextRun, countAndMakeRun_of_ascending lt l h]
  split
  · simp [binaryInsertionSort]
  · rfl

/-- An array in which no element is less than the one before it is one run,
and the sort leaves it as it is. -/
theorem timSort_of_ascending (lt : α → α → Bool) (l : List α)
    (h : List.Chain' (fun x y => lt y x = false) l) : timSort lt l = l := by
  simp only [timSort]
  split
  · rfl
  · rename_i hlen
    match hn : l.length, hlen with
    | 0, hlen => exact absurd hlen (by omega)
    | n + 1, _ =>
      have hne : l.isEmpty = false := by
        cases l with
        | nil => simp at hn
        | cons x xs => rfl
      simp only [timSortLoop, hne, Bool.false_eq_true, if_false, nextRun_of_ascending lt _ l h]
      simp only [List.length_nil, Nat.zero_add]
      have hc1 : mergeCollapse lt 1 kMinGallopWins [l] = ([l], kMinGallopWins) := rfl
      rw [hc1]
      cases n with
      | zero => simp [timSortLoop, mergeForceCollapse]
      | succ m => simp [timSortLoop, mergeForceCollapse]

end SortProperties

theorem jsSort_perm {α : Type} (cmp : α → α → Option Int) (l : List α) :
    (jsSort cmp l).Perm l :=
  timSort_perm _ l

theorem jsSort_pairwise {α : Type} (cmp : α → α → Option Int) (key : α → Int) (l : List α)
    (hk : ∀ a ∈ l, ∀ b ∈ l, (sortOrder (cmp a b) < 0 ↔ key a < key b)) :
    (jsSort cmp l).Pairwise (fun a b => key a ≤ key b) :=
  timSort_sorted _ key l (fun a ha b hb => by simpa using hk a ha b hb)

theorem jsSort_filter {α : Type} (cmp : α → α → Option Int) (key : α → Int)
    (p : α → Bool) (l : List α)
    (hk : ∀ a ∈ l, ∀ b ∈ l, (sortOrder (cmp a b) < 0 ↔ key a < key b))
    (hp : ∀ a b, p a = true → p b = true → key a = key b) :
    (jsSort cmp l).filter p = l.filter p :=
  timSort_filter _ key p l (fun a ha b hb => by simpa using hk a ha b hb) hp

/-- The comparator of the list handler orders two bookings whose date and
time parse by their time values. -/
theorem compareBookings_order (rt : Runtime) (a b : Booking)
    (ha : ∃ t, bookingTime rt a = some t) (hb : ∃ t, bookingTime rt b = some t) :
    sortOrder (compareBookings rt a b) < 0
      ↔ (bookingTime rt a).getD 0 < (bookingTime rt b).getD 0 := by
  obtain ⟨x, hx⟩ := ha
  obtain ⟨y, hy⟩ := hb
  simp [compareBookings, hx, hy, sortOrder]


/-! ## Lemmas on histories -/

theorem availability_ledger (rt : Runtime) (ledger : Ledger) (date : Option String) :
    (availability rt ledger date).2 = ledger := by
  unfold availability
  split
  · rfl
  · dsimp only
    split
    · rfl
    · split <;> rfl

theorem createBooking_ledger (now created : Nat) (ledger : Ledger) (body : BookingRequest) :
    (createBooking now created ledger body).2
      = ledger ++ insertedBy (.book now created body) := by
  by_cases hc : (falsy body.name || falsy body.email || falsy body.date || falsy body.time) = true
  · simp [createBooking, insertedBy, hc]
  · simp [createBooking, insertedBy, hc]

/-- The sort of the list handler on a ledger whose bookings all parse: a
permutation, ascending by time value, and every selection of bookings that
share their time value is kept in order. -/
theorem listBookings_of_parsed (rt : Runtime) (ledger : Ledger)
    (h : ∀ b ∈ ledger, (bookingTime rt b).isSome = true) :
    (jsSort (compareBookings rt) ledger).Perm ledger
      ∧ (jsSort (compareBookings rt) ledger).Pairwise
          (fun a b => ∃ x y, bookingTime rt a = some x ∧ bookingTime rt b = some y ∧ x ≤ y)
      ∧ ∀ p : Booking → Bool,
          (∀ a b, p a = true → p b = true → bookingTime rt a = bookingTime rt b) →
          (jsSort (compareBookings rt) ledger).filter p = ledger.filter p := by
  have hsome : ∀ b ∈ ledger, ∃ t, bookingTime rt b = some t := fun b hb =>
    Option.isSome_iff_exists.mp (h b hb)
  have hk : ∀ a ∈ ledger, ∀ b ∈ ledger,
      (sortOrder (compareBookings rt a b) < 0
        ↔ (bookingTime rt a).getD 0 < (bookingTime rt b).getD 0) :=
    fun a ha b hb => compareBookings_order rt a b (hsome a ha) (hsome b hb)
  have hperm := jsSort_perm (compareBookings rt) ledger
  refine ⟨hperm, ?_, ?_⟩
  · refine List.Pairwise.imp_of_mem ?_
      (jsSort_pairwise (compareBookings rt) (fun b => (bookingTime rt b).getD 0) ledger hk)
    intro a b ha hb hab
    obtain ⟨x, hx⟩ := hsome a (hperm.mem_iff.mp ha)
    obtain ⟨y, hy⟩ := hsome b (hperm.mem_iff.mp hb)
    refine ⟨x, y, hx, hy, ?_⟩
    simpa [hx, hy] using hab
  · intro p hp
    exact jsSort_filter (compareBookings rt) (fun b => (bookingTime rt b).getD 0) p ledger hk
      (fun a b ha hb => by simp only [hp a b ha hb])

/-- Along a history whose created records all parse, the array is a
permutation of the created records, and every selection of bookings that
share their time value is in the order of insertion. -/
theorem foldl_step_invariant (rt : Runtime) (requests : List Request) :
    ∀ ledger ins : List Booking,
      ledger.Perm ins →
      (∀ p : Booking → Bool,
        (∀ a b, p a = true → p b = true → bookingTime rt a = bookingTime rt b) →
        ledger.filter p = ins.filter p) →
      (∀ b ∈ ins ++ inserted requests, (bookingTime rt b).isSome = true) →
      (requests.foldl (step rt) ledger).Perm (ins ++ inserted requests)
        ∧ ∀ p : Booking → Bool,
            (∀ a b, p a = true → p b = true → bookingTime rt a = bookingTime rt b) →
            (requests.foldl (step rt) ledger).filter p = (ins ++ inserted requests).filter p := by
  induction requests with
  | nil =>
    intro ledger ins hperm hfil _
    simpa [inserted] using And.intro hperm hfil
  | cons r rs ih =>
    intro ledger ins hperm hfil hparse
    have hassoc : ins ++ inserted (r :: rs) = (ins ++ insertedBy r) ++ inserted rs := by
      simp [inserted, List.append_assoc]
    rw [hassoc] at hparse ⊢
    rw [List.foldl_cons]
    cases r with
    | availability date =>
      have e : step rt ledger (.availability date) = ledger := availability_ledger rt ledger date
      rw [e]
      have e2 : ins ++ insertedBy (.availability date) = ins := by simp [insertedBy]
      rw [e2] at hparse ⊢
      exact ih ledger ins hperm hfil hparse
    | book now created body =>
      have e : step rt ledger (.book now created body)
          = ledger ++ insertedBy (.book now created body) :=
        createBooking_ledger now created ledger body
      rw [e]
      refine ih _ _ (hperm.append_right _) ?_ hparse
      intro p hp
      rw [List.filter_append, List.filter_append, hfil p hp]
    | list =>
      have e : step rt ledger .list = jsSort (compareBookings rt) ledger := rfl
      rw [e]
      have e2 : ins ++ insertedBy .list = ins := by simp [insertedBy]
      rw [e2] at hparse ⊢
      have hl : ∀ b ∈ ledger, (bookingTime rt b).isSome = true := fun b hb =>
        hparse b (List.mem_append_left _ (hperm.mem_iff.mp hb))
      obtain ⟨h1, -, h3⟩ := listBookings_of_parsed rt ledger hl
      refine ih _ _ (h1.trans hperm) ?_ hparse
      intro p hp
      rw [h3 p hp, hfil p hp]

theorem run_invariant (rt : Runtime) (requests : List Request)
    (h : ∀ b ∈ inserted requests, (bookingTime rt b).isSome = true) :
    (run rt requests).Perm (inserted requests)
      ∧ ∀ p : Booking → Bool,
          (∀ a b, p a = true → p b = true → bookingTime rt a = bookingTime rt b) →
          (run rt requests).filter p = (inserted requests).filter p := by
  have := foldl_step_invariant rt requests [] [] (List.Perm.refl _) (fun _ _ => rfl)
    (by simpa using h)
  simpa [run] using this

/-- Bookings with the same date and the same time have the same time value. -/
theorem bookingTime_of_same_slot (rt : Runtime) (d t : Option String) (a b : Booking)
    (ha : (a.date == d && a.time == t) = true) (hb : (b.date == d && b.time == t) = true) :
    bookingTime rt a = bookingTime rt b := by
  simp only [Bool.and_eq_true, beq_iff_eq] at ha hb
  simp [bookingTime, ha.1, ha.2, hb.1, hb.2]

/-! ## Theorems on the list handler -/

/-- C5 (amended). For every ledger whose bookings all have a date and a time
that parse (`date + ' ' + time` is a valid date), the list handler replies
with a permutation of the ledger that is ascending by the time value of date
and time, in which the bookings with one and the same date and time keep the
order they have in the ledger, and it leaves the array in that order. Along
every history of requests from a fresh process whose created bookings all
parse, the reply lists the created bookings ascending by time value, and the
bookings with one and the same date and time appear in the order of their
insertion. -/
theorem listBookings_sorted_stable (rt : Runtime) :
    (∀ ledger : Ledger, (∀ b ∈ ledger, (bookingTime rt b).isSome = true) →
        (listBookings rt ledger).1.bookings.Perm ledger
          ∧ (listBookings rt ledger).1.bookings.Pairwise
              (fun a b => ∃ x y, bookingTime rt a = some x ∧ bookingTime rt b = some y ∧ x ≤ y)
          ∧ (∀ d t : Option String,
              (listBookings rt ledger).1.bookings.filter (fun b => b.date == d && b.time == t)
                = ledger.filter (fun b => b.date == d && b.time == t))
          ∧ (listBookings rt ledger).2 = (listBookings rt ledger).1.bookings)
      ∧ (∀ requests : List Request,
          (∀ b ∈ inserted requests, (bookingTime rt b).isSome = true) →
          (listBookings rt (run rt requests)).1.bookings.Perm (inserted requests)
            ∧ (listBookings rt (run rt requests)).1.bookings.Pairwise
                (fun a b => ∃ x y, bookingTime rt a = some x ∧ bookingTime rt b = some y ∧ x ≤ y)
            ∧ (∀ d t : Option String,
                (listBookings rt (run rt requests)).1.bookings.filter
                    (fun b => b.date == d && b.time == t)
                  = (inserted requests).filter (fun b => b.date == d && b.time == t))) := by
  constructor
  · intro ledger h
    obtain ⟨h1, h2, h3⟩ := listBookings_of_parsed rt ledger h
    exact ⟨h1, h2, fun d t => h3 _ (fun a b => bookingTime_of_same_slot rt d t a b), rfl⟩
  · intro requests h
    obtain ⟨r1, r2⟩ := run_invariant rt requests h
    have hl : ∀ b ∈ run rt requests, (bookingTime rt b).isSome = true := fun b hb =>
      h b (r1.mem_iff.mp hb)
    obtain ⟨h1, h2, h3⟩ := listBookings_of_parsed rt (run rt requests) hl
    refine ⟨h1.trans r1, h2, fun d t => ?_⟩
    have hp := fun a b => bookingTime_of_same_slot rt d t a b
    exact (h3 _ hp).trans (r2 _ hp)

/-- Witness of C5 (amended): a booking for 3 June, a booking for 2 June at
09:00, a listing, and a second booking for 2 June at 09:00; the next listing
gives the two bookings for 2 June in the order of insertion, then the one
for 3 June. -/
theorem listBookings_sorted_stable_witness :
    (∀ b ∈ inserted tiedHistory, (bookingTime referenceRuntime b).isSome = true)
      ∧ (listBookings referenceRuntime (run referenceRuntime tiedHistory)).1.bookings.map
            (fun b => (b.id, b.date, b.time))
          = [("1748000000002", some "2025-06-02", some "09:00"),
             ("1748000000003", some "2025-06-02", some "09:00"),
             ("1748000000001", some "2025-06-03", some "09:00")]
      ∧ (listBookings referenceRuntime (run referenceRuntime tiedHistory)).1.bookings.Perm
            (inserted tiedHistory)
      ∧ (listBookings referenceRuntime (run referenceRuntime tiedHistory)).1.bookings.Pairwise
            (fun a b => ∃ x y, bookingTime referenceRuntime a = some x
              ∧ bookingTime referenceRuntime b = some y ∧ x ≤ y)
      ∧ (∀ d t : Option String,
          (listBookings referenceRuntime (run referenceRuntime tiedHistory)).1.bookings.filter
              (fun b => b.date == d && b.time == t)
            = (inserted tiedHistory).filter (fun b => b.date == d && b.time == t)) :=
  ⟨by decide, by decide,
    (listBookings_sorted_stable referenceRuntime).2 tiedHistory (by decide)⟩

/-- Counterexample to C5 as stated: after the bookings for 3 June, for the
date "soon" and for 2 June, made in this order, the list handler replies with
the three in the order of insertion, the booking for 3 June before the one
for 2 June: the comparator gives `NaN` against the booking whose date does
not parse, so each booking compares as equal to its neighbour and the sort
moves nothing. -/
theorem listBookings_unsorted :
    (listBookings referenceRuntime (run referenceRuntime mixedHistory)).1.bookings.map
          (fun b => (b.date, b.time))
        = [(some "2025-06-03", some "09:00"), (some "soon", some "x"),
           (some "2025-06-02", some "09:00")]
      ∧ ¬ List.Pairwise (fun a b => chronLE referenceRuntime a b = true)
          (listBookings referenceRuntime (run referenceRuntime mixedHistory)).1.bookings := by
  constructor <;> decide


/-! ## Lemmas on identifiers -/

theorem digitChar_value (k : Nat) (hk : k < 10) : (Nat.digitChar k).toNat - 48 = k := by
  interval_cases k <;> rfl

theorem toDigitsCore_value (fuel : Nat) :
    ∀ (n : Nat) (ds : List Char), n < fuel →
      (Nat.toDigitsCore 10 fuel n ds).foldl (fun a c => 10 * a + (c.toNat - 48)) 0
        = ds.foldl (fun a c => 10 * a + (c.toNat - 48)) n := by
  induction fuel with
  | zero => intro n ds h; exact absurd h (Nat.not_lt_zero _)
  | succ fuel ih =>
    intro n ds h
    simp only [Nat.toDigitsCore]
    split
    · rename_i h0
      have hn : n < 10 := by
        by_contra hc
        have : 1 ≤ n / 10 := (Nat.le_div_iff_mul_le (by decide)).mpr (by omega)
        omega
      simp only [List.foldl_cons, digitChar_value _ (Nat.mod_lt _ (by decide))]
      rw [Nat.mod_eq_of_lt hn]
      simp
    · rename_i h0
      have hlt : n / 10 < fuel := by
        have : n / 10 < n := Nat.div_lt_self (by
          rcases Nat.eq_zero_or_pos n with h1 | h1
          · subst h1; simp at h0
          · exact h1) (by decide)
        omega
      rw [ih (n / 10) _ hlt]
      simp only [List.foldl_cons, digitChar_value _ (Nat.mod_lt _ (by decide))]
      congr 1
      omega

theorem toString_nat_injective : Function.Injective (fun n : Nat => toString n) := by
  intro a b h
  have h1 : Nat.toDigits 10 a = Nat.toDigits 10 b := by
    have h2 : (Nat.toDigits 10 a).asString = (Nat.toDigits 10 b).asString := h
    exact congrArg String.data h2
  have ha := toDigitsCore_value (a + 1) a [] (Nat.lt_succ_self _)
  have hb := toDigitsCore_value (b + 1) b [] (Nat.lt_succ_self _)
  simp only [List.foldl_nil] at ha hb
  unfold Nat.toDigits at h1
  rw [h1] at ha
  omega


theorem foldl_step_perm (rt : Runtime) (requests : List Request) :
    ∀ ledger ins : List Booking, ledger.Perm ins →
      (requests.foldl (step rt) ledger).Perm (ins ++ inserted requests) := by
  induction requests with
  | nil =>
    intro ledger ins hperm
    simpa [inserted] using hperm
  | cons r rs ih =>
    intro ledger ins hperm
    have hassoc : ins ++ inserted (r :: rs) = (ins ++ insertedBy r) ++ inserted rs := by
      simp [inserted, List.append_assoc]
    rw [hassoc, List.foldl_cons]
    refine ih _ _ ?_
    cases r with
    | availability date =>
      have e : step rt ledger (.availability date) = ledger := availability_ledger rt ledger date
      simpa [e, insertedBy] using hperm
    | book now created body =>
      have e : step rt ledger (.book now created body)
          = ledger ++ insertedBy (.book now created body) :=
        createBooking_ledger now created ledger body
      rw [e]
      exact hperm.append_right _
    | list =>
      have e : step rt ledger .list = jsSort (compareBookings rt) ledger := rfl
      rw [e]
      simpa [insertedBy] using (jsSort_perm (compareBookings rt) ledger).trans hperm

/-- The array is at every moment a permutation of the records created so
far. -/
theorem run_perm_inserted (rt : Runtime) (requests : List Request) :
    (run rt requests).Perm (inserted requests) := by
  simpa [run] using foldl_step_perm rt requests [] [] (List.Perm.refl _)

theorem insertedBy_ids (r : Request) :
    ((insertedBy r).map (fun b => b.id)).Sublist ((clockReading r).map (fun n => toString n)) := by
  cases r with
  | availability date => simp [insertedBy, clockReading]
  | list => simp [insertedBy, clockReading]
  | book now created body =>
    by_cases hc :
        (falsy body.name || falsy body.email || falsy body.date || falsy body.time) = true
    · simp [insertedBy, clockReading, createBooking, hc]
    · simp [insertedBy, clockReading, createBooking, hc]

theorem inserted_ids (requests : List Request) :
    ((inserted requests).map (fun b => b.id)).Sublist
      ((clockReadings requests).map (fun n => toString n)) := by
  induction requests with
  | nil => simp [inserted, clockReadings]
  | cons r rs ih =>
    simp only [inserted, clockReadings, List.map_append]
    exact (insertedBy_ids r).append ih

/-! ## Theorems on identifiers -/

/-- C11 (amended). After any sequence of requests to the router from a fresh
process in which the readings of the clock at the successful book requests
are strictly increasing, any two distinct records of the ledger have
different ids. -/
theorem booking_ids_unique (rt : Runtime) (requests : List Request)
    (h : (clockReadings requests).Pairwise (fun m n => m < n)) :
    (run rt requests).Pairwise (fun a b => a.id ≠ b.id) := by
  have hnodup : (clockReadings requests).Nodup := h.imp (fun hlt => Nat.ne_of_lt hlt)
  have h1 : ((clockReadings requests).map (fun n => toString n)).Nodup :=
    hnodup.map toString_nat_injective
  have h2 : ((inserted requests).map (fun b => b.id)).Nodup := h1.sublist (inserted_ids requests)
  have h3 : ((run rt requests).map (fun b => b.id)).Nodup :=
    ((run_perm_inserted rt requests).map _).nodup_iff.mpr h2
  exact List.pairwise_map.mp h3

/-- Witness of C11 (amended): three bookings at three successive
milliseconds, with a listing in between. -/
theorem booking_ids_unique_witness :
    (clockReadings tiedHistory).Pairwise (fun m n => m < n)
      ∧ (run referenceRuntime tiedHistory).length = 3
      ∧ (run referenceRuntime tiedHistory).Pairwise (fun a b => a.id ≠ b.id) :=
  ⟨by decide, by decide, booking_ids_unique referenceRuntime tiedHistory (by decide)⟩

/-- Counterexample to C11 as stated: two successful bookings for different
slots whose clock readings are equal, hence non-decreasing; the ledger holds
two distinct records with the same id. -/
theorem booking_ids_collide :
    (clockReadings collidingHistory).Pairwise (fun m n => m ≤ n)
      ∧ (run referenceRuntime collidingHistory).Nodup
      ∧ (run referenceRuntime collidingHistory).map (fun b => (b.id, b.date, b.time))
          = [("1748000000001", some "2025-06-02", some "09:00"),
             ("1748000000001", some "2025-06-03", some "10:00")]
      ∧ ¬ (run referenceRuntime collidingHistory).Pairwise (fun a b => a.id ≠ b.id) := by
  refine ⟨by decide, by decide, by decide, by decide⟩


/-! ## Theorems on failures of the external call -/

/-- C12 (amended). For `stabilityai` (also the default) and `runway`, when
the external call of the adapter rejects, or reading the result field from
the body of the response throws, `generateVideo` fails too and returns no
result, and the failure it raises is the underlying error itself, thrown
again unchanged by the `catch` block: nothing, in particular no provider
name, is added to it. The effects are the first console line, the billing
entry, the one external call and the logged error. -/
theorem generateVideo_rethrows (http : HttpClient) (env : Env) (now : Nat) (prompt : String)
    (options : GenerateOptions) (e : JsError) :
    (options.provider = none ∨ options.provider = some "stabilityai" →
        http (stabilityRequest env prompt) = .error e
          ∨ (∃ data, http (stabilityRequest env prompt) = .ok data
              ∧ stabilityArtifact data = .error e) →
        generateVideo http env now prompt options
          = (.error e,
             [.consoleLog ("Generating video with stabilityai for client "
                ++ jsString options.clientId),
              .billingLog { clientId := options.clientId, provider := "stabilityai",
                            cost := some stabilityai.costPerVideo, timestamp := now,
                            status := "initiated" },
              .httpPost (stabilityRequest env prompt),
              .consoleError e]))
      ∧ (options.provider = some "runway" →
        http (runwayRequest env prompt (options.duration.getD 4)) = .error e
          ∨ (∃ data, http (runwayRequest env prompt (options.duration.getD 4)) = .ok data
              ∧ runwayTaskId data = .error e) →
        generateVideo http env now prompt options
          = (.error e,
             [.consoleLog ("Generating video with runway for client "
                ++ jsString options.clientId),
              .billingLog { clientId := options.clientId, provider := "runway",
                            cost := some runway.costPerVideo, timestamp := now,
                            status := "initiated" },
              .httpPost (runwayRequest env prompt (options.duration.getD 4)),
              .consoleError e])) := by
  constructor
  · intro hp hfail
    have hname : options.provider.getD "stabilityai" = "stabilityai" := by
      rcases hp with hp | hp <;> simp [hp]
    rcases hfail with hfail | ⟨data, hdata, hread⟩
    · simp [generateVideo, generateVideoTry, lookupCost, lookupProvider, hname, providers,
        List.lookup, logVideoRequest, generateWithStability, hfail]
    · unfold stabilityArtifact at hread
      simp [generateVideo, generateVideoTry, lookupCost, lookupProvider, hname, providers,
        List.lookup, logVideoRequest, generateWithStability, hdata, hread]
  · intro hp hfail
    have hname : options.provider.getD "stabilityai" = "runway" := by simp [hp]
    rcases hfail with hfail | ⟨data, hdata, hread⟩
    · simp [generateVideo, generateVideoTry, lookupCost, lookupProvider, hname, providers,
        List.lookup, logVideoRequest, generateWithRunway, hfail]
    · unfold runwayTaskId at hread
      simp [generateVideo, generateVideoTry, lookupCost, lookupProvider, hname, providers,
        List.lookup, logVideoRequest, generateWithRunway, hdata, hread]

/-- Witness of C12 (amended): with a client whose requests fail in the
network `generateVideo` for `stabilityai` rejects with that failure, and with
a client that answers with the empty object `generateVideo` for `runway`
rejects with the TypeError of reading `id` of `undefined`. -/
theorem generateVideo_rethrows_witness :
    (generateVideo failingClient ⟨none, none⟩ 0 "sunset drone shot"
        (optionsFor "stabilityai")).1 = .error (.requestFailed "socket hang up")
      ∧ (generateVideo emptyBodyClient ⟨none, none⟩ 0 "sunset drone shot"
        (optionsFor "runway")).1
          = .error (.typeError "Cannot read properties of undefined (reading \x27id\x27)") := by
  constructor
  · rw [(generateVideo_rethrows failingClient ⟨none, none⟩ 0 "sunset drone shot"
      (optionsFor "stabilityai") (.requestFailed "socket hang up")).1 (Or.inr rfl)
      (Or.inl rfl)]
  · rw [(generateVideo_rethrows emptyBodyClient ⟨none, none⟩ 0 "sunset drone shot"
      (optionsFor "runway")
      (.typeError "Cannot read properties of undefined (reading \x27id\x27)")).2 rfl
      (Or.inr ⟨.obj [], rfl, rfl⟩)]

/-- Counterexample to C12 as stated: with a body whose artifact has no
`base64` and whose task has no `id`, `generateVideo` does not fail: it
returns a result with an undefined `videoUrl` for `stabilityai` and with an
undefined `taskId` for `runway`. When the external call fails in the network,
the failure raised for `stabilityai` and the one raised for `runway` are the
same value, the error of the client, so the failure does not name the
provider. -/
theorem generateVideo_malformed_body_result :
    (generateVideo partialBodyClient ⟨none, none⟩ 0 "sunset drone shot"
        (optionsFor "stabilityai")).1 = .ok (.video .undefined "stabilityai" (1 / 2) 4)
      ∧ (generateVideo partialBodyClient ⟨none, none⟩ 0 "sunset drone shot"
        (optionsFor "runway")).1 = .ok (.task .undefined "runway" 5 "processing")
      ∧ (generateVideo failingClient ⟨none, none⟩ 0 "sunset drone shot"
        (optionsFor "stabilityai")).1
          = (generateVideo failingClient ⟨none, none⟩ 0 "sunset drone shot"
              (optionsFor "runway")).1
      ∧ (generateVideo failingClient ⟨none, none⟩ 0 "sunset drone shot"
        (optionsFor "runway")).1 = .error (.requestFailed "socket hang up") :=
  ⟨rfl, rfl, rfl, rfl⟩


/-! ## Lemmas on repeated sorting -/

/-- The test `< 0` on the comparator of the list handler never holds in both
directions. -/
theorem compareBookings_anti (rt : Runtime) (a b : Booking)
    (h : sortOrder (compareBookings rt a b) < 0) :
    ¬ sortOrder (compareBookings rt b a) < 0 := by
  unfold compareBookings sortOrder at *
  cases hx : bookingTime rt a <;> cases hy : bookingTime rt b <;> simp [hx, hy] at h ⊢
  omega

/-- The order of the list handler on a ledger with a booking whose date is no
date: the run 2 June, 1 June is descending and is reversed, the booking with
no date compares as equal to every other and is inserted at the end, and the
second booking for 1 June is inserted after the first. A second call gives
the same order. -/
theorem listBookings_unparsed_order :
    (listBookings referenceRuntime (run referenceRuntime unparsedHistory)).1.bookings.map
          (fun b => b.id)
        = ["1748000000002", "1748000000004", "1748000000001", "1748000000003"]
      ∧ (listBookings referenceRuntime
            (listBookings referenceRuntime (run referenceRuntime unparsedHistory)).2).1.bookings.map
          (fun b => b.id)
        = ["1748000000002", "1748000000004", "1748000000001", "1748000000003"] := by
  constructor <;> decide

/-- The list handler sorts a sorted array into itself: in the sorted array
no booking compares less than the one before it, so the sort finds one run,
the whole array. -/
theorem jsSort_compareBookings_idem (rt : Runtime) (ledger : Ledger) :
    jsSort (compareBookings rt) (jsSort (compareBookings rt) ledger)
      = jsSort (compareBookings rt) ledger :=
  timSort_of_ascending _ _ (timSort_ascending _ (fun a b h => by
    have h1 := compareBookings_anti rt a b (by simpa using h)
    simpa using h1) ledger)

/-! ## Theorems on the ledger as a whole -/

/-- C13. No handler of the booking router deletes or alters a booking: an
availability query leaves the ledger exactly as it was; the book handler
leaves the ledger as it was or adds records at its end; the list handler
leaves a permutation of the ledger; and after each of the three requests
every record is on the ledger, unchanged, at least as often as before. -/
theorem router_keeps_bookings (rt : Runtime) (ledger : Ledger) :
    (∀ date : Option String, (availability rt ledger date).2 = ledger)
      ∧ (∀ (now created : Nat) (body : BookingRequest),
          ∃ added : List Booking, (createBooking now created ledger body).2 = ledger ++ added)
      ∧ (listBookings rt ledger).2.Perm ledger
      ∧ (∀ (request : Request) (b : Booking),
          ledger.count b ≤ (step rt ledger request).count b
            ∧ (b ∈ ledger → b ∈ step rt ledger request)) := by
  refine ⟨availability_ledger rt ledger, fun now created body =>
    ⟨_, createBooking_ledger now created ledger body⟩, jsSort_perm _ ledger, ?_⟩
  intro request b
  have hcount : ledger.count b ≤ (step rt ledger request).count b := by
    cases request with
    | availability date =>
      have e : step rt ledger (.availability date) = ledger := availability_ledger rt ledger date
      rw [e]
    | book now created body =>
      have e : step rt ledger (.book now created body)
          = ledger ++ insertedBy (.book now created body) :=
        createBooking_ledger now created ledger body
      rw [e, List.count_append]
      exact Nat.le_add_right _ _
    | list =>
      have e : step rt ledger .list = jsSort (compareBookings rt) ledger := rfl
      rw [e, (jsSort_perm (compareBookings rt) ledger).count_eq]
  refine ⟨hcount, fun hb => ?_⟩
  have hpos : 0 < ledger.count b := List.count_pos_iff.mpr hb
  exact List.count_pos_iff.mp (lt_of_lt_of_le hpos hcount)

/-- C14. For every ledger, a second call of the list handler, with no
booking created since the first (availability queries may come in between),
replies with the same sequence of bookings as the first, and leaves the array
as the first left it. -/
theorem listBookings_repeat (rt : Runtime) (ledger : Ledger) :
    listBookings rt (listBookings rt ledger).2 = listBookings rt ledger
      ∧ (∀ date : Option String,
          listBookings rt (availability rt (listBookings rt ledger).2 date).2
            = listBookings rt ledger) := by
  have h : listBookings rt (listBookings rt ledger).2 = listBookings rt ledger := by
    simp only [listBookings, jsSort_compareBookings_idem]
  refine ⟨h, fun date => ?_⟩
  rw [availability_ledger, h]


/-! ## Theorems on the book handler on an arbitrary JSON body -/

theorem jsFalsy_iff (v : JsVal) :
    jsFalsy v = true
      ↔ v = .undefined ∨ v = .null ∨ v = .bool false ∨ v = .num 0 ∨ v = .str "" := by
  cases v with
  | undefined => simp [jsFalsy]
  | null => simp [jsFalsy]
  | bool b => cases b <;> simp [jsFalsy]
  | num n => simp [jsFalsy]
  | str s => simp [jsFalsy]
  | arr items => simp [jsFalsy]
  | obj fields => simp [jsFalsy]

theorem jsFalsy_fieldValue (v : Option String) : jsFalsy (fieldValue v) = falsy v := by
  cases v with
  | none => rfl
  | some s => rfl

/-- On a body whose fields are strings or absent, the book handler on JSON
bodies is `createBooking`. -/
theorem createBookingJson_of_strings (now created : Nat) (ledger : Ledger)
    (body : BookingRequest) :
    createBookingJson now created (ledger.map Booking.toJson) body.toJson
      = ((createBooking now created ledger body).1.toJson,
         (createBooking now created ledger body).2.map Booking.toJson) := by
  by_cases hc : (falsy body.name || falsy body.email || falsy body.date || falsy body.time) = true
  · simp [createBookingJson, createBooking, BookingRequest.toJson, jsFalsy_fieldValue, hc,
      BookReply.toJson]
  · simp [createBookingJson, createBooking, BookingRequest.toJson, jsFalsy_fieldValue, hc,
      BookReply.toJson, Booking.toJson]

/-- C3 (amended). The book handler fails, with status 400, success false and
no booking, exactly when one of name, email, date, time is rejected by the
test `!v`, that is, is absent, `null`, `false`, the number 0 or the empty
string, whatever the ledger holds; whenever it fails the ledger is left as it
was; a request it accepts is accepted also when the ledger already holds a
booking for its date and time; and for a body whose four required fields are
strings or absent it fails exactly when one of them is absent or empty. -/
theorem createBookingJson_fails_iff (now created : Nat) (ledger : List JsonBooking)
    (body : JsonBookingRequest) :
    ((createBookingJson now created ledger body).1.success = false
        ↔ (body.name = .undefined ∨ body.name = .null ∨ body.name = .bool false
            ∨ body.name = .num 0 ∨ body.name = .str "")
          ∨ (body.email = .undefined ∨ body.email = .null ∨ body.email = .bool false
            ∨ body.email = .num 0 ∨ body.email = .str "")
          ∨ (body.date = .undefined ∨ body.date = .null ∨ body.date = .bool false
            ∨ body.date = .num 0 ∨ body.date = .str "")
          ∨ (body.time = .undefined ∨ body.time = .null ∨ body.time = .bool false
            ∨ body.time = .num 0 ∨ body.time = .str ""))
      ∧ ((createBookingJson now created ledger body).1.success = false →
          (createBookingJson now created ledger body).1.status = 400
            ∧ (createBookingJson now created ledger body).1.message
                = "Name, email, date, and time are required"
            ∧ (createBookingJson now created ledger body).1.booking.isNone = true
            ∧ (createBookingJson now created ledger body).2 = ledger)
      ∧ ((createBookingJson now created ledger body).1.success = true →
          ∀ prior : JsonBooking, prior.date = body.date → prior.time = body.time →
            (createBookingJson now created (ledger ++ [prior]) body).1.success = true)
      ∧ (∀ name email date time : Option String,
          body.name = fieldValue name → body.email = fieldValue email →
          body.date = fieldValue date → body.time = fieldValue time →
          ((createBookingJson now created ledger body).1.success = false
            ↔ (name = none ∨ name = some "") ∨ (email = none ∨ email = some "")
              ∨ (date = none ∨ date = some "") ∨ (time = none ∨ time = some ""))) := by
  have hguard : ∀ l : List JsonBooking,
      ((createBookingJson now created l body).1.success = false
        ↔ (jsFalsy body.name || jsFalsy body.email || jsFalsy body.date
            || jsFalsy body.time) = true) := by
    intro l
    by_cases hc :
        (jsFalsy body.name || jsFalsy body.email || jsFalsy body.date || jsFalsy body.time) = true
    · simp [createBookingJson, hc]
    · simp only [createBookingJson, hc]
      simp
  have hsplit : (jsFalsy body.name || jsFalsy body.email || jsFalsy body.date
        || jsFalsy body.time) = true
      ↔ jsFalsy body.name = true ∨ jsFalsy body.email = true ∨ jsFalsy body.date = true
          ∨ jsFalsy body.time = true := by
    simp [Bool.or_eq_true, or_assoc]
  refine ⟨?_, ?_, ?_, ?_⟩
  · rw [hguard ledger, hsplit, jsFalsy_iff, jsFalsy_iff, jsFalsy_iff, jsFalsy_iff]
  · intro hfail
    have hc := (hguard ledger).mp hfail
    simp [createBookingJson, hc]
  · intro hok prior _ _
    have h1 : ¬ (createBookingJson now created ledger body).1.success = false := by
      rw [hok]; simp
    have h2 : ¬ (createBookingJson now created (ledger ++ [prior]) body).1.success = false :=
      fun h => h1 ((hguard ledger).mpr ((hguard _).mp h))
    simpa using h2
  · intro name email date time hn he hd ht
    have hf : ∀ v : Option String, falsy v = true ↔ (v = none ∨ v = some "") := by
      intro v
      cases v with
      | none => simp [falsy]
      | some s => simp [falsy]
    rw [hguard ledger, hsplit, hn, he, hd, ht, jsFalsy_fieldValue, jsFalsy_fieldValue,
      jsFalsy_fieldValue, jsFalsy_fieldValue, hf, hf, hf, hf]

/-- Counterexample to C3 as stated: a body whose name is the number 0, with
email, date and time non-empty strings, has none of the four fields absent or
empty, and the book handler fails on it with status 400 and leaves the ledger
as it was. -/
theorem createBookingJson_rejects_zero :
    (zeroNameRequest.name ≠ .undefined ∧ zeroNameRequest.name ≠ .str "")
      ∧ (zeroNameRequest.email ≠ .undefined ∧ zeroNameRequest.email ≠ .str "")
      ∧ (zeroNameRequest.date ≠ .undefined ∧ zeroNameRequest.date ≠ .str "")
      ∧ (zeroNameRequest.time ≠ .undefined ∧ zeroNameRequest.time ≠ .str "")
      ∧ (createBookingJson 1748000000000 1748000000001 [] zeroNameRequest).1.success = false
      ∧ (createBookingJson 1748000000000 1748000000001 [] zeroNameRequest).1.status = 400
      ∧ (createBookingJson 1748000000000 1748000000001 [] zeroNameRequest).2 = [] := by
  refine ⟨⟨?_, ?_⟩, ⟨?_, ?_⟩, ⟨?_, ?_⟩, ⟨?_, ?_⟩, rfl, rfl, rfl⟩ <;>
    simp [zeroNameRequest]

end Provideo
